import Mathlib

/-!
Freestyle: a shallow embedding of `freestyle.c`.

The cipher engine of `src/freestyle.c` is rendered as pure Lean functions.

* 32-bit words are natural numbers reduced modulo `2^32` after every
  operation that can overflow; 16-bit hashes are reduced modulo `2^16`.
* The sixteen-word state `u32 input[16]` is the record `Words16`; the word
  at index `i` is the field `w i` (`CONSTANT0..3 = 0..3`, `KEY0..7 = 4..11`,
  `COUNTER = 12`, `IV0..2 = 13..15`).
* Arrays indexed by a loop variable (`R[]`, `CR[]`, `init_hash[]`, `hash[]`, the
  plaintext and ciphertext buffers) are functions from the index to the stored
  value.
* The array `bool hash_collided[65536]` is the list of the indices that have
  been set to `true`, most recent first.
* `assert` failures, division by zero and loops that never leave are the
  value `none`.
* Every call of `arc4random_uniform` is a parameter holding the value that
  the call returned.
-/

namespace Freestyle

/-! ## Word primitives (macros of `freestyle.h`) -/

/-- Modelled from the spec: the macro `PLUS` of the header `freestyle.h`,
which is not among the sources: 32-bit wrapping addition. -/
def PLUS (a b : Nat) : Nat := (a + b) % 4294967296

/-- Modelled from the spec: the macro `PLUSONE` of the missing header:
wrapping increment. -/
def PLUSONE (a : Nat) : Nat := PLUS a 1

/-- Modelled from the spec: the macro `MINUS` of the missing header: 32-bit
wrapping subtraction. -/
def MINUS (a b : Nat) : Nat := (a + (4294967296 - b % 4294967296)) % 4294967296

/-- Modelled from the spec: the macro `XOR` of the missing header. -/
def XOR (a b : Nat) : Nat := a ^^^ b

/-- Modelled from the spec: the macro `ROTATE` of the missing header:
rotate a 32-bit word left by `c` bits. -/
def ROTATE (v c : Nat) : Nat :=
  ((v <<< c) % 4294967296) ||| ((v % 4294967296) >>> (32 - c))

/-- Modelled from the spec: the macro `QR(a,b,c,d)` of the missing header, the
ChaCha quarter round `a += b; d ^= a; d <<<= 16; c += d; b ^= c; b <<<= 12;
a += b; d ^= a; d <<<= 8; c += d; b ^= c; b <<<= 7`.  The four updated words
are returned in the order `(a, b, c, d)`. -/
def QR (a b c d : Nat) : Nat × Nat × Nat × Nat :=
  let a1 := PLUS a b
  let d1 := ROTATE (XOR d a1) 16
  let c1 := PLUS c d1
  let b1 := ROTATE (XOR b c1) 12
  let a2 := PLUS a1 b1
  let d2 := ROTATE (XOR d1 a2) 8
  let c2 := PLUS c1 d2
  let b2 := ROTATE (XOR b1 c2) 7
  (a2, b2, c2, d2)

/-- Modelled from the spec: the macro `AXR(a,b,c,r)` of the missing header:
`a = a + b; c = c ^ a; c = rotl(c, r)`.  Returns the updated `(a, c)`. -/
def AXR (a b c r : Nat) : Nat × Nat :=
  let a1 := PLUS a b
  (a1, ROTATE (XOR c a1) r)

/-- Modelled from the spec: the macro `U8TO32_LITTLE` of the missing header:
the little-endian word stored in the four bytes at `p[off..off+4)`. -/
def U8TO32_LITTLE (p : List Nat) (off : Nat) : Nat :=
  (p.getD off 0 % 256) + (p.getD (off + 1) 0 % 256) * 256
    + (p.getD (off + 2) 0 % 256) * 65536 + (p.getD (off + 3) 0 % 256) * 16777216

/-- Modelled from the spec: the macro `U32TO8_LITTLE` of the missing header:
the four little-endian bytes of a word. -/
def U32TO8_LITTLE (v : Nat) : List Nat :=
  [v % 256, (v / 256) % 256, (v / 65536) % 256, (v / 16777216) % 256]

/-- Modelled from the spec: the constant string `sigma` of the missing header,
"expand 32-byte k". -/
def sigma : List Nat :=
  [101, 120, 112, 97, 110, 100, 32, 51, 50, 45, 98, 121, 116, 101, 32, 107]

/-- Modelled from the spec: the constant string `tau` of the missing header,
"expand 16-byte k". -/
def tau : List Nat :=
  [101, 120, 112, 97, 110, 100, 32, 49, 54, 45, 98, 121, 116, 101, 32, 107]

/-- Modelled from the spec: `MAX_HASH_VALUE` of the missing header, the
number of entries of `hash_collided` (the 16-bit space). -/
def MAX_HASH_VALUE : Nat := 65536

/-- Modelled from the spec: `MAX_INIT_HASHES` of the missing header. -/
def MAX_INIT_HASHES : Nat := 56

/-! ## The state -/

/-- The array `u32 x[16]`. -/
structure Words16 where
  w0 : Nat
  w1 : Nat
  w2 : Nat
  w3 : Nat
  w4 : Nat
  w5 : Nat
  w6 : Nat
  w7 : Nat
  w8 : Nat
  w9 : Nat
  w10 : Nat
  w11 : Nat
  w12 : Nat
  w13 : Nat
  w14 : Nat
  w15 : Nat
deriving DecidableEq, Repr

/-- Modelled from the spec: the struct `freestyle_ctx` of the missing header,
with the fields of the data model in section 3 of the spec. -/
structure freestyle_ctx where
  input : Words16
  min_rounds : Nat
  max_rounds : Nat
  num_rounds_possible : Nat
  hash_interval : Nat
  cipher_parameter : Nat × Nat
  rand : List Nat
  num_precomputed_rounds : Nat
  pepper_bits : Nat
  is_pepper_set : Bool
  pepper : Nat
  num_init_hashes : Nat
  init_hash : Nat → Nat
  initial_counter : Nat

/-! ## Rounds -/

/-- The function `freestyle_column_round`. -/
def freestyle_column_round (x : Words16) : Words16 :=
  match QR x.w0 x.w4 x.w8 x.w12, QR x.w1 x.w5 x.w9 x.w13,
        QR x.w2 x.w6 x.w10 x.w14, QR x.w3 x.w7 x.w11 x.w15 with
  | (a0, a4, a8, a12), (a1, a5, a9, a13), (a2, a6, a10, a14), (a3, a7, a11, a15) =>
    { w0 := a0, w1 := a1, w2 := a2, w3 := a3, w4 := a4, w5 := a5, w6 := a6, w7 := a7,
      w8 := a8, w9 := a9, w10 := a10, w11 := a11, w12 := a12, w13 := a13, w14 := a14,
      w15 := a15 }

/-- The function `freestyle_diagonal_round`. -/
def freestyle_diagonal_round (x : Words16) : Words16 :=
  match QR x.w0 x.w5 x.w10 x.w15, QR x.w1 x.w6 x.w11 x.w12,
        QR x.w2 x.w7 x.w8 x.w13, QR x.w3 x.w4 x.w9 x.w14 with
  | (a0, a5, a10, a15), (a1, a6, a11, a12), (a2, a7, a8, a13), (a3, a4, a9, a14) =>
    { w0 := a0, w1 := a1, w2 := a2, w3 := a3, w4 := a4, w5 := a5, w6 := a6, w7 := a7,
      w8 := a8, w9 := a9, w10 := a10, w11 := a11, w12 := a12, w13 := a13, w14 := a14,
      w15 := a15 }

/-- The body shared by the two round loops: `if (r & 1) column else diagonal`. -/
def round_at (r : Nat) (s : Words16) : Words16 :=
  if r % 2 = 1 then freestyle_column_round s else freestyle_diagonal_round s

/-- The rounds `r, r+1, …, r+n-1` applied in order. -/
def rounds_from : Nat → Nat → Words16 → Words16
  | 0, _, s => s
  | n + 1, r, s => rounds_from n (r + 1) (round_at r s)

/-- The function `freestyle_precompute_rounds`: rounds `1 .. num_precomputed_rounds`
applied to `x->input`.  (The `u8` loop variable cannot wrap for the values up to
16 that initialisation admits.) -/
def freestyle_precompute_rounds (x : freestyle_ctx) : freestyle_ctx :=
  { x with input := rounds_from x.num_precomputed_rounds 1 x.input }

/-- The function `freestyle_set_counter`. -/
def freestyle_set_counter (x : freestyle_ctx) (counter : Nat) : freestyle_ctx :=
  { x with input := { x.input with w12 := PLUS x.initial_counter counter } }

/-- The function `freestyle_increment_counter`. -/
def freestyle_increment_counter (x : freestyle_ctx) : freestyle_ctx :=
  { x with input := { x.input with w12 := PLUSONE x.input.w12 } }

/-! ## Key, IV and parameter setup -/

/-- The function `freestyle_keysetup`; `key + 16` is `key.drop 16`. -/
def freestyle_keysetup (x : freestyle_ctx) (key : List Nat) (key_length_bits : Nat) :
    freestyle_ctx :=
  let key2 := if key_length_bits = 256 then key.drop 16 else key
  let constants := if key_length_bits = 256 then sigma else tau
  { x with input :=
    { x.input with
      w4 := U8TO32_LITTLE key 0, w5 := U8TO32_LITTLE key 4,
      w6 := U8TO32_LITTLE key 8, w7 := U8TO32_LITTLE key 12,
      w8 := U8TO32_LITTLE key2 0, w9 := U8TO32_LITTLE key2 4,
      w10 := U8TO32_LITTLE key2 8, w11 := U8TO32_LITTLE key2 12,
      w0 := U8TO32_LITTLE constants 0, w1 := U8TO32_LITTLE constants 4,
      w2 := U8TO32_LITTLE constants 8, w3 := U8TO32_LITTLE constants 12 } }

/-- The function `freestyle_ivsetup`. -/
def freestyle_ivsetup (x : freestyle_ctx) (iv : List Nat) (counter : Nat) : freestyle_ctx :=
  { x with input :=
    { x.input with
      w12 := counter, w13 := U8TO32_LITTLE iv 0, w14 := U8TO32_LITTLE iv 4,
      w15 := U8TO32_LITTLE iv 8 } }

/-- The function `freestyle_hashsetup`. -/
def freestyle_hashsetup (x : freestyle_ctx) (hash_interval : Nat) : freestyle_ctx :=
  { x with hash_interval := hash_interval }

/-- The first packed word computed by `freestyle_roundsetup`. -/
def cipher_parameter0 (min_rounds max_rounds : Nat) : Nat :=
  ((min_rounds &&& 0xFFFF) <<< 16) ||| (max_rounds &&& 0xFFFF)

/-- The second packed word computed by `freestyle_roundsetup`. -/
def cipher_parameter1 (hash_interval pepper_bits num_init_hashes num_precomputed_rounds : Nat) :
    Nat :=
  ((hash_interval &&& 0xFFFF) <<< 16) ||| ((pepper_bits &&& 0x003F) <<< 10)
    ||| ((num_init_hashes &&& 0x003F) <<< 4) ||| (num_precomputed_rounds &&& 0xF)

/-- The function `freestyle_roundsetup`.  The division by `hash_interval` in the
last statement traps when `hash_interval` is zero. -/
def freestyle_roundsetup (x : freestyle_ctx)
    (min_rounds max_rounds num_precomputed_rounds pepper_bits num_init_hashes : Nat) :
    Option freestyle_ctx :=
  let cp0 := cipher_parameter0 min_rounds max_rounds
  let cp1 := cipher_parameter1 x.hash_interval pepper_bits num_init_hashes num_precomputed_rounds
  if x.hash_interval = 0 then none
  else some
    { x with
      min_rounds := min_rounds
      max_rounds := max_rounds
      num_precomputed_rounds := num_precomputed_rounds
      pepper_bits := pepper_bits
      num_init_hashes := num_init_hashes
      cipher_parameter := (cp0, cp1)
      rand := [0, 0, 0, 0, 0, 0, 0, 0]
      input := { x.input with w0 := XOR x.input.w0 cp0, w1 := XOR x.input.w1 cp1 }
      num_rounds_possible :=
        (1 + ((max_rounds + (4294967296 - min_rounds % 4294967296)) % 4294967296)
          / x.hash_interval) % 4294967296 }

/-! ## The block engine -/

/-- The function `freestyle_random_round_number`; `u` is the value returned by
`arc4random_uniform (max_rounds - min_rounds + hash_interval)`.  The result is
`none` when the division traps or one of the two assertions fails. -/
def freestyle_random_round_number (x : freestyle_ctx) (u : Nat) : Option Nat :=
  let R0 := PLUS x.min_rounds u
  if x.hash_interval = 0 then none
  else
    let R := (x.hash_interval * (R0 / x.hash_interval)) % 4294967296
    if x.min_rounds ≤ R ∧ R ≤ x.max_rounds then some R else none

/-- The argument handed to `arc4random_uniform` by `freestyle_random_round_number`,
computed in 32-bit arithmetic; the oracle returns a value below it. -/
def round_draw_bound (x : freestyle_ctx) : Nat :=
  (x.max_rounds + (4294967296 - x.min_rounds % 4294967296) + x.hash_interval) % 4294967296

/-- The function `freestyle_hash`. -/
def freestyle_hash (output : Words16) (previous_hash rounds : Nat) : Nat :=
  let t1 := AXR rounds output.w3 previous_hash 16
  let t2 := AXR t1.2 output.w6 t1.1 12
  let t3 := AXR t2.2 output.w9 t2.1 8
  let t4 := AXR t3.2 output.w12 t3.1 7
  (XOR (t4.2 &&& 0xFFFF) (t4.2 >>> 16)) % 65536

/-- The loop `while (hash_collided [hash]) ++hash;` on a `u16`.  After 65536
increments every entry has been seen set, and the C loop never leaves. -/
def probe (hash_collided : List Nat) : Nat → Nat → Option Nat
  | 0, _ => none
  | fuel + 1, hash =>
    if hash_collided.contains hash then probe hash_collided fuel ((hash + 1) % 65536)
    else some hash

/-- The local variables of the round loop of `freestyle_process_block`. -/
structure LoopState where
  r : Nat
  output32 : Words16
  hash : Nat
  hash_collided : List Nat

/-- The test `r >= x->min_rounds && r % x->hash_interval == 0`, for a non-zero
`hash_interval`. -/
def is_hash_round (x : freestyle_ctx) (r : Nat) : Bool :=
  decide (x.min_rounds ≤ r) && decide (r % x.hash_interval = 0)

/-- One pass through the body of the round loop, up to and including
`hash_collided [hash] = true`. -/
def round_body (x : freestyle_ctx) (st : LoopState) : Option LoopState :=
  let o := round_at st.r st.output32
  if x.min_rounds ≤ st.r ∧ x.hash_interval = 0 then none
  else if is_hash_round x st.r then
    match probe st.hash_collided MAX_HASH_VALUE (freestyle_hash o st.hash st.r) with
    | none => none
    | some h => some { r := st.r, output32 := o, hash := h, hash_collided := h :: st.hash_collided }
  else some { st with output32 := o }

/-- The loop `for (r = …; r <= rounds; ++r)` of `freestyle_process_block`, with
`n` passes left before the test `r <= rounds` fails.  On `break` the state is
returned with `r` not incremented. -/
def round_loop (x : freestyle_ctx) (do_decryption : Bool) (expected_hash : Nat) :
    Nat → LoopState → Option LoopState
  | 0, st => some st
  | n + 1, st =>
    match round_body x st with
    | none => none
    | some st1 =>
      if is_hash_round x st.r && do_decryption && decide (st1.hash = expected_hash) then some st1
      else round_loop x do_decryption expected_hash n { st1 with r := st.r + 1 }

/-- The words `output32[i] = PLUS (output32[i], x->input[i])`. -/
def add_words (a b : Words16) : Words16 :=
  { w0 := PLUS a.w0 b.w0, w1 := PLUS a.w1 b.w1, w2 := PLUS a.w2 b.w2, w3 := PLUS a.w3 b.w3,
    w4 := PLUS a.w4 b.w4, w5 := PLUS a.w5 b.w5, w6 := PLUS a.w6 b.w6, w7 := PLUS a.w7 b.w7,
    w8 := PLUS a.w8 b.w8, w9 := PLUS a.w9 b.w9, w10 := PLUS a.w10 b.w10,
    w11 := PLUS a.w11 b.w11, w12 := PLUS a.w12 b.w12, w13 := PLUS a.w13 b.w13,
    w14 := PLUS a.w14 b.w14, w15 := PLUS a.w15 b.w15 }

/-- The buffer `output8[64]` after the sixteen `U32TO8_LITTLE` stores. -/
def words_to_bytes (o : Words16) : List Nat :=
  U32TO8_LITTLE o.w0 ++ U32TO8_LITTLE o.w1 ++ U32TO8_LITTLE o.w2 ++ U32TO8_LITTLE o.w3
    ++ U32TO8_LITTLE o.w4 ++ U32TO8_LITTLE o.w5 ++ U32TO8_LITTLE o.w6 ++ U32TO8_LITTLE o.w7
    ++ U32TO8_LITTLE o.w8 ++ U32TO8_LITTLE o.w9 ++ U32TO8_LITTLE o.w10 ++ U32TO8_LITTLE o.w11
    ++ U32TO8_LITTLE o.w12 ++ U32TO8_LITTLE o.w13 ++ U32TO8_LITTLE o.w14 ++ U32TO8_LITTLE o.w15

/-- What a call of `freestyle_process_block` leaves behind: the returned round
count, the value of `*expected_hash` after the call and the bytes stored at
`ciphertext[0..bytes)` (no byte is stored by a setup block or after a failed
decryption). -/
structure BlockResult where
  rounds : Nat
  hash : Nat
  ciphertext : List Nat

/-- The local variables of `freestyle_process_block` when the round loop is
entered: `r = num_precomputed_rounds + 1`, `output32` a copy of `input` with
`rand[0]` folded into the counter, `hash = 0`, `hash_collided` cleared. -/
def block_start (x : freestyle_ctx) : LoopState :=
  { r := x.num_precomputed_rounds + 1
    output32 := { x.input with w12 := XOR x.input.w12 (x.rand.getD 0 0) }
    hash := 0
    hash_collided := [] }

/-- The bytes stored by the block `if (! init) { … }`: nothing for a setup block,
else `plaintext[i] ^ output8[i]` for `i < bytes`. -/
def block_output (x : freestyle_ctx) (output32 : Words16) (plaintext : Option (Nat → Nat))
    (bytes : Nat) : List Nat :=
  match plaintext with
  | none => []
  | some p =>
    (List.range bytes).map
      (fun i => XOR (p i) ((words_to_bytes (add_words output32 x.input)).getD i 0))

/-- The function `freestyle_process_block`.  `plaintext = none` stands for the
`NULL` buffers of a setup block, `expected_hash` is the value `*expected_hash`
on entry and `u` the value returned by the oracle (consulted in encrypt mode
only).  With `rounds = 2^32 - 1` the test `r <= rounds` can never fail; that
case is not modelled and yields `none`. -/
def freestyle_process_block (x : freestyle_ctx) (plaintext : Option (Nat → Nat))
    (bytes : Nat) (expected_hash : Nat) (do_encryption : Bool) (u : Nat) :
    Option BlockResult :=
  match (if do_encryption then freestyle_random_round_number x u else some x.max_rounds) with
  | none => none
  | some rounds =>
    if 4294967295 ≤ rounds then none
    else
      match round_loop x (!do_encryption) expected_hash (rounds - x.num_precomputed_rounds)
          (block_start x) with
      | none => none
      | some st =>
        if !do_encryption && decide (x.max_rounds < st.r) then
          some { rounds := 0, hash := expected_hash, ciphertext := [] }
        else
          some { rounds := if do_encryption then rounds else st.r
                 hash := if do_encryption then st.hash else expected_hash
                 ciphertext := block_output x st.output32 plaintext bytes }

/-- Modelled from the spec: the macro `freestyle_encrypt_block` of the missing
header: the block engine in encrypt mode. -/
def freestyle_encrypt_block (x : freestyle_ctx) (plaintext : Option (Nat → Nat))
    (bytes : Nat) (expected_hash : Nat) (u : Nat) : Option BlockResult :=
  freestyle_process_block x plaintext bytes expected_hash true u

/-- Modelled from the spec: the macro `freestyle_decrypt_block` of the missing
header: the block engine in decrypt mode. -/
def freestyle_decrypt_block (x : freestyle_ctx) (plaintext : Option (Nat → Nat))
    (bytes : Nat) (expected_hash : Nat) : Option BlockResult :=
  freestyle_process_block x plaintext bytes expected_hash false 0

/-! ## Randomised setup -/

/-- The assignment `a[i] = v` on an array passed by pointer. -/
def store (a : Nat → Nat) (i v : Nat) : Nat → Nat :=
  fun j => if j = i then v else a j

/-- The eight `AXR` steps that derive `rand[i]` from the array `R`. -/
def derive_rand (R : Nat → Nat) (i : Nat) : Nat :=
  let t1 := AXR 0 (R (7 * i + 0)) 0 16
  let t2 := AXR t1.2 (R (7 * i + 1)) t1.1 12
  let t3 := AXR t2.2 (R (7 * i + 2)) t2.1 8
  let t4 := AXR t3.2 (R (7 * i + 3)) t3.1 7
  let t5 := AXR t4.2 (R (7 * i + 4)) t4.1 16
  let t6 := AXR t5.2 (R (7 * i + 5)) t5.1 12
  let t7 := AXR t6.2 (R (7 * i + 6)) t6.1 8
  let t8 := AXR t7.2 (R (7 * i + 0)) t7.1 7
  t8.2

/-- The loop `for (i = 0; i < 8; ++i) x->rand[i] = …`. -/
def derive_rands (R : Nat → Nat) : List Nat :=
  [derive_rand R 0, derive_rand R 1, derive_rand R 2, derive_rand R 3,
   derive_rand R 4, derive_rand R 5, derive_rand R 6, derive_rand R 7]

/-- The assignments "set sane values for initalization". -/
def set_sane_values (x : freestyle_ctx) : freestyle_ctx :=
  { x with min_rounds := 12, max_rounds := 36, hash_interval := 1, num_precomputed_rounds := 4 }

/-- The common tail of the two setup functions, from the derivation of `rand[]`
to the user's pre-computation; `saved` holds the four saved user parameters. -/
def finish_setup (saved x : freestyle_ctx) (R : Nat → Nat) : freestyle_ctx :=
  let rand := derive_rands R
  freestyle_precompute_rounds
    { x with
      rand := rand
      min_rounds := saved.min_rounds
      max_rounds := saved.max_rounds
      hash_interval := saved.hash_interval
      num_precomputed_rounds := saved.num_precomputed_rounds
      input :=
        { x.input with
          w12 := x.initial_counter
          w13 := XOR x.input.w13 (rand.getD 1 0)
          w14 := XOR x.input.w14 (rand.getD 2 0)
          w15 := XOR x.input.w15 (rand.getD 3 0)
          w0 := XOR x.input.w0 (rand.getD 4 0)
          w1 := XOR x.input.w1 (rand.getD 5 0)
          w2 := XOR x.input.w2 (rand.getD 6 0)
          w3 := XOR x.input.w3 (rand.getD 7 0) } }

/-- The loop of `freestyle_randomsetup_encrypt` that runs the setup blocks in
encrypt mode, from block `i` with `n` blocks left; `us i` is the oracle's value
for block `i`. -/
def setup_encrypt_blocks (us : Nat → Nat) :
    Nat → Nat → freestyle_ctx → (Nat → Nat) → Option (freestyle_ctx × (Nat → Nat))
  | 0, _, x, R => some (x, R)
  | n + 1, i, x, R =>
    match freestyle_encrypt_block x none 0 (x.init_hash i) (us i) with
    | none => none
    | some b =>
      setup_encrypt_blocks us n (i + 1)
        (freestyle_increment_counter { x with init_hash := store x.init_hash i b.hash })
        (store R i b.rounds)

/-- The inner loop of both pepper searches: the setup blocks in decrypt mode,
from block `i` with `n` blocks left.  The flag is `false` when a block returned
0 (`goto continue_loop_…`). -/
def setup_decrypt_blocks :
    Nat → Nat → freestyle_ctx → (Nat → Nat) → Option (Bool × freestyle_ctx × (Nat → Nat))
  | 0, _, x, R => some (true, x, R)
  | n + 1, i, x, R =>
    match freestyle_decrypt_block x none 0 (x.init_hash i) with
    | none => none
    | some b =>
      if b.rounds = 0 then some (false, x, store R i b.rounds)
      else setup_decrypt_blocks n (i + 1) (freestyle_increment_counter x) (store R i b.rounds)

/-- The loop `for (p = 0; p < x->pepper; ++p)` of `freestyle_randomsetup_encrypt`,
with `n` candidates left.  Returns the context and the array `R`. -/
def encrypt_pepper_scan :
    Nat → freestyle_ctx → (Nat → Nat) → (Nat → Nat) → Option (freestyle_ctx × (Nat → Nat))
  | 0, x, R, _ => some (x, R)
  | n + 1, x, R, CR =>
    match setup_decrypt_blocks x.num_init_hashes 0
        { x with input := { x.input with w12 := x.initial_counter } } CR with
    | none => none
    | some (true, x1, CR1) => some (x1, CR1)
    | some (false, x1, CR1) =>
      encrypt_pepper_scan n { x1 with input := { x1.input with w3 := PLUSONE x1.input.w3 } } R CR1

/-- The loop `for (pepper = x->pepper; pepper <= max_pepper; ++pepper)` of
`freestyle_randomsetup_decrypt`, with `n` candidates left.  The flag tells
whether the loop was left by `break`. -/
def decrypt_pepper_scan :
    Nat → freestyle_ctx → (Nat → Nat) → Option (Bool × freestyle_ctx × (Nat → Nat))
  | 0, x, R => some (false, x, R)
  | n + 1, x, R =>
    match setup_decrypt_blocks x.num_init_hashes 0
        { x with input := { x.input with w12 := x.initial_counter } } R with
    | none => none
    | some (true, x1, R1) => some (true, x1, R1)
    | some (false, x1, R1) =>
      decrypt_pepper_scan n { x1 with input := { x1.input with w3 := PLUSONE x1.input.w3 } } R1

/-- The argument of the call of `arc4random_uniform` that draws the pepper. -/
def pepper_draw_bound (pepper_bits : Nat) : Nat :=
  if pepper_bits = 32 then 4294967295 else (1 <<< pepper_bits) % 4294967296

/-- The common head of the two setup functions: the sane values are installed,
the initial rounds are pre-computed, the counter is saved in `initial_counter`
and the pepper is added to constant[3]. -/
def setup_start (x : freestyle_ctx) : freestyle_ctx :=
  let x2 := freestyle_precompute_rounds (set_sane_values x)
  let x3 := { x2 with initial_counter := x2.input.w12 }
  { x3 with input := { x3.input with w3 := PLUS x3.input.w3 x3.pepper } }

/-- The function `freestyle_randomsetup_encrypt`; `pepper_draw` is the value
returned by the oracle for the pepper (used when the pepper is not set) and
`us i` the value returned for setup block `i`. -/
def freestyle_randomsetup_encrypt (x : freestyle_ctx) (pepper_draw : Nat) (us : Nat → Nat) :
    Option freestyle_ctx :=
  let x1 := if x.is_pepper_set then x else { x with pepper := pepper_draw }
  match setup_encrypt_blocks us x1.num_init_hashes 0 (setup_start x1) (fun _ => 0) with
  | none => none
  | some (x5, R) =>
    if x5.is_pepper_set then some (finish_setup x x5 R)
    else
      match encrypt_pepper_scan x5.pepper
          { x5 with input := { x5.input with w3 := MINUS x5.input.w3 x5.pepper } } R
          (fun _ => 0) with
      | none => none
      | some (x6, R6) => some (finish_setup x x6 R6)

/-- The value `max_pepper = (u32)(((u64)1 << x->pepper_bits) - 1)`. -/
def max_pepper (pepper_bits : Nat) : Nat := (2 ^ pepper_bits - 1) % 4294967296

/-- The number of times the test `pepper <= max_pepper` of the decrypt search can
succeed.  When `max_pepper` is `2^32 - 1` the test never fails; after `2^32`
failed candidates the loop is back in the state it started from. -/
def pepper_candidates (x : freestyle_ctx) : Nat :=
  if max_pepper x.pepper_bits = 4294967295 then 4294967296
  else max_pepper x.pepper_bits + 1 - x.pepper

/-- The function `freestyle_randomsetup_decrypt`.  When `max_pepper` is
`2^32 - 1` and no candidate decodes, the search goes on for ever. -/
def freestyle_randomsetup_decrypt (x : freestyle_ctx) : Option freestyle_ctx :=
  match decrypt_pepper_scan (pepper_candidates x) (setup_start x) (fun _ => 0) with
  | none => none
  | some (found, x5, R) =>
    if !found && decide (max_pepper x.pepper_bits = 4294967295) then none
    else some (finish_setup x x5 R)

/-! ## Session API -/

/-- The function `freestyle_init_common`: the twelve assertions (the first
remainder traps when `hash_interval` is zero; `min_rounds - 4` is computed in
unsigned 32-bit arithmetic), then the four setup calls on the caller's context. -/
def freestyle_init_common (x : freestyle_ctx) (key : List Nat) (key_length_bits : Nat)
    (iv : List Nat) (min_rounds max_rounds num_precomputed_rounds hash_interval pepper_bits
      num_init_hashes : Nat) : Option freestyle_ctx :=
  if hash_interval = 0 then none
  else if 1 ≤ min_rounds ∧ max_rounds ≤ 65536 ∧ min_rounds ≤ max_rounds
      ∧ min_rounds % hash_interval = 0 ∧ max_rounds % hash_interval = 0
      ∧ 1 ≤ num_precomputed_rounds ∧ num_precomputed_rounds ≤ 16
      ∧ num_precomputed_rounds ≤ (min_rounds + (4294967296 - 4)) % 4294967296
      ∧ 8 ≤ pepper_bits ∧ pepper_bits ≤ 32
      ∧ 7 ≤ num_init_hashes ∧ num_init_hashes ≤ 56 then
    freestyle_roundsetup
      (freestyle_hashsetup (freestyle_ivsetup (freestyle_keysetup x key key_length_bits) iv 0)
        hash_interval)
      min_rounds max_rounds num_precomputed_rounds pepper_bits num_init_hashes
  else none

/-- The function `freestyle_init_encrypt`. -/
def freestyle_init_encrypt (x : freestyle_ctx) (key : List Nat) (key_length_bits : Nat)
    (iv : List Nat) (min_rounds max_rounds num_precomputed_rounds hash_interval pepper_bits
      num_init_hashes : Nat) (pepper_draw : Nat) (us : Nat → Nat) : Option freestyle_ctx :=
  match freestyle_init_common x key key_length_bits iv min_rounds max_rounds
      num_precomputed_rounds hash_interval pepper_bits num_init_hashes with
  | none => none
  | some x1 =>
    freestyle_randomsetup_encrypt { x1 with pepper := 0, is_pepper_set := false } pepper_draw us

/-- The function `freestyle_init_encrypt_with_pepper`. -/
def freestyle_init_encrypt_with_pepper (x : freestyle_ctx) (key : List Nat)
    (key_length_bits : Nat) (iv : List Nat) (min_rounds max_rounds num_precomputed_rounds
      hash_interval pepper_bits num_init_hashes : Nat) (pepper : Nat) (us : Nat → Nat) :
    Option freestyle_ctx :=
  match freestyle_init_common x key key_length_bits iv min_rounds max_rounds
      num_precomputed_rounds hash_interval pepper_bits num_init_hashes with
  | none => none
  | some x1 =>
    freestyle_randomsetup_encrypt { x1 with pepper := pepper, is_pepper_set := true } 0 us

/-- The function `freestyle_init_decrypt`. -/
def freestyle_init_decrypt (x : freestyle_ctx) (key : List Nat) (key_length_bits : Nat)
    (iv : List Nat) (min_rounds max_rounds num_precomputed_rounds hash_interval pepper_bits
      num_init_hashes : Nat) (init_hash : Nat → Nat) : Option freestyle_ctx :=
  match freestyle_init_common x key key_length_bits iv min_rounds max_rounds
      num_precomputed_rounds hash_interval pepper_bits num_init_hashes with
  | none => none
  | some x1 =>
    freestyle_randomsetup_decrypt
      { x1 with pepper := 0, is_pepper_set := false, init_hash := init_hash }

/-- The function `freestyle_init_decrypt_with_pepper`. -/
def freestyle_init_decrypt_with_pepper (x : freestyle_ctx) (key : List Nat)
    (key_length_bits : Nat) (iv : List Nat) (min_rounds max_rounds num_precomputed_rounds
      hash_interval pepper_bits num_init_hashes : Nat) (pepper : Nat) (init_hash : Nat → Nat) :
    Option freestyle_ctx :=
  match freestyle_init_common x key key_length_bits iv min_rounds max_rounds
      num_precomputed_rounds hash_interval pepper_bits num_init_hashes with
  | none => none
  | some x1 =>
    freestyle_randomsetup_decrypt
      { x1 with pepper := pepper, is_pepper_set := true, init_hash := init_hash }

/-- The stores `ciphertext[off + j] = l[j]` for `j < l.length`. -/
def write_bytes (buf : Nat → Nat) (off : Nat) (l : List Nat) : Nat → Nat :=
  fun j => if off ≤ j ∧ j < off + l.length then l.getD (j - off) 0 else buf j

/-- What a call of `freestyle_process` leaves behind: the returned value, the
context and the two output arrays. -/
structure ProcessResult where
  ret : Int
  x : freestyle_ctx
  ciphertext : Nat → Nat
  hash : Nat → Nat

/-- The variables of the loop of `freestyle_process`. -/
structure ProcessState where
  x : freestyle_ctx
  i : Nat
  bytes : Nat
  block : Nat
  ciphertext : Nat → Nat
  hash : Nat → Nat

/-- The loop `while (bytes > 0)` of `freestyle_process`; the first argument
bounds the number of passes and `us k` is the oracle's value for block `k`. -/
def process_loop (plaintext : Nat → Nat) (do_encryption : Bool) (us : Nat → Nat) :
    Nat → ProcessState → Option ProcessResult
  | 0, s =>
    if s.bytes = 0 then some { ret := 0, x := s.x, ciphertext := s.ciphertext, hash := s.hash }
    else none
  | fuel + 1, s =>
    if s.bytes = 0 then some { ret := 0, x := s.x, ciphertext := s.ciphertext, hash := s.hash }
    else
      let bytes_to_process := if 64 ≤ s.bytes then 64 else s.bytes
      match freestyle_process_block s.x (some (fun j => plaintext (s.i + j))) bytes_to_process
          (s.hash s.block) do_encryption (us s.block) with
      | none => none
      | some b =>
        let ciphertext := write_bytes s.ciphertext s.i b.ciphertext
        let hash := store s.hash s.block b.hash
        if b.rounds < s.x.min_rounds then
          some { ret := -1, x := s.x, ciphertext := ciphertext, hash := hash }
        else
          process_loop plaintext do_encryption us fuel
            { x := freestyle_increment_counter s.x
              i := s.i + bytes_to_process
              bytes := s.bytes - bytes_to_process
              block := s.block + 1
              ciphertext := ciphertext
              hash := hash }

/-- The function `freestyle_process`.  Every pass consumes at least one byte, so
`bytes` passes are enough. -/
def freestyle_process (x : freestyle_ctx) (plaintext : Nat → Nat) (ciphertext : Nat → Nat)
    (bytes : Nat) (hash : Nat → Nat) (do_encryption : Bool) (us : Nat → Nat) :
    Option ProcessResult :=
  process_loop plaintext do_encryption us bytes
    { x := x, i := 0, bytes := bytes, block := 0, ciphertext := ciphertext, hash := hash }

/-! ## Predicates used in the statements -/

/-- The conditions on the parameters of a context under which the block engine
runs to completion in both modes. -/
def block_ok (x : freestyle_ctx) : Prop :=
  x.num_precomputed_rounds < x.min_rounds ∧ x.min_rounds ≤ x.max_rounds
    ∧ x.max_rounds ≤ 65536 ∧ x.min_rounds % x.hash_interval = 0
    ∧ x.max_rounds % x.hash_interval = 0

/-- The parameters installed by "set sane values for initalization". -/
def sane (x : freestyle_ctx) : Prop :=
  x.min_rounds = 12 ∧ x.max_rounds = 36 ∧ x.hash_interval = 1 ∧ x.num_precomputed_rounds = 4

/-- Two contexts that the block engine cannot tell apart. -/
def block_eq (x y : freestyle_ctx) : Prop :=
  x.input = y.input ∧ x.rand = y.rand ∧ x.min_rounds = y.min_rounds
    ∧ x.max_rounds = y.max_rounds ∧ x.hash_interval = y.hash_interval
    ∧ x.num_precomputed_rounds = y.num_precomputed_rounds

/-- The context with `input[COUNTER]` replaced. -/
def with_counter (x : freestyle_ctx) (w : Nat) : freestyle_ctx :=
  { x with input := { x.input with w12 := w } }

/-! ## Candidates of the pepper searches -/

/-- The context on which candidate pepper number `q` (counted from the pepper
the search starts at) is tried: constant[3] incremented `q` times, counter reset
to `initial_counter`. -/
def candidate (x : freestyle_ctx) (q : Nat) : freestyle_ctx :=
  { x with input := { x.input with w3 := PLUSONE^[q] x.input.w3, w12 := x.initial_counter } }

/-- Whether all `num_init_hashes` setup blocks decode for candidate `q`. -/
def candidate_decodes (x : freestyle_ctx) (q : Nat) : Bool :=
  match setup_decrypt_blocks x.num_init_hashes 0 (candidate x q) (fun _ => 0) with
  | some (true, _, _) => true
  | _ => false

/-- The round counts found for candidate `q`. -/
def decoded_rounds (x : freestyle_ctx) (q : Nat) : Nat → Nat :=
  match setup_decrypt_blocks x.num_init_hashes 0 (candidate x q) (fun _ => 0) with
  | some (_, _, S) => S
  | none => fun _ => 0

/-- The context a search moves to after a failed candidate. -/
def next_candidate (x : freestyle_ctx) (w : Nat) : freestyle_ctx :=
  { x with input := { x.input with w3 := PLUSONE x.input.w3, w12 := w } }

/-- Two contexts on which the pepper searches behave alike: they differ at most
in the counter word and in fields the searches do not read. -/
def setup_eq (x y : freestyle_ctx) : Prop :=
  (∃ w, x.input = { y.input with w12 := w }) ∧ x.rand = y.rand
    ∧ x.min_rounds = y.min_rounds ∧ x.max_rounds = y.max_rounds
    ∧ x.hash_interval = y.hash_interval
    ∧ x.num_precomputed_rounds = y.num_precomputed_rounds
    ∧ x.initial_counter = y.initial_counter
    ∧ x.num_init_hashes = y.num_init_hashes
    ∧ ∀ j, j < x.num_init_hashes → x.init_hash j = y.init_hash j

/-- The invariants of section 3 of the spec on a parameter tuple. -/
def valid_params (min_rounds max_rounds num_precomputed_rounds hash_interval pepper_bits
    num_init_hashes : Nat) : Prop :=
  1 ≤ min_rounds ∧ max_rounds ≤ 65536 ∧ min_rounds ≤ max_rounds
    ∧ min_rounds % hash_interval = 0 ∧ max_rounds % hash_interval = 0
    ∧ 1 ≤ num_precomputed_rounds ∧ num_precomputed_rounds ≤ 16
    ∧ num_precomputed_rounds + 4 ≤ min_rounds
    ∧ 8 ≤ pepper_bits ∧ pepper_bits ≤ 32
    ∧ 7 ≤ num_init_hashes ∧ num_init_hashes ≤ 56

instance (a b c d e f : Nat) : Decidable (valid_params a b c d e f) := by
  unfold valid_params
  infer_instance

/-! ## Example data for counterexamples and witnesses -/

/-- A context with `max_rounds + hash_interval > 2^32`: `min_rounds = 3`,
`max_rounds = 2^32 - 1`, `hash_interval = 3`. -/
def wide_ctx : freestyle_ctx :=
  { input := ⟨0, 0, 0, 0, 0, 0, 0, 0, 0, 0, 0, 0, 0, 0, 0, 0⟩
    min_rounds := 3
    max_rounds := 4294967295
    num_rounds_possible := 1431655765
    hash_interval := 3
    cipher_parameter := (0, 0)
    rand := [0, 0, 0, 0, 0, 0, 0, 0]
    num_precomputed_rounds := 1
    pepper_bits := 8
    is_pepper_set := true
    pepper := 0
    num_init_hashes := 7
    init_hash := fun _ => 0
    initial_counter := 0 }

/-- A context with the parameters of the end-to-end scenarios of the spec
(`min_rounds = 8`, `max_rounds = 32`, `num_precomputed_rounds = 4`,
`hash_interval = 4`, `pepper_bits = 8`, `num_init_hashes = 7`) and an all-zero
state. -/
def scenario_ctx : freestyle_ctx :=
  { input := ⟨0, 0, 0, 0, 0, 0, 0, 0, 0, 0, 0, 0, 0, 0, 0, 0⟩
    min_rounds := 8
    max_rounds := 32
    num_rounds_possible := 7
    hash_interval := 4
    cipher_parameter := (0, 0)
    rand := [0, 0, 0, 0, 0, 0, 0, 0]
    num_precomputed_rounds := 4
    pepper_bits := 8
    is_pepper_set := true
    pepper := 0
    num_init_hashes := 7
    init_hash := fun _ => 0
    initial_counter := 0 }

/-- The all-zero 256-bit key of the end-to-end scenarios. -/
def zero_key : List Nat := List.replicate 32 0

/-- The all-zero 12-byte IV of the end-to-end scenarios. -/
def zero_iv : List Nat := List.replicate 12 0

/-- The 17 bytes of "Hello, Freestyle!" (scenario 2), followed by zeros. -/
def hello_bytes : Nat → Nat :=
  fun j => [72, 101, 108, 108, 111, 44, 32, 70, 114, 101, 101, 115, 116, 121, 108, 101, 33].getD j 0

/-! ## Matching rounds of a block -/

/-- The value of `hash` after the pass for round `r` when the round loop runs
without `break` (at a hash round: the collision-resolved hash recorded there). -/
def resolved_hash (x : freestyle_ctx) (r : Nat) : Option Nat :=
  (round_loop x false 0 (r - x.num_precomputed_rounds) (block_start x)).map LoopState.hash

/-- Round `r` is a hash round of the loop whose collision-resolved hash is `e`. -/
def round_matches (x : freestyle_ctx) (e r : Nat) : Prop :=
  x.num_precomputed_rounds < r ∧ r ≤ x.max_rounds ∧ is_hash_round x r = true
    ∧ resolved_hash x r = some e

/-! ## Example data: a pepper search with `pepper_bits = 32` -/

/-- The init hashes written by `freestyle_init_encrypt_with_pepper` for the
all-zero key and IV, the parameters 8/32/4/4 with `pepper_bits = 32`, pepper 0
and 12 rounds in every setup block. -/
def wrap_init_hash : Nat → Nat :=
  fun j => [26627, 62170, 53606, 48115, 38129, 22007, 30550].getD j 0

/-- The context on which `freestyle_init_decrypt_with_pepper` calls
`freestyle_randomsetup_decrypt` for the all-zero key and IV, the parameters
8/32/4/4 with `pepper_bits = 32`, the given starting pepper and the init hashes
`wrap_init_hash`. -/
def wrap_ctx (pepper : Nat) : Option freestyle_ctx :=
  (freestyle_init_common scenario_ctx zero_key 256 zero_iv 8 32 4 4 32 7).map
    (fun x1 => { x1 with pepper := pepper, is_pepper_set := true, init_hash := wrap_init_hash })

/-! ## Example data: an exhausted pepper search -/

/-- Init hashes of which the first is the one that setup block 0 produces for
the all-zero key and IV with pepper 255 and 12 rounds, and the second matches
no round of setup block 1. -/
def exhausted_init_hash : Nat → Nat :=
  fun j => [45801, 24045, 0, 0, 0, 0, 0].getD j 0

/-- The context on which `freestyle_init_decrypt_with_pepper` calls
`freestyle_randomsetup_decrypt` for the all-zero key and IV, the parameters
8/32/4/4/8/7, the starting pepper 255 and the given init hashes. -/
def exhausted_ctx (init_hash : Nat → Nat) : Option freestyle_ctx :=
  (freestyle_init_common scenario_ctx zero_key 256 zero_iv 8 32 4 4 8 7).map
    (fun x1 => { x1 with pepper := 255, is_pepper_set := true, init_hash := init_hash })

/-! ## A second application of the pre-computation -/

/-- The context with `input[COUNTER]` restored to the value it has in `x0` and
`freestyle_precompute_rounds` applied again. -/
def precompute_again (x0 x : freestyle_ctx) : freestyle_ctx :=
  freestyle_precompute_rounds (with_counter x x0.input.w12)

/-! # Theorems -/

/-! ## Collision probing -/

theorem probe_not_mem {c : List Nat} :
    ∀ (fuel h h1 : Nat), probe c fuel h = some h1 → h1 ∉ c := by
  intro fuel
  induction fuel with
  | zero => intro h h1 hp; simp [probe] at hp
  | succ f ih =>
    intro h h1 hp
    unfold probe at hp
    by_cases hc : c.contains h = true
    · rw [if_pos hc] at hp; exact ih _ _ hp
    · rw [if_neg hc] at hp
      simp only [Option.some.injEq] at hp
      subst hp
      simpa using hc

theorem probe_lt {c : List Nat} :
    ∀ (fuel h h1 : Nat), h < 65536 → probe c fuel h = some h1 → h1 < 65536 := by
  intro fuel
  induction fuel with
  | zero => intro h h1 _ hp; simp [probe] at hp
  | succ f ih =>
    intro h h1 hlt hp
    unfold probe at hp
    by_cases hc : c.contains h = true
    · rw [if_pos hc] at hp; exact ih _ _ (Nat.mod_lt _ (by norm_num)) hp
    · rw [if_neg hc] at hp
      simp only [Option.some.injEq] at hp
      omega

theorem probe_none_mem {c : List Nat} :
    ∀ (fuel h : Nat), h < 65536 → probe c fuel h = none →
      ∀ j, j < fuel → (h + j) % 65536 ∈ c := by
  intro fuel
  induction fuel with
  | zero => intro h _ _ j hj; omega
  | succ f ih =>
    intro h hlt hp j hj
    unfold probe at hp
    by_cases hc : c.contains h = true
    · rw [if_pos hc] at hp
      rcases Nat.eq_zero_or_pos j with hj0 | hj0
      · subst hj0
        have : (h + 0) % 65536 = h := by omega
        rw [this]; simpa using hc
      · have h1 := ih _ (Nat.mod_lt _ (by norm_num)) hp (j - 1) (by omega)
        have : ((h + 1) % 65536 + (j - 1)) % 65536 = (h + j) % 65536 := by omega
        rwa [this] at h1
    · rw [if_neg hc] at hp; simp at hp

theorem probe_total {c : List Nat} (h : Nat) (hc : c.length < 65536) (hlt : h < 65536) :
    ∃ h1, probe c 65536 h = some h1 := by
  rcases hp : probe c 65536 h with _ | h1
  · exfalso
    have hall : ∀ v, v < 65536 → v ∈ c := by
      intro v hv
      have := probe_none_mem 65536 h hlt hp ((v + 65536 - h) % 65536)
        (Nat.mod_lt _ (by norm_num))
      have e : (h + (v + 65536 - h) % 65536) % 65536 = v := by omega
      rwa [e] at this
    have hsub : Finset.range 65536 ⊆ c.toFinset := by
      intro v hv
      simp only [Finset.mem_range] at hv
      simpa using hall v hv
    have h1 := Finset.card_le_card hsub
    have h2 := List.toFinset_card_le c
    simp only [Finset.card_range] at h1
    omega
  · exact ⟨h1, rfl⟩

theorem freestyle_hash_lt (o : Words16) (p r : Nat) : freestyle_hash o p r < 65536 := by
  unfold freestyle_hash
  exact Nat.mod_lt _ (by norm_num)

/-! ## The round loop -/

theorem round_body_r {x : freestyle_ctx} {st st1 : LoopState} (h : round_body x st = some st1) :
    st1.r = st.r ∧ st1.output32 = round_at st.r st.output32 := by
  unfold round_body at h
  simp only at h
  split_ifs at h with h1 h2
  · split at h
    · simp at h
    · simp only [Option.some.injEq] at h; subst h; exact ⟨rfl, rfl⟩
  · simp only [Option.some.injEq] at h; subst h; exact ⟨rfl, rfl⟩

theorem round_body_cases {x : freestyle_ctx} {st st1 : LoopState}
    (h : round_body x st = some st1) :
    (is_hash_round x st.r = false ∧ st1.hash = st.hash
        ∧ st1.hash_collided = st.hash_collided)
      ∨ (is_hash_round x st.r = true ∧ st1.hash_collided = st1.hash :: st.hash_collided
        ∧ st1.hash ∉ st.hash_collided ∧ st1.hash < 65536) := by
  unfold round_body at h
  simp only at h
  split_ifs at h with h1 h2
  · right
    split at h
    · simp at h
    · rename_i hv hp
      simp only [Option.some.injEq] at h; subst h
      exact ⟨h2, rfl, probe_not_mem _ _ _ hp,
        probe_lt _ _ _ (freestyle_hash_lt _ _ _) hp⟩
  · left
    simp only [Option.some.injEq] at h; subst h
    exact ⟨by simpa using h2, rfl, rfl⟩

theorem round_body_total (x : freestyle_ctx) (st : LoopState) (hi : x.hash_interval ≠ 0)
    (hc : st.hash_collided.length < 65536) : ∃ st1, round_body x st = some st1 := by
  unfold round_body
  simp only
  rw [if_neg (by tauto)]
  split_ifs with h2
  · obtain ⟨h1, hp⟩ := probe_total (freestyle_hash (round_at st.r st.output32) st.hash st.r) hc
      (freestyle_hash_lt _ _ _)
    unfold MAX_HASH_VALUE
    rw [hp]
    exact ⟨_, rfl⟩
  · exact ⟨_, rfl⟩

theorem round_body_length {x : freestyle_ctx} {st st1 : LoopState}
    (h : round_body x st = some st1) :
    st1.hash_collided.length ≤ st.hash_collided.length + 1 := by
  rcases round_body_cases h with ⟨_, _, h3⟩ | ⟨_, h3, _⟩
  · rw [h3]; omega
  · rw [h3]; simp

/-- The marks only grow during a pass. -/
theorem round_body_subset {x : freestyle_ctx} {st st1 : LoopState}
    (h : round_body x st = some st1) : ∀ v, v ∈ st.hash_collided → v ∈ st1.hash_collided := by
  intro v hv
  rcases round_body_cases h with ⟨_, _, h3⟩ | ⟨_, h3, _⟩
  · rw [h3]; exact hv
  · rw [h3]; exact List.mem_cons_of_mem _ hv

theorem round_body_nodup {x : freestyle_ctx} {st st1 : LoopState}
    (h : round_body x st = some st1) (hn : st.hash_collided.Nodup) :
    st1.hash_collided.Nodup := by
  rcases round_body_cases h with ⟨_, _, h3⟩ | ⟨_, h3, h4, _⟩
  · rw [h3]; exact hn
  · rw [h3]; exact List.nodup_cons.mpr ⟨h4, hn⟩

theorem round_loop_nodup (x : freestyle_ctx) (dec : Bool) (e : Nat) :
    ∀ (n : Nat) (st st1 : LoopState), round_loop x dec e n st = some st1 →
      st.hash_collided.Nodup → st1.hash_collided.Nodup := by
  intro n
  induction n with
  | zero =>
    intro st st1 h hn
    simp only [round_loop, Option.some.injEq] at h
    subst h; exact hn
  | succ n ih =>
    intro st st1 h hn
    unfold round_loop at h
    split at h
    · simp at h
    · rename_i st2 hb
      have hn2 := round_body_nodup hb hn
      split_ifs at h
      · simp only [Option.some.injEq] at h; subst h; exact hn2
      · exact ih _ _ h hn2

theorem round_loop_total (x : freestyle_ctx) (dec : Bool) (e : Nat) (hi : x.hash_interval ≠ 0) :
    ∀ (n : Nat) (st : LoopState), st.hash_collided.length + n ≤ 65536 →
      ∃ st1, round_loop x dec e n st = some st1 := by
  intro n
  induction n with
  | zero => intro st _; exact ⟨st, rfl⟩
  | succ n ih =>
    intro st hl
    obtain ⟨st2, hb⟩ := round_body_total x st hi (by omega)
    unfold round_loop
    rw [hb]
    simp only
    split_ifs
    · exact ⟨_, rfl⟩
    · exact ih _ (by have := round_body_length hb; simp only; omega)

/-- In encrypt mode the loop never breaks: one pass, then the rest. -/
theorem round_loop_enc_succ (x : freestyle_ctx) (e n : Nat) (st : LoopState) :
    round_loop x false e (n + 1) st
      = (round_body x st).bind (fun st1 => round_loop x false e n { st1 with r := st.r + 1 }) := by
  rw [round_loop]
  cases round_body x st with
  | none => rfl
  | some st1 => simp

/-- The expected hash is not consulted in encrypt mode. -/
theorem round_loop_enc_expected (x : freestyle_ctx) (e e1 : Nat) :
    ∀ (n : Nat) (st : LoopState), round_loop x false e n st = round_loop x false e1 n st := by
  intro n
  induction n with
  | zero => intro st; rfl
  | succ n ih =>
    intro st
    rw [round_loop_enc_succ, round_loop_enc_succ]
    cases round_body x st with
    | none => rfl
    | some st1 => simp only [Option.some_bind]; exact ih _

theorem round_loop_enc_output (x : freestyle_ctx) (e : Nat) :
    ∀ (n : Nat) (st st1 : LoopState), round_loop x false e n st = some st1 →
      st1.r = st.r + n ∧ st1.output32 = rounds_from n st.r st.output32 := by
  intro n
  induction n with
  | zero =>
    intro st st1 h
    simp only [round_loop, Option.some.injEq] at h
    subst h; exact ⟨rfl, rfl⟩
  | succ n ih =>
    intro st st1 h
    rw [round_loop_enc_succ] at h
    rcases hb : round_body x st with _ | st2
    · rw [hb] at h; simp at h
    · rw [hb] at h
      simp only [Option.some_bind] at h
      obtain ⟨h1, h2⟩ := ih _ _ h
      obtain ⟨_, h4⟩ := round_body_r hb
      simp only at h1 h2
      refine ⟨by omega, ?_⟩
      rw [h2, h4]; rfl

/-- The hash left by an encrypt-mode run whose last pass is a hash round was free
when the run started. -/
theorem round_loop_enc_fresh (x : freestyle_ctx) (e : Nat) :
    ∀ (n : Nat) (st st1 : LoopState), round_loop x false e (n + 1) st = some st1 →
      is_hash_round x (st.r + n) = true → st1.hash ∉ st.hash_collided := by
  intro n
  induction n with
  | zero =>
    intro st st1 h hr
    rw [round_loop_enc_succ] at h
    rcases hb : round_body x st with _ | st2
    · rw [hb] at h; simp at h
    · rw [hb] at h
      simp only [Option.some_bind, round_loop, Option.some.injEq] at h
      subst h
      rcases round_body_cases hb with ⟨h1, _, _⟩ | ⟨_, _, h4, _⟩
      · simp only [Nat.add_zero] at hr; rw [hr] at h1; simp at h1
      · exact h4
  | succ n ih =>
    intro st st1 h hr
    rw [round_loop_enc_succ] at h
    rcases hb : round_body x st with _ | st2
    · rw [hb] at h; simp at h
    · rw [hb] at h
      simp only [Option.some_bind] at h
      have hr2 : is_hash_round x (st.r + 1 + n) = true := by
        have : st.r + 1 + n = st.r + (n + 1) := by omega
        rw [this]; exact hr
      have := ih _ _ h hr2
      simp only at this
      intro hmem
      exact this (round_body_subset hb _ hmem)

/-- A decrypt-mode run that expects the hash left by an encrypt-mode run of `n + 1`
passes (the last one a hash round) breaks in that very pass, in the same state. -/
theorem round_loop_dec_of_enc (x : freestyle_ctx) (e : Nat) :
    ∀ (n : Nat) (st st1 : LoopState), round_loop x false e (n + 1) st = some st1 →
      is_hash_round x (st.r + n) = true →
      ∀ m, n + 1 ≤ m → round_loop x true st1.hash m st = some { st1 with r := st.r + n } := by
  intro n
  induction n with
  | zero =>
    intro st st1 h hr m hm
    rw [round_loop_enc_succ] at h
    rcases hb : round_body x st with _ | st2
    · rw [hb] at h; simp at h
    · rw [hb] at h
      simp only [Option.some_bind, round_loop, Option.some.injEq] at h
      subst h
      obtain ⟨m1, rfl⟩ : ∃ m1, m = m1 + 1 := ⟨m - 1, by omega⟩
      rw [round_loop, hb]
      simp only [Nat.add_zero] at hr ⊢
      simp only [hr, Bool.true_and, decide_True, ↓reduceIte]
      obtain ⟨h1, _⟩ := round_body_r hb
      rw [← h1]
  | succ n ih =>
    intro st st1 h hr m hm
    have hfresh := round_loop_enc_fresh x e (n + 1) st st1 h hr
    rw [round_loop_enc_succ] at h
    rcases hb : round_body x st with _ | st2
    · rw [hb] at h; simp at h
    · rw [hb] at h
      simp only [Option.some_bind] at h
      have hr2 : is_hash_round x (st.r + 1 + n) = true := by
        have : st.r + 1 + n = st.r + (n + 1) := by omega
        rw [this]; exact hr
      obtain ⟨m1, rfl⟩ : ∃ m1, m = m1 + 1 := ⟨m - 1, by omega⟩
      have h3 := ih _ _ h hr2 m1 (by omega)
      have hfresh2 := round_loop_enc_fresh x e n _ st1 h hr2
      simp only at hfresh2 h3
      rw [round_loop, hb]
      simp only
      have hne : ¬ (is_hash_round x st.r && true && decide (st2.hash = st1.hash)) = true := by
        intro hc
        simp only [Bool.and_true, Bool.and_eq_true, decide_eq_true_eq] at hc
        rcases round_body_cases hb with ⟨h1, _, _⟩ | ⟨_, h2, _, _⟩
        · rw [hc.1] at h1; simp at h1
        · apply hfresh2
          rw [h2, ← hc.2]
          exact List.mem_cons_self _ _
      rw [if_neg hne, h3]
      congr 1
      have : st.r + 1 + n = st.r + (n + 1) := by omega
      simp [this]

/-! ## The block engine depends on six fields of the context only -/

theorem round_body_congr {x y : freestyle_ctx} (h1 : x.min_rounds = y.min_rounds)
    (h2 : x.hash_interval = y.hash_interval) (st : LoopState) :
    round_body x st = round_body y st := by
  unfold round_body is_hash_round
  rw [h1, h2]

theorem round_loop_congr {x y : freestyle_ctx} (h1 : x.min_rounds = y.min_rounds)
    (h2 : x.hash_interval = y.hash_interval) (dec : Bool) (e : Nat) :
    ∀ (n : Nat) (st : LoopState), round_loop x dec e n st = round_loop y dec e n st := by
  intro n
  induction n with
  | zero => intro st; rfl
  | succ n ih =>
    intro st
    rw [round_loop, round_loop, round_body_congr h1 h2]
    have : is_hash_round x st.r = is_hash_round y st.r := by
      unfold is_hash_round; rw [h1, h2]
    rw [this]
    cases round_body y st with
    | none => rfl
    | some st1 => simp only [ih]

theorem process_block_congr {x y : freestyle_ctx} (hin : x.input = y.input)
    (hr : x.rand = y.rand) (h1 : x.min_rounds = y.min_rounds)
    (h2 : x.max_rounds = y.max_rounds) (h3 : x.hash_interval = y.hash_interval)
    (h4 : x.num_precomputed_rounds = y.num_precomputed_rounds)
    (p : Option (Nat → Nat)) (bytes e : Nat) (enc : Bool) (u : Nat) :
    freestyle_process_block x p bytes e enc u = freestyle_process_block y p bytes e enc u := by
  have hs : block_start x = block_start y := by
    unfold block_start; rw [hin, hr, h4]
  have ho : ∀ o, block_output x o p bytes = block_output y o p bytes := by
    intro o; unfold block_output; rw [hin]
  have hrr : freestyle_random_round_number x u = freestyle_random_round_number y u := by
    unfold freestyle_random_round_number; rw [h1, h2, h3]
  unfold freestyle_process_block
  rw [hrr, h2, h4, hs]
  simp only [round_loop_congr h1 h3, ho]

/-! ## The random round count -/

theorem random_round_number_spec (x : freestyle_ctx) (u : Nat)
    (hle : x.min_rounds ≤ x.max_rounds) (hmin : x.min_rounds % x.hash_interval = 0)
    (hmax : x.max_rounds % x.hash_interval = 0) (hhi : 1 ≤ x.hash_interval)
    (hbound : x.max_rounds + x.hash_interval ≤ 4294967296)
    (hu : u < x.max_rounds - x.min_rounds + x.hash_interval) :
    ∃ R, freestyle_random_round_number x u = some R ∧ x.min_rounds ≤ R ∧ R ≤ x.max_rounds
      ∧ R % x.hash_interval = 0 := by
  obtain ⟨a, ha⟩ := Nat.dvd_of_mod_eq_zero hmin
  obtain ⟨b, hb⟩ := Nat.dvd_of_mod_eq_zero hmax
  have hR0 : PLUS x.min_rounds u = x.min_rounds + u := by
    unfold PLUS; apply Nat.mod_eq_of_lt; omega
  set q := (x.min_rounds + u) / x.hash_interval with hq
  have hq1 : a ≤ q := by
    rw [hq, Nat.le_div_iff_mul_le (by omega)]
    rw [Nat.mul_comm, ← ha]; omega
  have hq2 : q ≤ b := by
    have : q < b + 1 := by
      rw [hq, Nat.div_lt_iff_lt_mul (by omega)]
      rw [Nat.add_mul, Nat.mul_comm b, ← hb]; omega
    omega
  have hlo : x.min_rounds ≤ x.hash_interval * q := by
    rw [ha]; exact Nat.mul_le_mul_left _ hq1
  have hhi2 : x.hash_interval * q ≤ x.max_rounds := by
    rw [hb]; exact Nat.mul_le_mul_left _ hq2
  have hmod : (x.hash_interval * q) % 4294967296 = x.hash_interval * q := by
    apply Nat.mod_eq_of_lt; omega
  refine ⟨x.hash_interval * q, ?_, hlo, hhi2, Nat.mul_mod_right _ _⟩
  unfold freestyle_random_round_number
  simp only [hR0]
  rw [if_neg (by omega), ← hq, hmod, if_pos ⟨hlo, hhi2⟩]

/-! ## One block, both directions -/

theorem block_ok_hash_interval {x : freestyle_ctx} (h : block_ok x) :
    1 ≤ x.hash_interval ∧ x.hash_interval ≤ x.min_rounds := by
  obtain ⟨h1, h2, h3, h4, h5⟩ := h
  have hne : x.hash_interval ≠ 0 := by
    intro h0; rw [h0, Nat.mod_zero] at h4; omega
  refine ⟨by omega, ?_⟩
  exact Nat.le_of_dvd (by omega) (Nat.dvd_of_mod_eq_zero h4)

/-- What the block engine does for one block: in encrypt mode it returns a round
count `R` in the window, a hash `h` and the input XORed with a keystream; in
decrypt mode, given that hash, it returns the same `R` and XORs with the same
keystream. -/
theorem block_pair (x : freestyle_ctx) (u : Nat) (hok : block_ok x)
    (hu : u < x.max_rounds - x.min_rounds + x.hash_interval) :
    ∃ R h o, x.min_rounds ≤ R ∧ R ≤ x.max_rounds ∧ R % x.hash_interval = 0
      ∧ freestyle_random_round_number x u = some R
      ∧ (∀ p bytes e, freestyle_process_block x p bytes e true u
          = some { rounds := R, hash := h, ciphertext := block_output x o p bytes })
      ∧ (∀ p bytes v, freestyle_process_block x p bytes h false v
          = some { rounds := R, hash := h, ciphertext := block_output x o p bytes }) := by
  obtain ⟨hhi1, hhi2⟩ := block_ok_hash_interval hok
  obtain ⟨h1, h2, h3, h4, h5⟩ := hok
  obtain ⟨R, hR, hlo, hup, hmod⟩ :=
    random_round_number_spec x u h2 h4 h5 hhi1 (by omega) hu
  obtain ⟨st, hst⟩ := round_loop_total x false 0 (by omega)
    (R - x.num_precomputed_rounds) (block_start x) (by simp [block_start]; omega)
  have hE : ∀ e, round_loop x false e (R - x.num_precomputed_rounds) (block_start x)
      = some st := by
    intro e; rw [round_loop_enc_expected x e 0]; exact hst
  obtain ⟨n, hn⟩ : ∃ n, R - x.num_precomputed_rounds = n + 1 :=
    ⟨R - x.num_precomputed_rounds - 1, by omega⟩
  have hround : is_hash_round x ((block_start x).r + n) = true := by
    have : (block_start x).r + n = R := by simp only [block_start]; omega
    rw [this]
    simp [is_hash_round, hlo, hmod]
  have hD := round_loop_dec_of_enc x 0 n (block_start x) st (by rw [← hn]; exact hst) hround
    (x.max_rounds - x.num_precomputed_rounds) (by omega)
  have hr : (block_start x).r + n = R := by simp only [block_start]; omega
  refine ⟨R, st.hash, st.output32, hlo, hup, hmod, hR, ?_, ?_⟩
  · intro p bytes e
    unfold freestyle_process_block
    simp only [if_true, hR, Bool.not_true, hE e]
    rw [if_neg (by omega)]
    simp
  · intro p bytes v
    unfold freestyle_process_block
    simp only [Bool.false_eq_true, if_false, Bool.not_false, hD, hr]
    rw [if_neg (by omega)]
    simp only [Bool.true_and, decide_eq_true_eq]
    rw [if_neg (by omega)]

/-! ## Stream processing -/

theorem store_self (a : Nat → Nat) (i : Nat) : store a i (a i) = a := by
  funext j
  unfold store
  split_ifs with h
  · rw [h]
  · rfl

theorem block_output_length (x : freestyle_ctx) (o : Words16) (p : Nat → Nat) (bytes : Nat) :
    (block_output x o (some p) bytes).length = bytes := by
  simp [block_output]

theorem block_output_getD (x : freestyle_ctx) (o : Words16) (p : Nat → Nat) (bytes j : Nat)
    (hj : j < bytes) :
    (block_output x o (some p) bytes).getD j 0
      = XOR (p j) ((words_to_bytes (add_words o x.input)).getD j 0) := by
  simp [block_output, List.getD_eq_getElem?_getD, List.getElem?_map, List.getElem?_range hj]

theorem process_loop_zero_bytes (pt : Nat → Nat) (enc : Bool) (us : Nat → Nat) (fuel : Nat)
    (s : ProcessState) (h : s.bytes = 0) :
    process_loop pt enc us fuel s
      = some { ret := 0, x := s.x, ciphertext := s.ciphertext, hash := s.hash } := by
  cases fuel <;> simp [process_loop, h]

theorem process_loop_step (pt : Nat → Nat) (enc : Bool) (us : Nat → Nat) (fuel : Nat)
    (s : ProcessState) (b : BlockResult) (h : s.bytes ≠ 0)
    (hb : freestyle_process_block s.x (some (fun j => pt (s.i + j))) (min 64 s.bytes)
      (s.hash s.block) enc (us s.block) = some b)
    (hr : s.x.min_rounds ≤ b.rounds) :
    process_loop pt enc us (fuel + 1) s
      = process_loop pt enc us fuel
          { x := freestyle_increment_counter s.x
            i := s.i + min 64 s.bytes
            bytes := s.bytes - min 64 s.bytes
            block := s.block + 1
            ciphertext := write_bytes s.ciphertext s.i b.ciphertext
            hash := store s.hash s.block b.hash } := by
  have hm : (if 64 ≤ s.bytes then 64 else s.bytes) = min 64 s.bytes := by
    split_ifs <;> omega
  rw [process_loop]
  simp only [hm, hb, if_neg h]
  rw [if_neg (by omega)]

theorem block_ok_increment (x : freestyle_ctx) (k : Nat) :
    block_ok (freestyle_increment_counter^[k] x) ↔ block_ok x := by
  induction k generalizing x with
  | zero => rfl
  | succ k ih => rw [Function.iterate_succ_apply, ih]; rfl

theorem increment_params (x : freestyle_ctx) (k : Nat) :
    (freestyle_increment_counter^[k] x).min_rounds = x.min_rounds
      ∧ (freestyle_increment_counter^[k] x).max_rounds = x.max_rounds
      ∧ (freestyle_increment_counter^[k] x).hash_interval = x.hash_interval := by
  induction k generalizing x with
  | zero => exact ⟨rfl, rfl, rfl⟩
  | succ k ih => rw [Function.iterate_succ_apply]; exact ih _

theorem write_bytes_outside (buf : Nat → Nat) (off : Nat) (l : List Nat) (j : Nat)
    (h : j < off ∨ off + l.length ≤ j) : write_bytes buf off l j = buf j := by
  unfold write_bytes
  rw [if_neg (by omega)]

theorem write_bytes_inside (buf : Nat → Nat) (off : Nat) (l : List Nat) (j : Nat)
    (h : j < l.length) : write_bytes buf off l (off + j) = l.getD j 0 := by
  unfold write_bytes
  rw [if_pos (by omega)]
  congr 1
  omega

theorem store_other (a : Nat → Nat) (i v j : Nat) (h : j ≠ i) : store a i v j = a j := by
  unfold store
  rw [if_neg h]

theorem store_same (a : Nat → Nat) (i v : Nat) : store a i v i = v := by
  unfold store
  rw [if_pos rfl]

/-- Encrypting a stream: the loop of `freestyle_process` in encrypt mode, started
in state `s` on a context that passes `block_ok`, returns 0 after
`⌈bytes / 64⌉` blocks, each the result of one call of the block engine. -/
theorem process_loop_enc (pt us : Nat → Nat) :
    ∀ (fuel : Nat) (s : ProcessState), block_ok s.x →
      (∀ k, us k < s.x.max_rounds - s.x.min_rounds + s.x.hash_interval) →
      s.bytes ≤ fuel →
      ∃ re, process_loop pt true us fuel s = some re ∧ re.ret = 0
        ∧ re.x = freestyle_increment_counter^[(s.bytes + 63) / 64] s.x
        ∧ (∀ j, j < s.i ∨ s.i + s.bytes ≤ j → re.ciphertext j = s.ciphertext j)
        ∧ (∀ k, k < s.block ∨ s.block + (s.bytes + 63) / 64 ≤ k → re.hash k = s.hash k)
        ∧ (∀ k, k < (s.bytes + 63) / 64 → ∃ b,
            freestyle_process_block (freestyle_increment_counter^[k] s.x)
              (some (fun j => pt (s.i + 64 * k + j))) (min 64 (s.bytes - 64 * k))
              (s.hash (s.block + k)) true (us (s.block + k)) = some b
            ∧ s.x.min_rounds ≤ b.rounds
            ∧ re.hash (s.block + k) = b.hash
            ∧ ∀ j, j < min 64 (s.bytes - 64 * k) →
                re.ciphertext (s.i + 64 * k + j) = b.ciphertext.getD j 0) := by
  intro fuel
  induction fuel with
  | zero =>
    intro s _ _ hf
    have h0 : s.bytes = 0 := by omega
    refine ⟨_, process_loop_zero_bytes pt true us 0 s h0, rfl, ?_, ?_, ?_, ?_⟩
    · rw [h0]; rfl
    · intro j _; rfl
    · intro k _; rfl
    · intro k hk; rw [h0] at hk; omega
  | succ fuel ih =>
    intro s hok hus hf
    by_cases h0 : s.bytes = 0
    · refine ⟨_, process_loop_zero_bytes pt true us _ s h0, rfl, ?_, ?_, ?_, ?_⟩
      · rw [h0]; rfl
      · intro j _; rfl
      · intro k _; rfl
      · intro k hk; rw [h0] at hk; omega
    · obtain ⟨R, h, o, hlo, _, _, _, hE, _⟩ := block_pair s.x (us s.block) hok (hus s.block)
      have hb := hE (some (fun j => pt (s.i + j))) (min 64 s.bytes) (s.hash s.block)
      have hstep := process_loop_step pt true us fuel s _ h0 hb hlo
      obtain ⟨re, hre, hret, hx, hfc, hfh, hcont⟩ := ih
        { x := freestyle_increment_counter s.x
          i := s.i + min 64 s.bytes
          bytes := s.bytes - min 64 s.bytes
          block := s.block + 1
          ciphertext := write_bytes s.ciphertext s.i
            (block_output s.x o (some (fun j => pt (s.i + j))) (min 64 s.bytes))
          hash := store s.hash s.block h }
        ((block_ok_increment s.x 1).mpr hok) hus (by simp only; omega)
      simp only at hre hx hfc hfh hcont
      have hnb : (s.bytes + 63) / 64 = (s.bytes - min 64 s.bytes + 63) / 64 + 1 := by omega
      refine ⟨re, by rw [hstep]; exact hre, hret, ?_, ?_, ?_, ?_⟩
      · rw [hx, hnb, Function.iterate_succ_apply]
      · intro j hj
        rw [hfc j (by omega)]
        exact write_bytes_outside _ _ _ _ (by rw [block_output_length]; omega)
      · intro k hk
        rw [hfh k (by omega)]
        exact store_other _ _ _ _ (by omega)
      · intro k hk
        rcases Nat.eq_zero_or_pos k with hk0 | hk0
        · subst hk0
          refine ⟨_, hb, hlo, ?_, ?_⟩
          · rw [hfh _ (by omega)]; exact store_same _ _ _
          · intro j hj
            simp only [Nat.mul_zero, Nat.add_zero, Nat.sub_zero] at hj ⊢
            rw [hfc _ (by omega)]
            exact write_bytes_inside _ _ _ _ (by rw [block_output_length]; exact hj)
        · obtain ⟨k1, rfl⟩ : ∃ k1, k = k1 + 1 := ⟨k - 1, by omega⟩
          have h64 : min 64 s.bytes = 64 := by omega
          obtain ⟨b, hb1, hb2, hb3, hb4⟩ := hcont k1 (by omega)
          have e1 : s.i + min 64 s.bytes + 64 * k1 = s.i + 64 * (k1 + 1) := by omega
          have e2 : s.bytes - min 64 s.bytes - 64 * k1 = s.bytes - 64 * (k1 + 1) := by omega
          have e3 : s.block + 1 + k1 = s.block + (k1 + 1) := by omega
          rw [e1, e2, e3, store_other _ _ _ _ (by omega)] at hb1
          rw [e3] at hb3
          rw [e1, e2] at hb4
          exact ⟨b, by rw [Function.iterate_succ_apply]; exact hb1, hb2, hb3, hb4⟩

/-- Decrypting a stream: when the buffer `C` and the hash array `H` hold, block by
block, what the block engine produced in encrypt mode from the bytes `pt`, the
loop of `freestyle_process` in decrypt mode returns 0 and stores `pt`. -/
theorem process_loop_dec (pt C H usD : Nat → Nat) :
    ∀ (fuel : Nat) (s : ProcessState), block_ok s.x → s.bytes ≤ fuel → s.hash = H →
      (∀ k, k < (s.bytes + 63) / 64 → ∃ u e b,
          u < s.x.max_rounds - s.x.min_rounds + s.x.hash_interval
          ∧ freestyle_process_block (freestyle_increment_counter^[k] s.x)
              (some (fun j => pt (s.i + 64 * k + j))) (min 64 (s.bytes - 64 * k))
              e true u = some b
          ∧ H (s.block + k) = b.hash
          ∧ ∀ j, j < min 64 (s.bytes - 64 * k) →
              C (s.i + 64 * k + j) = b.ciphertext.getD j 0) →
      ∃ rd, process_loop C false usD fuel s = some rd ∧ rd.ret = 0
        ∧ rd.x = freestyle_increment_counter^[(s.bytes + 63) / 64] s.x
        ∧ rd.hash = H
        ∧ (∀ j, s.i ≤ j → j < s.i + s.bytes → rd.ciphertext j = pt j)
        ∧ (∀ j, j < s.i ∨ s.i + s.bytes ≤ j → rd.ciphertext j = s.ciphertext j) := by
  intro fuel
  induction fuel with
  | zero =>
    intro s _ hf hH _
    have h0 : s.bytes = 0 := by omega
    refine ⟨_, process_loop_zero_bytes C false usD 0 s h0, rfl, ?_, hH, ?_, ?_⟩
    · rw [h0]; rfl
    · intro j h1 h2; omega
    · intro j _; rfl
  | succ fuel ih =>
    intro s hok hf hH hcont
    by_cases h0 : s.bytes = 0
    · refine ⟨_, process_loop_zero_bytes C false usD _ s h0, rfl, ?_, hH, ?_, ?_⟩
      · rw [h0]; rfl
      · intro j h1 h2; omega
      · intro j _; rfl
    · obtain ⟨u, e, b, hu, hb, hbh, hbc⟩ := hcont 0 (by omega)
      simp only [Function.iterate_zero, id_eq, Nat.mul_zero, Nat.add_zero, Nat.sub_zero]
        at hb hbh hbc
      obtain ⟨R, h, o, hlo, _, _, _, hE, hD⟩ := block_pair s.x u hok hu
      rw [hE] at hb
      simp only [Option.some.injEq] at hb
      subst hb
      simp only at hbh hbc
      have hd := hD (some (fun j => C (s.i + j))) (min 64 s.bytes) (usD s.block)
      rw [← hbh, ← hH] at hd
      have hstep := process_loop_step C false usD fuel s _ h0 hd hlo
      simp only at hstep
      rw [store_self] at hstep
      obtain ⟨rd, hrd, hret, hx, hh, hin, hout⟩ := ih
        { x := freestyle_increment_counter s.x
          i := s.i + min 64 s.bytes
          bytes := s.bytes - min 64 s.bytes
          block := s.block + 1
          ciphertext := write_bytes s.ciphertext s.i
            (block_output s.x o (some (fun j => C (s.i + j))) (min 64 s.bytes))
          hash := s.hash }
        ((block_ok_increment s.x 1).mpr hok) (by simp only; omega) hH
        (by
          intro k hk
          simp only at hk ⊢
          have h64 : min 64 s.bytes = 64 := by omega
          obtain ⟨u1, e1, b1, hu1, hb1, hb2, hb3⟩ := hcont (k + 1) (by omega)
          have e1 : s.i + min 64 s.bytes + 64 * k = s.i + 64 * (k + 1) := by omega
          have e2 : s.bytes - min 64 s.bytes - 64 * k = s.bytes - 64 * (k + 1) := by omega
          have e3 : s.block + 1 + k = s.block + (k + 1) := by omega
          rw [e1, e2, e3]
          exact ⟨u1, _, b1, hu1, by rw [Function.iterate_succ_apply] at hb1; exact hb1,
            hb2, hb3⟩)
      simp only at hrd hx hin hout
      have hnb : (s.bytes + 63) / 64 = (s.bytes - min 64 s.bytes + 63) / 64 + 1 := by omega
      refine ⟨rd, by rw [hstep]; exact hrd, hret, ?_, hh, ?_, ?_⟩
      · rw [hx, hnb, Function.iterate_succ_apply]
      · intro j h1 h2
        by_cases hj : j < s.i + min 64 s.bytes
        · rw [hout j (Or.inl hj)]
          obtain ⟨d, rfl⟩ : ∃ d, j = s.i + d := ⟨j - s.i, by omega⟩
          rw [write_bytes_inside _ _ _ _ (by rw [block_output_length]; omega),
            block_output_getD _ _ _ _ _ (by omega), hbc d (by omega),
            block_output_getD _ _ _ _ _ (by omega)]
          unfold XOR
          exact Nat.xor_cancel_right _ _
        · exact hin j (by omega) (by omega)
      · intro j hj
        rw [hout j (by omega)]
        exact write_bytes_outside _ _ _ _ (by rw [block_output_length]; omega)

/-! ## The setup blocks -/

theorem sane_block_ok {x : freestyle_ctx} (h : sane x) : block_ok x := by
  obtain ⟨h1, h2, h3, h4⟩ := h
  unfold block_ok
  rw [h1, h2, h3, h4]
  decide

theorem block_eq_process {x y : freestyle_ctx} (h : block_eq x y) (p : Option (Nat → Nat))
    (bytes e : Nat) (enc : Bool) (u : Nat) :
    freestyle_process_block x p bytes e enc u = freestyle_process_block y p bytes e enc u :=
  process_block_congr h.1 h.2.1 h.2.2.1 h.2.2.2.1 h.2.2.2.2.1 h.2.2.2.2.2 p bytes e enc u

theorem block_eq_increment {x y : freestyle_ctx} (h : block_eq x y) :
    block_eq (freestyle_increment_counter x) (freestyle_increment_counter y) := by
  obtain ⟨h1, h2, h3, h4, h5, h6⟩ := h
  refine ⟨?_, h2, h3, h4, h5, h6⟩
  simp only [freestyle_increment_counter, h1]

/-- In decrypt mode the block engine always returns on a context with the setup
parameters. -/
theorem decrypt_block_total (x : freestyle_ctx) (hs : sane x) (p : Option (Nat → Nat))
    (bytes e : Nat) : ∃ b, freestyle_decrypt_block x p bytes e = some b := by
  obtain ⟨h1, h2, h3, h4⟩ := hs
  obtain ⟨st, hst⟩ := round_loop_total x true e (by omega)
    (x.max_rounds - x.num_precomputed_rounds) (block_start x)
    (by simp only [block_start, List.length_nil]; omega)
  unfold freestyle_decrypt_block freestyle_process_block
  simp only [Bool.false_eq_true, if_false, Bool.not_false, hst]
  rw [if_neg (by omega)]
  split_ifs
  · exact ⟨_, rfl⟩
  · exact ⟨_, rfl⟩

/-- The inner decrypt loop on two contexts that differ in fields the loop does
not read: same verdict, same counter, same round counts. -/
theorem setup_decrypt_blocks_congr :
    ∀ (n i : Nat) (x y : freestyle_ctx) (R R1 : Nat → Nat), sane x → block_eq x y →
      (∀ j, i ≤ j → j < i + n → x.init_hash j = y.init_hash j) →
      ∃ flag w S S1,
        setup_decrypt_blocks n i x R = some (flag, with_counter x w, S)
        ∧ setup_decrypt_blocks n i y R1 = some (flag, with_counter y w, S1)
        ∧ (∀ j, j < i ∨ i + n ≤ j → S j = R j ∧ S1 j = R1 j)
        ∧ (flag = true → ∀ j, i ≤ j → j < i + n → S j = S1 j) := by
  intro n
  induction n with
  | zero =>
    intro i x y R R1 _ he _
    refine ⟨true, x.input.w12, R, R1, rfl, ?_, ?_, ?_⟩
    · simp only [setup_decrypt_blocks, with_counter, he.1]
    · intro j _; exact ⟨rfl, rfl⟩
    · intro _ j h1 h2; omega
  | succ n ih =>
    intro i x y R R1 hs he hih
    obtain ⟨b, hb⟩ := decrypt_block_total x hs none 0 (x.init_hash i)
    have hb1 : freestyle_decrypt_block y none 0 (y.init_hash i) = some b := by
      rw [← hih i (Nat.le_refl _) (by omega), ← hb]
      exact (block_eq_process he _ _ _ _ _).symm
    by_cases hz : b.rounds = 0
    · refine ⟨false, x.input.w12, store R i b.rounds, store R1 i b.rounds, ?_, ?_, ?_, ?_⟩
      · simp only [setup_decrypt_blocks, hb, hz, if_true]; rfl
      · simp only [setup_decrypt_blocks, hb1, hz, if_true, with_counter, he.1]
      · intro j hj
        exact ⟨store_other _ _ _ _ (by omega), store_other _ _ _ _ (by omega)⟩
      · intro h; cases h
    · obtain ⟨flag, w, S, S1, e1, e2, e3, e4⟩ := ih (i + 1) (freestyle_increment_counter x)
        (freestyle_increment_counter y) (store R i b.rounds) (store R1 i b.rounds) hs
        (block_eq_increment he) (fun j h1 h2 => hih j (by omega) (by omega))
      refine ⟨flag, w, S, S1, ?_, ?_, ?_, ?_⟩
      · simp only [setup_decrypt_blocks, hb, hz, if_false]; exact e1
      · simp only [setup_decrypt_blocks, hb1, hz, if_false]; exact e2
      · intro j hj
        obtain ⟨a1, a2⟩ := e3 j (by omega)
        rw [a1, a2]
        exact ⟨store_other _ _ _ _ (by omega), store_other _ _ _ _ (by omega)⟩
      · intro hf j h1 h2
        by_cases hji : j = i
        · obtain ⟨a1, a2⟩ := e3 j (by omega)
          rw [a1, a2, hji, store_same, store_same]
        · exact e4 hf j (by omega) (by omega)

/-- The setup blocks in encrypt mode: they always complete, leave round counts
between 12 and 36, and the inner decrypt loop, run against the hashes they
stored, succeeds on every block with the same round counts. -/
theorem setup_encrypt_blocks_spec (us : Nat → Nat) (hus : ∀ k, us k < 25) :
    ∀ (n i : Nat) (x : freestyle_ctx) (R : Nat → Nat), sane x →
      ∃ w ih R1,
        setup_encrypt_blocks us n i x R = some ({ with_counter x w with init_hash := ih }, R1)
        ∧ (∀ j, j < i ∨ i + n ≤ j → ih j = x.init_hash j ∧ R1 j = R j)
        ∧ (∀ j, i ≤ j → j < i + n → 12 ≤ R1 j ∧ R1 j ≤ 36)
        ∧ (∀ (y : freestyle_ctx) (Rd : Nat → Nat), block_eq x y →
            (∀ j, i ≤ j → j < i + n → y.init_hash j = ih j) →
            ∃ Sd, setup_decrypt_blocks n i y Rd = some (true, with_counter y w, Sd)
              ∧ (∀ j, j < i ∨ i + n ≤ j → Sd j = Rd j)
              ∧ (∀ j, i ≤ j → j < i + n → Sd j = R1 j)) := by
  intro n
  induction n with
  | zero =>
    intro i x R _
    refine ⟨x.input.w12, x.init_hash, R, rfl, ?_, ?_, ?_⟩
    · intro j _; exact ⟨rfl, rfl⟩
    · intro j h1 h2; omega
    · intro y Rd he _
      refine ⟨Rd, ?_, ?_, ?_⟩
      · simp only [setup_decrypt_blocks, with_counter, he.1]
      · intro j _; rfl
      · intro j h1 h2; omega
  | succ n ih =>
    intro i x R hs
    have hbound : us i < x.max_rounds - x.min_rounds + x.hash_interval := by
      obtain ⟨h1, h2, h3, _⟩ := hs
      rw [h1, h2, h3]; exact hus i
    obtain ⟨R0, h, o, hlo, hup, _, _, hE, hD⟩ := block_pair x (us i) (sane_block_ok hs) hbound
    have hlo1 : 12 ≤ R0 := by rw [← hs.1]; exact hlo
    have hup1 : R0 ≤ 36 := by rw [← hs.2.1]; exact hup
    obtain ⟨w, ih1, R1, e1, e2, e3, e4⟩ := ih (i + 1)
      (freestyle_increment_counter { x with init_hash := store x.init_hash i h })
      (store R i R0) hs
    refine ⟨w, ih1, R1, ?_, ?_, ?_, ?_⟩
    · simp only [setup_encrypt_blocks, freestyle_encrypt_block, hE]
      exact e1
    · intro j hj
      obtain ⟨a1, a2⟩ := e2 j (by omega)
      rw [a1, a2]
      exact ⟨store_other _ _ _ _ (by omega), store_other _ _ _ _ (by omega)⟩
    · intro j h1 h2
      by_cases hji : j = i
      · rw [(e2 j (by omega)).2, hji, store_same]
        exact ⟨hlo1, hup1⟩
      · exact e3 j (by omega) (by omega)
    · intro y Rd he hih
      have hyi : y.init_hash i = h := by
        rw [hih i (Nat.le_refl _) (by omega), (e2 i (by omega)).1]
        exact store_same _ _ _
      have hb : freestyle_decrypt_block y none 0 (y.init_hash i)
          = some { rounds := R0, hash := h, ciphertext := block_output x o none 0 } := by
        rw [hyi, ← hD none 0 0]
        exact (block_eq_process he _ _ _ _ _).symm
      have he1 : block_eq
          (freestyle_increment_counter { x with init_hash := store x.init_hash i h })
          (freestyle_increment_counter y) := by
        obtain ⟨h1, h2, h3, h4, h5, h6⟩ := he
        refine ⟨?_, h2, h3, h4, h5, h6⟩
        simp only [freestyle_increment_counter, h1]
      obtain ⟨Sd, d1, d2, d3⟩ := e4 (freestyle_increment_counter y) (store Rd i R0) he1
        (fun j h1 h2 => hih j (by omega) (by omega))
      refine ⟨Sd, ?_, ?_, ?_⟩
      · simp only [setup_decrypt_blocks, hb]
        rw [if_neg (by omega)]
        exact d1
      · intro j hj
        rw [d2 j (by omega)]
        exact store_other _ _ _ _ (by omega)
      · intro j h1 h2
        by_cases hji : j = i
        · rw [d2 j (by omega), (e2 j (by omega)).2, hji, store_same, store_same]
        · exact d3 j (by omega) (by omega)

/-! ## The pepper searches -/

theorem candidate_next (x : freestyle_ctx) (w q : Nat) :
    candidate (next_candidate x w) q = candidate x (q + 1) := by
  simp only [candidate, next_candidate, Function.iterate_succ_apply]

theorem candidate_decodes_next (x : freestyle_ctx) (w q : Nat) :
    candidate_decodes (next_candidate x w) q = candidate_decodes x (q + 1) := by
  unfold candidate_decodes
  rw [candidate_next]
  rfl

theorem decoded_rounds_next (x : freestyle_ctx) (w q : Nat) :
    decoded_rounds (next_candidate x w) q = decoded_rounds x (q + 1) := by
  unfold decoded_rounds
  rw [candidate_next]
  rfl

theorem block_eq_refl (x : freestyle_ctx) : block_eq x x :=
  ⟨rfl, rfl, rfl, rfl, rfl, rfl⟩

/-- One try of a pepper search, on any working array `R`. -/
theorem attempt_spec (x : freestyle_ctx) (q : Nat) (R : Nat → Nat) (hs : sane x) :
    ∃ w S, setup_decrypt_blocks x.num_init_hashes 0 (candidate x q) R
        = some (candidate_decodes x q, with_counter (candidate x q) w, S)
      ∧ (∀ j, x.num_init_hashes ≤ j → S j = R j)
      ∧ (candidate_decodes x q = true → ∀ j, j < x.num_init_hashes →
          S j = decoded_rounds x q j)
      ∧ (∀ j, x.num_init_hashes ≤ j → decoded_rounds x q j = 0) := by
  obtain ⟨flag, w, S, S1, e1, e2, e3, e4⟩ := setup_decrypt_blocks_congr x.num_init_hashes 0
    (candidate x q) (candidate x q) R (fun _ => 0) hs (block_eq_refl _) (fun _ _ _ => rfl)
  have hc : candidate_decodes x q = flag := by
    unfold candidate_decodes
    rw [e2]
    cases flag <;> rfl
  have hd : decoded_rounds x q = S1 := by
    unfold decoded_rounds
    rw [e2]
  refine ⟨w, S, by rw [hc]; exact e1, ?_, ?_, ?_⟩
  · intro j hj; exact (e3 j (by omega)).1
  · intro hf j hj
    rw [hd]
    exact e4 (by rw [← hc]; exact hf) j (Nat.zero_le _) (by omega)
  · intro j hj
    rw [hd]
    exact (e3 j (by omega)).2

theorem decrypt_pepper_scan_succ (n : Nat) (x : freestyle_ctx) (R : Nat → Nat) (hs : sane x) :
    ∃ w S, (∀ j, x.num_init_hashes ≤ j → S j = R j)
      ∧ (candidate_decodes x 0 = true → ∀ j, j < x.num_init_hashes →
          S j = decoded_rounds x 0 j)
      ∧ decrypt_pepper_scan (n + 1) x R
        = if candidate_decodes x 0 = true then some (true, with_counter (candidate x 0) w, S)
          else decrypt_pepper_scan n (next_candidate x w) S := by
  obtain ⟨w, S, e1, e2, e3, _⟩ := attempt_spec x 0 R hs
  refine ⟨w, S, e2, e3, ?_⟩
  have hc : ({ x with input := { x.input with w12 := x.initial_counter } } : freestyle_ctx)
      = candidate x 0 := rfl
  rw [decrypt_pepper_scan, hc, e1]
  cases candidate_decodes x 0
  · rfl
  · rfl

theorem encrypt_pepper_scan_succ (n : Nat) (x : freestyle_ctx) (R CR : Nat → Nat)
    (hs : sane x) :
    ∃ w S, (∀ j, x.num_init_hashes ≤ j → S j = CR j)
      ∧ (candidate_decodes x 0 = true → ∀ j, j < x.num_init_hashes →
          S j = decoded_rounds x 0 j)
      ∧ encrypt_pepper_scan (n + 1) x R CR
        = if candidate_decodes x 0 = true then some (with_counter (candidate x 0) w, S)
          else encrypt_pepper_scan n (next_candidate x w) R S := by
  obtain ⟨w, S, e1, e2, e3, _⟩ := attempt_spec x 0 CR hs
  refine ⟨w, S, e2, e3, ?_⟩
  have hc : ({ x with input := { x.input with w12 := x.initial_counter } } : freestyle_ctx)
      = candidate x 0 := rfl
  rw [encrypt_pepper_scan, hc, e1]
  cases candidate_decodes x 0
  · rfl
  · rfl

/-- The decrypt search when no candidate below `n` decodes. -/
theorem decrypt_pepper_scan_fail :
    ∀ (n : Nat) (x : freestyle_ctx) (R : Nat → Nat), sane x →
      (∀ q, q < n → candidate_decodes x q = false) →
      ∃ w S, decrypt_pepper_scan n x R = some (false, with_counter (candidate x n) w, S)
        ∧ (∀ j, x.num_init_hashes ≤ j → S j = R j) := by
  intro n
  induction n with
  | zero =>
    intro x R _ _
    exact ⟨x.input.w12, R, rfl, fun _ _ => rfl⟩
  | succ n ih =>
    intro x R hs hq
    obtain ⟨w, S, e1, _, e3⟩ := decrypt_pepper_scan_succ n x R hs
    rw [hq 0 (by omega)] at e3
    simp only [Bool.false_eq_true, if_false] at e3
    obtain ⟨w1, S1, f1, f2⟩ := ih (next_candidate x w) S hs
      (fun q h => by rw [candidate_decodes_next]; exact hq (q + 1) (by omega))
    rw [candidate_next] at f1
    exact ⟨w1, S1, by rw [e3]; exact f1, fun j hj => by rw [f2 j hj]; exact e1 j hj⟩

/-- The decrypt search stops at the first candidate that decodes. -/
theorem decrypt_pepper_scan_found :
    ∀ (n : Nat) (x : freestyle_ctx) (R : Nat → Nat) (p : Nat), sane x → p < n →
      candidate_decodes x p = true → (∀ q, q < p → candidate_decodes x q = false) →
      ∃ w S, decrypt_pepper_scan n x R = some (true, with_counter (candidate x p) w, S)
        ∧ (∀ j, x.num_init_hashes ≤ j → S j = R j)
        ∧ (∀ j, j < x.num_init_hashes → S j = decoded_rounds x p j) := by
  intro n
  induction n with
  | zero => intro x R p _ hp; omega
  | succ n ih =>
    intro x R p hs hp hd hq
    obtain ⟨w, S, e1, e2, e3⟩ := decrypt_pepper_scan_succ n x R hs
    rcases Nat.eq_zero_or_pos p with hp0 | hp0
    · subst hp0
      rw [hd] at e3
      simp only [if_true] at e3
      exact ⟨w, S, e3, e1, e2 hd⟩
    · obtain ⟨p1, rfl⟩ : ∃ p1, p = p1 + 1 := ⟨p - 1, by omega⟩
      rw [hq 0 (by omega)] at e3
      simp only [Bool.false_eq_true, if_false] at e3
      obtain ⟨w1, S1, f1, f2, f3⟩ := ih (next_candidate x w) S p1 hs (by omega)
        (by rw [candidate_decodes_next]; exact hd)
        (fun q h => by rw [candidate_decodes_next]; exact hq (q + 1) (by omega))
      rw [candidate_next] at f1
      rw [decoded_rounds_next] at f3
      exact ⟨w1, S1, by rw [e3]; exact f1, fun j hj => by rw [f2 j hj]; exact e1 j hj, f3⟩

/-- The collision check of the encryptor when no candidate below `n` decodes:
the round counts of the encryption are kept. -/
theorem encrypt_pepper_scan_fail :
    ∀ (n : Nat) (x : freestyle_ctx) (R CR : Nat → Nat), sane x →
      (∀ q, q < n → candidate_decodes x q = false) →
      ∃ w, encrypt_pepper_scan n x R CR = some (with_counter (candidate x n) w, R) := by
  intro n
  induction n with
  | zero =>
    intro x R CR _ _
    exact ⟨x.input.w12, rfl⟩
  | succ n ih =>
    intro x R CR hs hq
    obtain ⟨w, S, _, _, e3⟩ := encrypt_pepper_scan_succ n x R CR hs
    rw [hq 0 (by omega)] at e3
    simp only [Bool.false_eq_true, if_false] at e3
    obtain ⟨w1, f1⟩ := ih (next_candidate x w) R S hs
      (fun q h => by rw [candidate_decodes_next]; exact hq (q + 1) (by omega))
    rw [candidate_next] at f1
    exact ⟨w1, by rw [e3]; exact f1⟩

/-- The collision check of the encryptor stops at the first candidate that
decodes and takes its round counts. -/
theorem encrypt_pepper_scan_found :
    ∀ (n : Nat) (x : freestyle_ctx) (R CR : Nat → Nat) (p : Nat), sane x → p < n →
      candidate_decodes x p = true → (∀ q, q < p → candidate_decodes x q = false) →
      ∃ w S, encrypt_pepper_scan n x R CR = some (with_counter (candidate x p) w, S)
        ∧ (∀ j, x.num_init_hashes ≤ j → S j = CR j)
        ∧ (∀ j, j < x.num_init_hashes → S j = decoded_rounds x p j) := by
  intro n
  induction n with
  | zero => intro x R CR p _ hp; omega
  | succ n ih =>
    intro x R CR p hs hp hd hq
    obtain ⟨w, S, e1, e2, e3⟩ := encrypt_pepper_scan_succ n x R CR hs
    rcases Nat.eq_zero_or_pos p with hp0 | hp0
    · subst hp0
      rw [hd] at e3
      simp only [if_true] at e3
      exact ⟨w, S, e3, e1, e2 hd⟩
    · obtain ⟨p1, rfl⟩ : ∃ p1, p = p1 + 1 := ⟨p - 1, by omega⟩
      rw [hq 0 (by omega)] at e3
      simp only [Bool.false_eq_true, if_false] at e3
      obtain ⟨w1, S1, f1, f2, f3⟩ := ih (next_candidate x w) R S p1 hs (by omega)
        (by rw [candidate_decodes_next]; exact hd)
        (fun q h => by rw [candidate_decodes_next]; exact hq (q + 1) (by omega))
      rw [candidate_next] at f1
      rw [decoded_rounds_next] at f3
      exact ⟨w1, S1, by rw [e3]; exact f1, fun j hj => by rw [f2 j hj]; exact e1 j hj, f3⟩

/-! ## Agreement of the two setups -/

theorem PLUSONE_iterate (a b : Nat) : ∀ q, PLUSONE^[q] (PLUS a b) = PLUS a (b + q) := by
  intro q
  induction q with
  | zero => rfl
  | succ q ih =>
    rw [Function.iterate_succ_apply', ih]
    unfold PLUSONE PLUS
    omega

theorem MINUS_PLUS (a b : Nat) : MINUS (PLUS a b) b = PLUS a 0 := by
  unfold MINUS PLUS
  omega

theorem setup_eq_candidate {x y : freestyle_ctx} (h : setup_eq x y) (q : Nat) :
    block_eq (candidate x q) (candidate y q) := by
  obtain ⟨⟨w, h1⟩, h2, h3, h4, h5, h6, h7, _, _⟩ := h
  refine ⟨?_, h2, h3, h4, h5, h6⟩
  simp only [candidate, h1, h7]

theorem candidate_congr {x y : freestyle_ctx} (h : setup_eq x y) (hs : sane x) (q : Nat) :
    candidate_decodes x q = candidate_decodes y q
      ∧ (candidate_decodes x q = true →
          ∀ j, j < x.num_init_hashes → decoded_rounds x q j = decoded_rounds y q j) := by
  have hn := h.2.2.2.2.2.2.2.1
  obtain ⟨flag, w, S, S1, e1, e2, _, e4⟩ := setup_decrypt_blocks_congr x.num_init_hashes 0
    (candidate x q) (candidate y q) (fun _ => 0) (fun _ => 0) hs (setup_eq_candidate h q)
    (fun j _ hj => h.2.2.2.2.2.2.2.2 j (by omega))
  unfold candidate_decodes decoded_rounds
  rw [← hn, e1, e2]
  cases flag with
  | true => exact ⟨rfl, fun _ j hj => e4 rfl j (Nat.zero_le _) (by omega)⟩
  | false => exact ⟨rfl, fun hf => by simp at hf⟩

theorem candidate_decodes_of_encrypt (us : Nat → Nat) (hus : ∀ k, us k < 25)
    (x : freestyle_ctx) (hs : sane x) :
    ∃ w ih R1,
      setup_encrypt_blocks us x.num_init_hashes 0 x (fun _ => 0)
        = some ({ with_counter x w with init_hash := ih }, R1)
      ∧ (∀ j, x.num_init_hashes ≤ j → R1 j = 0)
      ∧ (∀ j, x.num_init_hashes ≤ j → ih j = x.init_hash j)
      ∧ ∀ (y : freestyle_ctx) (q : Nat), block_eq x (candidate y q) →
          y.num_init_hashes = x.num_init_hashes →
          (∀ j, j < x.num_init_hashes → y.init_hash j = ih j) →
          candidate_decodes y q = true
            ∧ ∀ j, j < x.num_init_hashes → decoded_rounds y q j = R1 j := by
  obtain ⟨w, ih, R1, e1, e2, _, e4⟩ :=
    setup_encrypt_blocks_spec us hus x.num_init_hashes 0 x (fun _ => 0) hs
  refine ⟨w, ih, R1, e1, fun j hj => (e2 j (by omega)).2, fun j hj => (e2 j (by omega)).1, ?_⟩
  intro y q he hn hih
  obtain ⟨Sd, d1, _, d3⟩ := e4 (candidate y q) (fun _ => 0) he
    (fun j _ hj => hih j (by omega))
  unfold candidate_decodes decoded_rounds
  rw [hn, d1]
  exact ⟨rfl, fun j hj => d3 j (Nat.zero_le _) (by omega)⟩

theorem init_common_valid (x : freestyle_ctx) (key : List Nat) (klb : Nat) (iv : List Nat)
    (mn mx npr hi pb nih : Nat) (hv : valid_params mn mx npr hi pb nih) :
    ∃ c, freestyle_init_common x key klb iv mn mx npr hi pb nih = some c
      ∧ c.min_rounds = mn ∧ c.max_rounds = mx ∧ c.hash_interval = hi
      ∧ c.num_precomputed_rounds = npr ∧ c.pepper_bits = pb ∧ c.num_init_hashes = nih
      ∧ c.init_hash = x.init_hash := by
  obtain ⟨h1, h2, h3, h4, h5, h6, h7, h8, h9, h10, h11, h12⟩ := hv
  have hne : hi ≠ 0 := by
    intro h0; rw [h0, Nat.mod_zero] at h4; omega
  have h8a : npr ≤ (mn + (4294967296 - 4)) % 4294967296 := by omega
  unfold freestyle_init_common
  rw [if_neg hne, if_pos ⟨h1, h2, h3, h4, h5, h6, h7, h8a, h9, h10, h11, h12⟩]
  unfold freestyle_roundsetup
  simp only [freestyle_hashsetup]
  rw [if_neg hne]
  exact ⟨_, rfl, rfl, rfl, rfl, rfl, rfl, rfl, rfl⟩

/-- What `freestyle_init_common` writes does not depend on the context it is
handed; `init_hash` and `initial_counter` are left as they were. -/
theorem init_common_two (x y : freestyle_ctx) (key : List Nat) (klb : Nat) (iv : List Nat)
    (mn mx npr hi pb nih : Nat) (c : freestyle_ctx)
    (h : freestyle_init_common x key klb iv mn mx npr hi pb nih = some c) :
    ∃ d, freestyle_init_common y key klb iv mn mx npr hi pb nih = some d
      ∧ d.input = c.input ∧ d.rand = c.rand ∧ d.min_rounds = c.min_rounds
      ∧ d.max_rounds = c.max_rounds ∧ d.hash_interval = c.hash_interval
      ∧ d.num_precomputed_rounds = c.num_precomputed_rounds
      ∧ d.pepper_bits = c.pepper_bits ∧ d.num_init_hashes = c.num_init_hashes
      ∧ d.cipher_parameter = c.cipher_parameter
      ∧ d.num_rounds_possible = c.num_rounds_possible
      ∧ d.init_hash = y.init_hash ∧ d.initial_counter = y.initial_counter := by
  unfold freestyle_init_common at h ⊢
  split_ifs at h ⊢ with h1 h2
  unfold freestyle_roundsetup at h ⊢
  simp only [freestyle_hashsetup] at h ⊢
  rw [if_neg h1] at h ⊢
  simp only [Option.some.injEq] at h
  subst h
  exact ⟨_, rfl, rfl, rfl, rfl, rfl, rfl, rfl, rfl, rfl, rfl, rfl, rfl, rfl⟩

/-! ### The tail of the setup -/

theorem finish_setup_congr (saved saved1 x y : freestyle_ctx) (R : Nat → Nat)
    (h1 : saved.min_rounds = saved1.min_rounds) (h2 : saved.max_rounds = saved1.max_rounds)
    (h3 : saved.hash_interval = saved1.hash_interval)
    (h4 : saved.num_precomputed_rounds = saved1.num_precomputed_rounds)
    (hin : ∃ w, x.input = { y.input with w12 := w })
    (hic : x.initial_counter = y.initial_counter) :
    block_eq (finish_setup saved x R) (finish_setup saved1 y R)
      ∧ (finish_setup saved x R).initial_counter = (finish_setup saved1 y R).initial_counter := by
  obtain ⟨w, hw⟩ := hin
  unfold block_eq finish_setup freestyle_precompute_rounds
  simp only [hw, hic, h1, h2, h3, h4, and_self]

theorem finish_setup_fields (saved x : freestyle_ctx) (R : Nat → Nat) :
    (finish_setup saved x R).min_rounds = saved.min_rounds
      ∧ (finish_setup saved x R).max_rounds = saved.max_rounds
      ∧ (finish_setup saved x R).hash_interval = saved.hash_interval
      ∧ (finish_setup saved x R).num_precomputed_rounds = saved.num_precomputed_rounds
      ∧ (finish_setup saved x R).init_hash = x.init_hash
      ∧ (finish_setup saved x R).rand = derive_rands R
      ∧ (finish_setup saved x R).initial_counter = x.initial_counter :=
  ⟨rfl, rfl, rfl, rfl, rfl, rfl, rfl⟩

theorem setup_start_sane (x : freestyle_ctx) : sane (setup_start x) :=
  ⟨rfl, rfl, rfl, rfl⟩

/-- Setup with a caller-supplied pepper: the decryptor, started at the same
pepper on the hashes the encryptor stored, ends in a context that the block
engine cannot tell from the encryptor's. -/
theorem randomsetup_agree_set (xs xd : freestyle_ctx) (us : Nat → Nat) (pd : Nat)
    (hus : ∀ k, us k < 25) (hset : xs.is_pepper_set = true)
    (hin : xd.input = xs.input) (hrand : xd.rand = xs.rand) (hpep : xd.pepper = xs.pepper)
    (hnih : xd.num_init_hashes = xs.num_init_hashes)
    (h1 : xs.min_rounds = xd.min_rounds) (h2 : xs.max_rounds = xd.max_rounds)
    (h3 : xs.hash_interval = xd.hash_interval)
    (h4 : xs.num_precomputed_rounds = xd.num_precomputed_rounds)
    (hcand : 1 ≤ pepper_candidates xd) :
    ∃ xe, freestyle_randomsetup_encrypt xs pd us = some xe
      ∧ xe.min_rounds = xs.min_rounds ∧ xe.max_rounds = xs.max_rounds
      ∧ xe.hash_interval = xs.hash_interval
      ∧ xe.num_precomputed_rounds = xs.num_precomputed_rounds
      ∧ ∀ ihd : Nat → Nat, (∀ j, j < xs.num_init_hashes → ihd j = xe.init_hash j) →
          ∃ xf, freestyle_randomsetup_decrypt { xd with init_hash := ihd } = some xf
            ∧ block_eq xe xf ∧ xe.initial_counter = xf.initial_counter := by
  obtain ⟨w, ih, R1, e1, ez, _, eY⟩ :=
    candidate_decodes_of_encrypt us hus (setup_start xs) (setup_start_sane xs)
  have henc : freestyle_randomsetup_encrypt xs pd us
      = some (finish_setup xs { with_counter (setup_start xs) w with init_hash := ih } R1) := by
    unfold freestyle_randomsetup_encrypt
    simp only [hset, if_true]
    have hn : xs.num_init_hashes = (setup_start xs).num_init_hashes := rfl
    rw [hn, e1]
    simp only
    have : (with_counter (setup_start xs) w).is_pepper_set = true := hset
    rw [if_pos this]
  refine ⟨_, henc, rfl, rfl, rfl, rfl, ?_⟩
  intro ihd hihd
  set y := setup_start { xd with init_hash := ihd } with hy
  have hbe : block_eq (setup_start xs) (candidate y 0) := by
    refine ⟨?_, hrand.symm, rfl, rfl, rfl, rfl⟩
    simp only [hy, candidate, setup_start, freestyle_precompute_rounds, set_sane_values,
      Function.iterate_zero, id_eq, hin, hpep]
  obtain ⟨hd, hdr⟩ := eY y 0 hbe hnih hihd
  obtain ⟨w1, S, f1, f2, f3⟩ := decrypt_pepper_scan_found
    (pepper_candidates { xd with init_hash := ihd }) y (fun _ => 0) 0 (setup_start_sane _)
    hcand hd (fun q hq => by omega)
  have hS : S = R1 := by
    funext j
    by_cases hj : j < xs.num_init_hashes
    · rw [f3 j (by rw [hy]; exact hnih ▸ hj)]
      exact hdr j hj
    · rw [f2 j (by rw [hy]; show xd.num_init_hashes ≤ j; omega), ez j (by
        show xs.num_init_hashes ≤ j; omega)]
  subst hS
  have hdec : freestyle_randomsetup_decrypt { xd with init_hash := ihd }
      = some (finish_setup { xd with init_hash := ihd } (with_counter (candidate y 0) w1) S) := by
    unfold freestyle_randomsetup_decrypt
    rw [← hy, f1]
    simp
  refine ⟨_, hdec, ?_⟩
  apply finish_setup_congr _ _ _ _ _ h1 h2 h3 h4
  · refine ⟨w, ?_⟩
    simp only [hy, candidate, with_counter, setup_start, freestyle_precompute_rounds,
      set_sane_values, Function.iterate_zero, id_eq, hin, hpep]
  · simp only [hy, candidate, with_counter, setup_start, freestyle_precompute_rounds,
      set_sane_values, hin]

theorem block_eq_iterate {x y : freestyle_ctx} (h : block_eq x y) (k : Nat) :
    block_eq (freestyle_increment_counter^[k] x) (freestyle_increment_counter^[k] y) := by
  induction k generalizing x y with
  | zero => exact h
  | succ k ih =>
    rw [Function.iterate_succ_apply, Function.iterate_succ_apply]
    exact ih (block_eq_increment h)

theorem block_eq_block_ok {x y : freestyle_ctx} (h : block_eq x y) (hx : block_ok x) :
    block_ok y := by
  obtain ⟨_, _, h3, h4, h5, h6⟩ := h
  unfold block_ok at hx ⊢
  rw [← h3, ← h4, ← h5, ← h6]
  exact hx

theorem valid_params_block_ok {x : freestyle_ctx} {pb nih : Nat}
    (hv : valid_params x.min_rounds x.max_rounds x.num_precomputed_rounds x.hash_interval
      pb nih) : block_ok x := by
  obtain ⟨h1, h2, h3, h4, h5, h6, h7, h8, _⟩ := hv
  exact ⟨by omega, h3, h2, h4, h5⟩

theorem max_pepper_eq (pb : Nat) (h : pb ≤ 32) : max_pepper pb = 2 ^ pb - 1 := by
  unfold max_pepper
  apply Nat.mod_eq_of_lt
  have h1 : 2 ^ pb ≤ 2 ^ 32 := Nat.pow_le_pow_right (by norm_num) h
  have h2 : 0 < 2 ^ pb := Nat.pow_pos (by norm_num)
  have h3 : (2 : Nat) ^ 32 = 4294967296 := by norm_num
  omega

theorem pepper_candidates_gt (x : freestyle_ctx) (P : Nat) (hpb : x.pepper_bits ≤ 32)
    (hP : x.pepper + P < 2 ^ x.pepper_bits) : P < pepper_candidates x := by
  have h1 : 2 ^ x.pepper_bits ≤ 2 ^ 32 := Nat.pow_le_pow_right (by norm_num) hpb
  have h3 : (2 : Nat) ^ 32 = 4294967296 := by norm_num
  unfold pepper_candidates
  rw [max_pepper_eq _ hpb]
  split_ifs <;> omega

/-! ## C1: round trip with a caller-supplied pepper -/

/-- C1: end-to-end round trip with a caller-supplied pepper.  For every parameter
tuple that satisfies the invariants of section 3, every key, IV, plaintext of
any length `n`, every pepper below `2^pepper_bits` and every outcome of the
oracle (`us_setup i` below 25 for the setup blocks, `us k` below
`max_rounds - min_rounds + hash_interval` for the message blocks),
`freestyle_init_encrypt_with_pepper` and `freestyle_process` in encrypt mode
complete, and `freestyle_init_decrypt_with_pepper` with the same key, IV,
parameters and pepper and the `init_hash[]` of the encryptor, followed by
`freestyle_process` in decrypt mode on the ciphertext and `hash[]`, returns 0 and
stores exactly the plaintext. -/
theorem round_trip_with_pepper (x0 xd0 : freestyle_ctx) (key : List Nat) (klb : Nat)
    (iv : List Nat) (mn mx npr hi pb nih : Nat) (hv : valid_params mn mx npr hi pb nih)
    (pepper : Nat) (hp : pepper < 2 ^ pb) (plaintext : Nat → Nat) (n : Nat)
    (us_setup us : Nat → Nat) (hs : ∀ i, us_setup i < 25)
    (hu : ∀ k, us k < mx - mn + hi) (cbuf hbuf dbuf usd : Nat → Nat) :
    ∃ xe re xd rd,
      freestyle_init_encrypt_with_pepper x0 key klb iv mn mx npr hi pb nih pepper us_setup
        = some xe
      ∧ freestyle_process xe plaintext cbuf n hbuf true us = some re
      ∧ freestyle_init_decrypt_with_pepper xd0 key klb iv mn mx npr hi pb nih pepper
          xe.init_hash = some xd
      ∧ freestyle_process xd re.ciphertext dbuf n re.hash false usd = some rd
      ∧ rd.ret = 0 ∧ ∀ j, j < n → rd.ciphertext j = plaintext j := by
  obtain ⟨c, hc, c1, c2, c3, c4, c5, c6, _⟩ :=
    init_common_valid x0 key klb iv mn mx npr hi pb nih hv
  obtain ⟨d, hd, d1, d2, d3, d4, d5, d6, d7, d8, _⟩ :=
    init_common_two x0 xd0 key klb iv mn mx npr hi pb nih c hc
  have hpb : pb ≤ 32 := hv.2.2.2.2.2.2.2.2.2.1
  obtain ⟨xe, henc, p1, p2, p3, p4, hdec⟩ := randomsetup_agree_set
    { c with pepper := pepper, is_pepper_set := true }
    { d with pepper := pepper, is_pepper_set := true } us_setup 0 hs rfl d1 d2 rfl d8
    d3.symm d4.symm d5.symm d6.symm
    (by
      have := pepper_candidates_gt { d with pepper := pepper, is_pepper_set := true } 0
        (by show d.pepper_bits ≤ 32; rw [d7, c5]; exact hpb)
        (by show pepper + 0 < 2 ^ d.pepper_bits; rw [d7, c5]; exact hp)
      omega)
  obtain ⟨xf, hxf, hbe, _⟩ := hdec xe.init_hash (fun _ _ => rfl)
  have hokE : block_ok xe := by
    apply @valid_params_block_ok xe pb nih
    rw [p1, p2, p3, p4]
    show valid_params c.min_rounds c.max_rounds c.num_precomputed_rounds c.hash_interval pb nih
    rw [c1, c2, c3, c4]; exact hv
  have huE : ∀ k, us k < xe.max_rounds - xe.min_rounds + xe.hash_interval := by
    intro k
    rw [p1, p2, p3]
    show us k < c.max_rounds - c.min_rounds + c.hash_interval
    rw [c1, c2, c3]; exact hu k
  obtain ⟨re, hre, _, _, _, _, hcont⟩ := process_loop_enc plaintext us n
    { x := xe, i := 0, bytes := n, block := 0, ciphertext := cbuf, hash := hbuf } hokE huE
    (Nat.le_refl _)
  obtain ⟨rd, hrd, hret, _, _, hpt, _⟩ := process_loop_dec plaintext re.ciphertext re.hash usd n
    { x := xf, i := 0, bytes := n, block := 0, ciphertext := dbuf, hash := re.hash }
    (block_eq_block_ok hbe hokE) (Nat.le_refl _) rfl
    (by
      intro k hk
      obtain ⟨b, hb1, _, hb3, hb4⟩ := hcont k hk
      refine ⟨us (0 + k), hbuf (0 + k), b, ?_, ?_, hb3, hb4⟩
      · show us (0 + k) < xf.max_rounds - xf.min_rounds + xf.hash_interval
        rw [← hbe.2.2.1, ← hbe.2.2.2.1, ← hbe.2.2.2.2.1]
        exact huE _
      · rw [← hb1]
        exact (block_eq_process (block_eq_iterate hbe k) _ _ _ _ _).symm)
  refine ⟨xe, re, xf, rd, ?_, hre, ?_, hrd, hret, ?_⟩
  · unfold freestyle_init_encrypt_with_pepper
    rw [hc]
    exact henc
  · unfold freestyle_init_decrypt_with_pepper
    rw [hd]
    exact hxf
  · intro j hj
    exact hpt j (Nat.zero_le _) (by simpa using hj)

/-- Setup with a drawn pepper `P`: the collision check of the encryptor and the
search of the decryptor (started at pepper 0 on the hashes the encryptor stored)
stop at the same candidate `p ≤ P`, the smallest one that decodes, and end in
contexts that the block engine cannot tell apart. -/
theorem randomsetup_agree_draw (xs xd : freestyle_ctx) (us : Nat → Nat) (P : Nat)
    (hus : ∀ k, us k < 25) (hset : xs.is_pepper_set = false)
    (hin : xd.input = xs.input) (hrand : xd.rand = xs.rand) (hpep : xd.pepper = 0)
    (hnih : xd.num_init_hashes = xs.num_init_hashes)
    (h1 : xs.min_rounds = xd.min_rounds) (h2 : xs.max_rounds = xd.max_rounds)
    (h3 : xs.hash_interval = xd.hash_interval)
    (h4 : xs.num_precomputed_rounds = xd.num_precomputed_rounds)
    (hpb : xd.pepper_bits ≤ 32) (hP : P < 2 ^ xd.pepper_bits) :
    ∃ xe p, freestyle_randomsetup_encrypt xs P us = some xe ∧ p ≤ P
      ∧ ∀ ihd : Nat → Nat, (∀ j, j < xs.num_init_hashes → ihd j = xe.init_hash j) →
          ∃ xf w S, freestyle_randomsetup_decrypt { xd with init_hash := ihd } = some xf
            ∧ block_eq xe xf ∧ xe.initial_counter = xf.initial_counter
            ∧ candidate_decodes (setup_start { xd with init_hash := ihd }) p = true
            ∧ (∀ q, q < p →
                candidate_decodes (setup_start { xd with init_hash := ihd }) q = false)
            ∧ decrypt_pepper_scan (pepper_candidates { xd with init_hash := ihd })
                (setup_start { xd with init_hash := ihd }) (fun _ => 0)
              = some (true,
                  with_counter (candidate (setup_start { xd with init_hash := ihd }) p) w, S) := by
  set x4 := setup_start { xs with pepper := P } with hx4
  obtain ⟨w, ih, R1, e1, ez, _, eY⟩ :=
    candidate_decodes_of_encrypt us hus x4 (setup_start_sane _)
  set x5 : freestyle_ctx :=
    { ({ with_counter x4 w with init_hash := ih } : freestyle_ctx) with
      input := { ({ with_counter x4 w with init_hash := ih } : freestyle_ctx).input with
        w3 := MINUS ({ with_counter x4 w with init_hash := ih } : freestyle_ctx).input.w3 P } }
    with hx5
  have hs5 : sane x5 := ⟨rfl, rfl, rfl, rfl⟩
  have hn5 : x5.num_init_hashes = xs.num_init_hashes := rfl
  have hbe5 : block_eq x4 (candidate x5 P) := by
    refine ⟨?_, rfl, rfl, rfl, rfl, rfl⟩
    simp only [hx5, hx4, candidate, with_counter, setup_start, freestyle_precompute_rounds,
      set_sane_values, MINUS_PLUS, PLUSONE_iterate, Nat.zero_add]
  obtain ⟨hdP, hdrP⟩ := eY x5 P hbe5 rfl (fun _ _ => rfl)
  have hex : ∃ q, candidate_decodes x5 q = true := ⟨P, hdP⟩
  set p := Nat.find hex with hp
  have hpP : p ≤ P := Nat.find_min' hex hdP
  have hdp : candidate_decodes x5 p = true := Nat.find_spec hex
  have hmin : ∀ q, q < p → candidate_decodes x5 q = false := by
    intro q hq
    have := Nat.find_min hex hq
    simpa using this
  -- the encryptor's collision check
  have hscanE : ∃ w2 S, encrypt_pepper_scan P x5 R1 (fun _ => 0)
        = some (with_counter (candidate x5 p) w2, S)
      ∧ (∀ j, xs.num_init_hashes ≤ j → S j = 0)
      ∧ (∀ j, j < xs.num_init_hashes → S j = decoded_rounds x5 p j) := by
    rcases Nat.lt_or_ge p P with hlt | hge
    · obtain ⟨w2, S, g1, g2, g3⟩ :=
        encrypt_pepper_scan_found P x5 R1 (fun _ => 0) p hs5 hlt hdp hmin
      exact ⟨w2, S, g1, fun j hj => g2 j hj, fun j hj => g3 j hj⟩
    · have hpe : p = P := by omega
      obtain ⟨w2, g1⟩ := encrypt_pepper_scan_fail P x5 R1 (fun _ => 0) hs5
        (fun q hq => hmin q (by omega))
      rw [hpe]
      exact ⟨w2, R1, g1, fun j hj => ez j hj, fun j hj => (hdrP j hj).symm⟩
  obtain ⟨w2, S, g1, g2, g3⟩ := hscanE
  have henc : freestyle_randomsetup_encrypt xs P us
      = some (finish_setup xs (with_counter (candidate x5 p) w2) S) := by
    have hnot : ¬ xs.is_pepper_set = true := by rw [hset]; simp
    unfold freestyle_randomsetup_encrypt
    simp only [if_neg hnot]
    have hn : xs.num_init_hashes = x4.num_init_hashes := rfl
    rw [← hx4, hn, e1]
    simp only
    have hps : ¬ (with_counter x4 w).is_pepper_set = true := hnot
    rw [if_neg hps]
    show (match encrypt_pepper_scan P x5 R1 (fun _ => 0) with
      | none => none
      | some (x6, R6) => some (finish_setup xs x6 R6))
      = some (finish_setup xs (with_counter (candidate x5 p) w2) S)
    rw [g1]
  refine ⟨_, p, henc, hpP, ?_⟩
  intro ihd hihd
  set y := setup_start { xd with init_hash := ihd } with hy
  have hse : setup_eq x5 y := by
    refine ⟨⟨w, ?_⟩, hrand.symm, rfl, rfl, rfl, rfl, ?_, hnih.symm, ?_⟩
    · simp only [hx5, hx4, hy, with_counter, setup_start, freestyle_precompute_rounds,
        set_sane_values, MINUS_PLUS, hin, hpep]
    · simp only [hx5, hx4, hy, with_counter, setup_start, freestyle_precompute_rounds,
        set_sane_values, hin]
    · intro j hj
      exact (hihd j hj).symm
  have hdy : candidate_decodes y p = true := by
    rw [← (candidate_congr hse hs5 p).1]; exact hdp
  have hminy : ∀ q, q < p → candidate_decodes y q = false := by
    intro q hq
    rw [← (candidate_congr hse hs5 q).1]; exact hmin q hq
  obtain ⟨w1, T, f1, f2, f3⟩ := decrypt_pepper_scan_found
    (pepper_candidates { xd with init_hash := ihd }) y (fun _ => 0) p (setup_start_sane _)
    (by
      have := pepper_candidates_gt { xd with init_hash := ihd } P hpb
        (by show xd.pepper + P < 2 ^ xd.pepper_bits; rw [hpep]; omega)
      omega)
    hdy hminy
  have hT : T = S := by
    funext j
    by_cases hj : j < xs.num_init_hashes
    · rw [f3 j (by rw [hy]; show j < xd.num_init_hashes; omega), g3 j hj]
      exact ((candidate_congr hse hs5 p).2 hdp j hj).symm
    · rw [f2 j (by rw [hy]; show xd.num_init_hashes ≤ j; omega), g2 j (by omega)]
  subst hT
  have hdec : freestyle_randomsetup_decrypt { xd with init_hash := ihd }
      = some (finish_setup { xd with init_hash := ihd } (with_counter (candidate y p) w1) T) := by
    unfold freestyle_randomsetup_decrypt
    rw [← hy, f1]
    simp
  obtain ⟨⟨w0, hw0⟩, _, _, _, _, _, hic, _, _⟩ := hse
  clear_value x5 y
  obtain ⟨k1, k2⟩ := finish_setup_congr xs { xd with init_hash := ihd }
    (with_counter (candidate x5 p) w2) (with_counter (candidate y p) w1) T h1 h2 h3 h4
    ⟨w2, by simp only [candidate, with_counter, hw0]⟩ hic
  exact ⟨_, w1, T, hdec, k1, k2, hdy, hminy, f1⟩

theorem pepper_draw_lt (pb P : Nat) (h : P < pepper_draw_bound pb) : P < 2 ^ pb := by
  unfold pepper_draw_bound at h
  split_ifs at h with h32
  · rw [h32]; norm_num; omega
  · have := Nat.mod_le (1 <<< pb) 4294967296
    rw [Nat.one_shiftLeft] at this h
    omega

/-! ## C2: setup agreement with a drawn pepper -/

/-- C2: random-pepper setup agreement.  For every valid parameter tuple, key, IV
and every outcome of the oracle (the drawn pepper `P`, below the bound handed to
the oracle, and the draws `us i` for the setup blocks), `freestyle_init_encrypt`
completes, and `freestyle_init_decrypt`, given the `init_hash[]` it produced,
completes too: its pepper search, started at 0, leaves by `break` at candidate
`p`, which is the smallest candidate for which all `num_init_hashes` setup blocks
decode, `p` is at most the drawn pepper (hence below `2^pepper_bits`), and the
decryptor's context ends with the same `input[0..16]`, `rand[0..8]` and
`initial_counter` as the encryptor's. -/
theorem random_pepper_setup_agreement (x0 xd0 : freestyle_ctx) (key : List Nat) (klb : Nat)
    (iv : List Nat) (mn mx npr hi pb nih : Nat) (hv : valid_params mn mx npr hi pb nih)
    (P : Nat) (hP : P < pepper_draw_bound pb) (us : Nat → Nat) (hus : ∀ i, us i < 25) :
    ∃ xe xd c p w S,
      freestyle_init_encrypt x0 key klb iv mn mx npr hi pb nih P us = some xe
      ∧ freestyle_init_decrypt xd0 key klb iv mn mx npr hi pb nih xe.init_hash = some xd
      ∧ freestyle_init_common xd0 key klb iv mn mx npr hi pb nih = some c
      ∧ decrypt_pepper_scan
          (pepper_candidates
            { c with pepper := 0, is_pepper_set := false, init_hash := xe.init_hash })
          (setup_start { c with pepper := 0, is_pepper_set := false, init_hash := xe.init_hash })
          (fun _ => 0)
        = some (true,
            with_counter
              (candidate
                (setup_start
                  { c with pepper := 0, is_pepper_set := false, init_hash := xe.init_hash }) p)
              w, S)
      ∧ candidate_decodes
          (setup_start { c with pepper := 0, is_pepper_set := false, init_hash := xe.init_hash })
          p = true
      ∧ (∀ q, q < p → candidate_decodes
          (setup_start { c with pepper := 0, is_pepper_set := false, init_hash := xe.init_hash })
          q = false)
      ∧ p ≤ P ∧ p < 2 ^ pb
      ∧ xd.input = xe.input ∧ xd.rand = xe.rand ∧ xd.initial_counter = xe.initial_counter := by
  obtain ⟨c, hc, c1, c2, c3, c4, c5, c6, _⟩ :=
    init_common_valid x0 key klb iv mn mx npr hi pb nih hv
  obtain ⟨d, hd, d1, d2, d3, d4, d5, d6, d7, d8, _⟩ :=
    init_common_two x0 xd0 key klb iv mn mx npr hi pb nih c hc
  have hpb : pb ≤ 32 := hv.2.2.2.2.2.2.2.2.2.1
  have hPlt := pepper_draw_lt pb P hP
  obtain ⟨xe, p, henc, hpP, hdec⟩ := randomsetup_agree_draw
    { c with pepper := 0, is_pepper_set := false }
    { d with pepper := 0, is_pepper_set := false } us P hus rfl d1 d2 rfl d8
    d3.symm d4.symm d5.symm d6.symm
    (by show d.pepper_bits ≤ 32; rw [d7, c5]; exact hpb)
    (by show P < 2 ^ d.pepper_bits; rw [d7, c5]; exact hPlt)
  obtain ⟨xf, w, S, hxf, hbe, hic, hdy, hminy, hscan⟩ := hdec xe.init_hash (fun _ _ => rfl)
  refine ⟨xe, xf, d, p, w, S, ?_, ?_, hd, hscan, hdy, hminy, hpP, by omega, hbe.1.symm,
    hbe.2.1.symm, hic.symm⟩
  · unfold freestyle_init_encrypt
    rw [hc]
    exact henc
  · unfold freestyle_init_decrypt
    rw [hd]
    exact hxf

/-! ## C3: alignment of the round count -/

theorem process_block_enc_rounds (x : freestyle_ctx) (p : Option (Nat → Nat))
    (bytes e u : Nat) (b : BlockResult)
    (h : freestyle_process_block x p bytes e true u = some b) :
    freestyle_random_round_number x u = some b.rounds := by
  unfold freestyle_process_block at h
  simp only [if_true] at h
  rcases hR : freestyle_random_round_number x u with _ | R
  · rw [hR] at h; simp at h
  · rw [hR] at h
    simp only at h
    split_ifs at h
    split at h
    · simp at h
    · simp only [Bool.not_true, Bool.false_and, Bool.false_eq_true, if_false, if_true,
        Option.some.injEq] at h
      rw [← h]

/-- C3, as stated, fails: the context `wide_ctx` satisfies `min_rounds <= max_rounds`
with both bounds multiples of `hash_interval >= 1`, the oracle value
`u = 4294967294` lies in `[0, max_rounds - min_rounds + hash_interval)`, yet
`min_rounds + u` wraps around in 32 bits to 1, the round count becomes 0 and the
assertion `R >= min_rounds` fails. -/
theorem round_count_alignment_counterexample :
    wide_ctx.min_rounds ≤ wide_ctx.max_rounds
      ∧ wide_ctx.min_rounds % wide_ctx.hash_interval = 0
      ∧ wide_ctx.max_rounds % wide_ctx.hash_interval = 0
      ∧ 1 ≤ wide_ctx.hash_interval
      ∧ 4294967294 < wide_ctx.max_rounds - wide_ctx.min_rounds + wide_ctx.hash_interval
      ∧ round_draw_bound wide_ctx = 4294967295
      ∧ freestyle_random_round_number wide_ctx 4294967294 = none := by
  decide

/-- C3 (amended): round-count alignment.  For every context with
`min_rounds <= max_rounds`, both multiples of `hash_interval >= 1`, and with
`max_rounds + hash_interval <= 2^32` (true after every init entry point, which
admits `max_rounds <= 65536` only), and for every oracle value `u` below
`max_rounds - min_rounds + hash_interval`, `freestyle_random_round_number` passes
both assertions and returns `R` with `min_rounds <= R <= max_rounds` and
`R % hash_interval == 0`; the block engine in encrypt mode returns that `R`. -/
theorem round_count_alignment (x : freestyle_ctx) (u : Nat)
    (hle : x.min_rounds ≤ x.max_rounds) (hmin : x.min_rounds % x.hash_interval = 0)
    (hmax : x.max_rounds % x.hash_interval = 0) (hhi : 1 ≤ x.hash_interval)
    (hbound : x.max_rounds + x.hash_interval ≤ 4294967296)
    (hu : u < x.max_rounds - x.min_rounds + x.hash_interval) :
    ∃ R, freestyle_random_round_number x u = some R ∧ x.min_rounds ≤ R ∧ R ≤ x.max_rounds
      ∧ R % x.hash_interval = 0
      ∧ ∀ (p : Option (Nat → Nat)) (bytes e : Nat) (b : BlockResult),
          freestyle_process_block x p bytes e true u = some b → b.rounds = R := by
  obtain ⟨R, hR, h1, h2, h3⟩ := random_round_number_spec x u hle hmin hmax hhi hbound hu
  refine ⟨R, hR, h1, h2, h3, ?_⟩
  intro p bytes e b hb
  have := process_block_enc_rounds x p bytes e u b hb
  rw [hR] at this
  exact (Option.some.inj this).symm

/-- Witness of C3 (amended), `round_count_alignment`: the scenario parameters and `u = 27`. -/
theorem round_count_alignment_witness :
    ∃ R, freestyle_random_round_number scenario_ctx 27 = some R
      ∧ scenario_ctx.min_rounds ≤ R ∧ R ≤ scenario_ctx.max_rounds
      ∧ R % scenario_ctx.hash_interval = 0
      ∧ ∀ (p : Option (Nat → Nat)) (bytes e : Nat) (b : BlockResult),
          freestyle_process_block scenario_ctx p bytes e true 27 = some b → b.rounds = R :=
  round_count_alignment scenario_ctx 27 (by decide) (by decide) (by decide) (by decide)
    (by decide) (by decide)

/-! ## C9: the hashes recorded in one block are distinct -/

/-- C9: block-hash uniqueness within a block.  For every context with
`max_rounds <= 65536` (in particular `1 <= min_rounds <= max_rounds <= 65536`)
and every run of the round loop of the block engine (encrypt or decrypt, any
expected hash, any loop bound `rounds <= max_rounds`), the values recorded after
collision resolution (`hash_collided`, in the order of recording) are pairwise
distinct; and unless `hash_interval` is zero (where the remainder traps) the
loop does complete. -/
theorem block_hashes_distinct (x : freestyle_ctx) (dec : Bool) (e rounds : Nat)
    (hmax : x.max_rounds ≤ 65536) (hr : rounds ≤ x.max_rounds) :
    (∀ st, round_loop x dec e (rounds - x.num_precomputed_rounds) (block_start x) = some st →
        st.hash_collided.Nodup)
      ∧ (x.hash_interval ≠ 0 →
          ∃ st, round_loop x dec e (rounds - x.num_precomputed_rounds) (block_start x)
            = some st) := by
  constructor
  · intro st hst
    exact round_loop_nodup x dec e _ _ _ hst List.nodup_nil
  · intro hi
    exact round_loop_total x dec e hi _ _ (by simp only [block_start, List.length_nil]; omega)

/-- Witness of C9, `block_hashes_distinct`: the scenario parameters, decrypt mode. -/
theorem block_hashes_distinct_witness :
    (∀ st, round_loop scenario_ctx true 0 (32 - scenario_ctx.num_precomputed_rounds)
        (block_start scenario_ctx) = some st → st.hash_collided.Nodup)
      ∧ (scenario_ctx.hash_interval ≠ 0 →
          ∃ st, round_loop scenario_ctx true 0 (32 - scenario_ctx.num_precomputed_rounds)
            (block_start scenario_ctx) = some st) :=
  block_hashes_distinct scenario_ctx true 0 32 (by decide) (by decide)

/-! ## C10: block accounting of `freestyle_process` -/

theorem increment_iterate (x : freestyle_ctx) (k : Nat) :
    freestyle_increment_counter^[k] x = with_counter x (PLUSONE^[k] x.input.w12) := by
  induction k generalizing x with
  | zero => rfl
  | succ k ih =>
    rw [Function.iterate_succ_apply, ih, Function.iterate_succ_apply]
    rfl

theorem PLUSONE_iterate_lt (a k : Nat) (ha : a < 4294967296) :
    PLUSONE^[k] a = (a + k) % 4294967296 := by
  have h0 : a = PLUS a 0 := by unfold PLUS; omega
  rw [h0, PLUSONE_iterate]
  unfold PLUS
  omega

/-- C10: block accounting of `freestyle_process` in encrypt mode.  On a context
whose parameters satisfy the invariants of section 3 (with a 32-bit counter
word), for every byte count `n` and oracle values in range, the call returns 0;
it runs the block engine once for each `k < ⌈n/64⌉`, on the context with the
counter advanced `k` times, on `min 64 (n - 64 k)` bytes at offset `64 k`, and
stores that block's hash in `hash[k]` and its bytes at `ciphertext[64 k ..]`; no
byte at index `n` or above and no hash slot at index `⌈n/64⌉` or above is
changed; the context is left with `⌈n/64⌉` added to `input[COUNTER]` modulo
`2^32` and every other field unchanged.  For `n = 0` the hash array, the
ciphertext buffer and the context are unchanged. -/
theorem process_block_accounting (x : freestyle_ctx) (plaintext cbuf hbuf us : Nat → Nat)
    (n : Nat)
    (hv : valid_params x.min_rounds x.max_rounds x.num_precomputed_rounds x.hash_interval
      x.pepper_bits x.num_init_hashes)
    (hw : x.input.w12 < 4294967296)
    (hu : ∀ k, us k < x.max_rounds - x.min_rounds + x.hash_interval) :
    ∃ re, freestyle_process x plaintext cbuf n hbuf true us = some re ∧ re.ret = 0
      ∧ re.x = with_counter x ((x.input.w12 + (n + 63) / 64) % 4294967296)
      ∧ (∀ j, n ≤ j → re.ciphertext j = cbuf j)
      ∧ (∀ k, (n + 63) / 64 ≤ k → re.hash k = hbuf k)
      ∧ (∀ k, k < (n + 63) / 64 → ∃ b,
          freestyle_process_block (freestyle_increment_counter^[k] x)
            (some (fun j => plaintext (64 * k + j))) (min 64 (n - 64 * k)) (hbuf k) true (us k)
            = some b
          ∧ b.ciphertext.length = min 64 (n - 64 * k)
          ∧ re.hash k = b.hash
          ∧ ∀ j, j < min 64 (n - 64 * k) → re.ciphertext (64 * k + j) = b.ciphertext.getD j 0)
      ∧ (n = 0 → re.hash = hbuf ∧ re.ciphertext = cbuf ∧ re.x = x) := by
  obtain ⟨re, hre, hret, hx, hfc, hfh, hcont⟩ := process_loop_enc plaintext us n
    { x := x, i := 0, bytes := n, block := 0, ciphertext := cbuf, hash := hbuf }
    (valid_params_block_ok hv) hu (Nat.le_refl _)
  simp only at hx hfc hfh hcont
  refine ⟨re, hre, hret, ?_, ?_, ?_, ?_, ?_⟩
  · rw [hx, increment_iterate, PLUSONE_iterate_lt _ _ hw]
  · intro j hj; exact hfc j (Or.inr (by omega))
  · intro k hk; exact hfh k (Or.inr (by omega))
  · intro k hk
    obtain ⟨b, hb1, _, hb3, hb4⟩ := hcont k hk
    simp only [Nat.zero_add] at hb1 hb3 hb4
    refine ⟨b, hb1, ?_, hb3, hb4⟩
    obtain ⟨R, h, o, _, _, _, _, hE, _⟩ := block_pair (freestyle_increment_counter^[k] x) (us k)
      ((block_ok_increment x k).mpr (valid_params_block_ok hv))
      (by
        obtain ⟨i1, i2, i3⟩ := increment_params x k
        rw [i1, i2, i3]; exact hu k)
    rw [hE] at hb1
    rw [← Option.some.inj hb1]
    exact block_output_length _ _ _ _
  · intro h0
    subst h0
    have h2 : some re = some { ret := 0, x := x, ciphertext := cbuf, hash := hbuf } :=
      hre.symm.trans rfl
    rw [Option.some.inj h2]
    exact ⟨rfl, rfl, rfl⟩

/-- Witness of C10, `process_block_accounting`: 200 bytes on the scenario context. -/
theorem process_block_accounting_witness :
    ∃ re, freestyle_process scenario_ctx (fun _ => 170) (fun _ => 0) 200 (fun _ => 0) true
        (fun _ => 0) = some re ∧ re.ret = 0
      ∧ re.x = with_counter scenario_ctx ((scenario_ctx.input.w12 + (200 + 63) / 64) % 4294967296)
      ∧ (∀ j, 200 ≤ j → re.ciphertext j = (fun _ => 0) j)
      ∧ (∀ k, (200 + 63) / 64 ≤ k → re.hash k = (fun _ => 0) k)
      ∧ (∀ k, k < (200 + 63) / 64 → ∃ b,
          freestyle_process_block (freestyle_increment_counter^[k] scenario_ctx)
            (some (fun j => (fun _ => 170) (64 * k + j))) (min 64 (200 - 64 * k))
            ((fun _ => 0) k) true ((fun _ => 0) k) = some b
          ∧ b.ciphertext.length = min 64 (200 - 64 * k)
          ∧ re.hash k = b.hash
          ∧ ∀ j, j < min 64 (200 - 64 * k) → re.ciphertext (64 * k + j) = b.ciphertext.getD j 0)
      ∧ (200 = 0 → re.hash = (fun _ => 0) ∧ re.ciphertext = (fun _ => 0) ∧ re.x = scenario_ctx) :=
  process_block_accounting scenario_ctx (fun _ => 170) (fun _ => 0) (fun _ => 0) (fun _ => 0) 200
    (by decide) (by decide) (fun _ => by show (0 : Nat) < 32 - 8 + 4; decide)

/-! ## Witnesses of C1 and C2 -/

/-- Witness of C1, `round_trip_with_pepper`: scenario 2 of the spec. -/
theorem round_trip_with_pepper_witness :
    ∃ xe re xd rd,
      freestyle_init_encrypt_with_pepper scenario_ctx zero_key 256 zero_iv 8 32 4 4 8 7 0
        (fun _ => 0) = some xe
      ∧ freestyle_process xe hello_bytes (fun _ => 0) 17 (fun _ => 0) true (fun _ => 0) = some re
      ∧ freestyle_init_decrypt_with_pepper scenario_ctx zero_key 256 zero_iv 8 32 4 4 8 7 0
          xe.init_hash = some xd
      ∧ freestyle_process xd re.ciphertext (fun _ => 0) 17 re.hash false (fun _ => 0) = some rd
      ∧ rd.ret = 0 ∧ ∀ j, j < 17 → rd.ciphertext j = hello_bytes j :=
  round_trip_with_pepper scenario_ctx scenario_ctx zero_key 256 zero_iv 8 32 4 4 8 7 (by decide)
    0 (by decide) hello_bytes 17 (fun _ => 0) (fun _ => 0)
    (fun _ => by show (0 : Nat) < 25; decide) (fun _ => by show (0 : Nat) < 32 - 8 + 4; decide)
    (fun _ => 0) (fun _ => 0) (fun _ => 0) (fun _ => 0)

/-- Witness of C2, `random_pepper_setup_agreement`: scenario 4 of the spec with the
all-zero key and IV and the drawn pepper 5. -/
theorem random_pepper_setup_agreement_witness :
    ∃ xe xd c p w S,
      freestyle_init_encrypt scenario_ctx zero_key 256 zero_iv 8 32 4 4 8 7 5 (fun _ => 0)
        = some xe
      ∧ freestyle_init_decrypt scenario_ctx zero_key 256 zero_iv 8 32 4 4 8 7 xe.init_hash
        = some xd
      ∧ freestyle_init_common scenario_ctx zero_key 256 zero_iv 8 32 4 4 8 7 = some c
      ∧ decrypt_pepper_scan
          (pepper_candidates
            { c with pepper := 0, is_pepper_set := false, init_hash := xe.init_hash })
          (setup_start { c with pepper := 0, is_pepper_set := false, init_hash := xe.init_hash })
          (fun _ => 0)
        = some (true,
            with_counter
              (candidate
                (setup_start
                  { c with pepper := 0, is_pepper_set := false, init_hash := xe.init_hash }) p)
              w, S)
      ∧ candidate_decodes
          (setup_start { c with pepper := 0, is_pepper_set := false, init_hash := xe.init_hash })
          p = true
      ∧ (∀ q, q < p → candidate_decodes
          (setup_start { c with pepper := 0, is_pepper_set := false, init_hash := xe.init_hash })
          q = false)
      ∧ p ≤ 5 ∧ p < 2 ^ 8
      ∧ xd.input = xe.input ∧ xd.rand = xe.rand ∧ xd.initial_counter = xe.initial_counter :=
  random_pepper_setup_agreement scenario_ctx scenario_ctx zero_key 256 zero_iv 8 32 4 4 8 7
    (by decide) 5 (by decide) (fun _ => 0) (fun _ => by show (0 : Nat) < 25; decide)

/-! ## C7: the packed parameters bind the tuple -/

theorem cipher_parameter0_eq (mn mx : Nat) :
    cipher_parameter0 mn mx = 65536 * (mn % 65536) + mx % 65536 := by
  have e1 : mn &&& 0xFFFF = mn % 65536 := Nat.and_pow_two_sub_one_eq_mod mn 16
  have e2 : mx &&& 0xFFFF = mx % 65536 := Nat.and_pow_two_sub_one_eq_mod mx 16
  have hlt : mx % 65536 < 2 ^ 16 := Nat.mod_lt _ (by norm_num)
  unfold cipher_parameter0
  rw [e1, e2, Nat.shiftLeft_eq, Nat.mul_comm, ← Nat.mul_add_lt_is_or hlt]

theorem cipher_parameter1_eq (hi pb nih npr : Nat) :
    cipher_parameter1 hi pb nih npr
      = 65536 * (hi % 65536) + (1024 * (pb % 64) + (16 * (nih % 64) + npr % 16)) := by
  have e1 : hi &&& 0xFFFF = hi % 65536 := Nat.and_pow_two_sub_one_eq_mod hi 16
  have e2 : pb &&& 0x003F = pb % 64 := Nat.and_pow_two_sub_one_eq_mod pb 6
  have e3 : nih &&& 0x003F = nih % 64 := Nat.and_pow_two_sub_one_eq_mod nih 6
  have e4 : npr &&& 0xF = npr % 16 := Nat.and_pow_two_sub_one_eq_mod npr 4
  have l4 : npr % 16 < 2 ^ 4 := Nat.mod_lt _ (by norm_num)
  have l3 : 2 ^ 4 * (nih % 64) + npr % 16 < 2 ^ 10 := by
    have := Nat.mod_lt nih (show 0 < 64 by norm_num)
    norm_num; norm_num at l4; omega
  have l2 : 2 ^ 10 * (pb % 64) + (2 ^ 4 * (nih % 64) + npr % 16) < 2 ^ 16 := by
    have := Nat.mod_lt pb (show 0 < 64 by norm_num)
    norm_num; norm_num at l3; omega
  unfold cipher_parameter1
  rw [e1, e2, e3, e4, Nat.shiftLeft_eq, Nat.shiftLeft_eq, Nat.shiftLeft_eq,
    Nat.mul_comm (hi % 65536), Nat.mul_comm (pb % 64), Nat.mul_comm (nih % 64),
    Nat.or_assoc, Nat.or_assoc, ← Nat.mul_add_lt_is_or l4, ← Nat.mul_add_lt_is_or l3,
    ← Nat.mul_add_lt_is_or l2]
  norm_num

/-- What the assertions of `freestyle_init_common` enforce, and the words it
leaves in the context. -/
theorem init_common_some (x : freestyle_ctx) (key : List Nat) (klb : Nat) (iv : List Nat)
    (mn mx npr hi pb nih : Nat) (c : freestyle_ctx)
    (h : freestyle_init_common x key klb iv mn mx npr hi pb nih = some c) :
    (1 ≤ mn ∧ mx ≤ 65536 ∧ mn ≤ mx ∧ hi ≠ 0 ∧ mn % hi = 0 ∧ mx % hi = 0 ∧ 1 ≤ npr ∧ npr ≤ 16
        ∧ npr ≤ (mn + (4294967296 - 4)) % 4294967296
        ∧ 8 ≤ pb ∧ pb ≤ 32 ∧ 7 ≤ nih ∧ nih ≤ 56)
      ∧ c.cipher_parameter = (cipher_parameter0 mn mx, cipher_parameter1 hi pb nih npr)
      ∧ c.input.w0
          = XOR (U8TO32_LITTLE (if klb = 256 then sigma else tau) 0) (cipher_parameter0 mn mx)
      ∧ c.input.w1
          = XOR (U8TO32_LITTLE (if klb = 256 then sigma else tau) 4)
              (cipher_parameter1 hi pb nih npr)
      ∧ c.min_rounds = mn ∧ c.max_rounds = mx ∧ c.num_precomputed_rounds = npr
      ∧ c.hash_interval = hi ∧ c.pepper_bits = pb ∧ c.num_init_hashes = nih := by
  unfold freestyle_init_common at h
  split_ifs at h with h1 h2
  obtain ⟨a1, a2, a3, a4, a5, a6, a7, a8, a9, a10, a11, a12⟩ := h2
  unfold freestyle_roundsetup at h
  simp only [freestyle_hashsetup] at h
  rw [if_neg h1] at h
  simp only [Option.some.injEq] at h
  subst h
  exact ⟨⟨a1, a2, a3, h1, a4, a5, a6, a7, a8, a9, a10, a11, a12⟩, rfl, rfl, rfl, rfl, rfl, rfl,
    rfl, rfl, rfl⟩

/-- C7: parameter binding.  If two parameter tuples `(min_rounds, max_rounds,
num_precomputed_rounds, hash_interval, pepper_bits, num_init_hashes)` both pass
the assertions of `freestyle_init_common` and differ in at least one component,
then the packed words `(cipher_parameter[0], cipher_parameter[1])` computed by
`freestyle_roundsetup` differ, and for the same key (same bytes, same length) the
pairs `(input[CONSTANT0], input[CONSTANT1])` left by `freestyle_init_common`
differ. -/
theorem parameter_binding (x y : freestyle_ctx) (key : List Nat) (klb : Nat) (iv iv1 : List Nat)
    (mn mx npr hi pb nih mn1 mx1 npr1 hi1 pb1 nih1 : Nat) (c d : freestyle_ctx)
    (hc : freestyle_init_common x key klb iv mn mx npr hi pb nih = some c)
    (hd : freestyle_init_common y key klb iv1 mn1 mx1 npr1 hi1 pb1 nih1 = some d)
    (hne : (mn, mx, npr, hi, pb, nih) ≠ (mn1, mx1, npr1, hi1, pb1, nih1)) :
    c.cipher_parameter ≠ d.cipher_parameter
      ∧ (c.input.w0, c.input.w1) ≠ (d.input.w0, d.input.w1) := by
  obtain ⟨⟨a1, a2, a3, a4, a5, a6, a7, a8, _, a10, a11, a12, a13⟩, ac, aw0, aw1, _⟩ :=
    init_common_some x key klb iv mn mx npr hi pb nih c hc
  obtain ⟨⟨b1, b2, b3, b4, b5, b6, b7, b8, _, b10, b11, b12, b13⟩, bc, bw0, bw1, _⟩ :=
    init_common_some y key klb iv1 mn1 mx1 npr1 hi1 pb1 nih1 d hd
  have hhi : hi ≤ mn := Nat.le_of_dvd (by omega) (Nat.dvd_of_mod_eq_zero a5)
  have hhi1 : hi1 ≤ mn1 := Nat.le_of_dvd (by omega) (Nat.dvd_of_mod_eq_zero b5)
  have key0 : cipher_parameter0 mn mx = cipher_parameter0 mn1 mx1
      → cipher_parameter1 hi pb nih npr = cipher_parameter1 hi1 pb1 nih1 npr1 → False := by
    intro e0 e1
    rw [cipher_parameter0_eq, cipher_parameter0_eq] at e0
    rw [cipher_parameter1_eq, cipher_parameter1_eq] at e1
    apply hne
    have q1 : mn = mn1 := by omega
    have q2 : mx = mx1 := by omega
    have q3 : npr = npr1 := by omega
    have q4 : hi = hi1 := by omega
    have q5 : pb = pb1 := by omega
    have q6 : nih = nih1 := by omega
    rw [q1, q2, q3, q4, q5, q6]
  constructor
  · intro e
    rw [ac, bc] at e
    exact key0 (congrArg Prod.fst e) (congrArg Prod.snd e)
  · intro e
    have e0 := congrArg Prod.fst e
    have e1 := congrArg Prod.snd e
    simp only at e0 e1
    rw [aw0, bw0] at e0
    rw [aw1, bw1] at e1
    unfold XOR at e0 e1
    exact key0 (Nat.xor_right_injective e0) (Nat.xor_right_injective e1)

/-- Witness of C7, `parameter_binding`: the scenario parameters against the same
tuple with `max_rounds = 28` (scenario 5 of the spec). -/
theorem parameter_binding_witness :
    ∃ c d, freestyle_init_common scenario_ctx zero_key 256 zero_iv 8 32 4 4 8 7 = some c
      ∧ freestyle_init_common scenario_ctx zero_key 256 zero_iv 8 28 4 4 8 7 = some d
      ∧ c.cipher_parameter ≠ d.cipher_parameter
      ∧ (c.input.w0, c.input.w1) ≠ (d.input.w0, d.input.w1) := by
  obtain ⟨c, hc, _⟩ := init_common_valid scenario_ctx zero_key 256 zero_iv 8 32 4 4 8 7
    (by decide)
  obtain ⟨d, hd, _⟩ := init_common_valid scenario_ctx zero_key 256 zero_iv 8 28 4 4 8 7
    (by decide)
  exact ⟨c, d, hc, hd, parameter_binding scenario_ctx scenario_ctx zero_key 256 zero_iv zero_iv
    8 32 4 4 8 7 8 28 4 4 8 7 c d hc hd (by decide)⟩

/-! ## C8: what the init hashes depend on -/

/-- The value of `*expected_hash` on entry is not read in encrypt mode. -/
theorem process_block_enc_expected (x : freestyle_ctx) (p : Option (Nat → Nat))
    (bytes e e1 u : Nat) :
    freestyle_process_block x p bytes e true u = freestyle_process_block x p bytes e1 true u := by
  unfold freestyle_process_block
  simp only [if_true, Bool.not_true, Bool.false_and, Bool.false_eq_true, if_false,
    round_loop_enc_expected x e 0, round_loop_enc_expected x e1 0]

theorem setup_encrypt_blocks_frame (us : Nat → Nat) :
    ∀ (n i : Nat) (x : freestyle_ctx) (R : Nat → Nat) (x1 : freestyle_ctx) (R1 : Nat → Nat),
      setup_encrypt_blocks us n i x R = some (x1, R1) →
      ∀ j, j < i → x1.init_hash j = x.init_hash j := by
  intro n
  induction n with
  | zero =>
    intro i x R x1 R1 h j _
    simp only [setup_encrypt_blocks, Option.some.injEq, Prod.mk.injEq] at h
    rw [← h.1]
  | succ n ih =>
    intro i x R x1 R1 h j hj
    rw [setup_encrypt_blocks] at h
    split at h
    · simp at h
    · rename_i b hb
      rw [ih (i + 1) _ _ x1 R1 h j (by omega)]
      exact store_other _ _ _ _ (by omega)

/-- The setup blocks in encrypt mode read the oracle values `us i .. us (i+n-1)`
and the fields of the context that the block engine reads, nothing else: two runs
that agree on these both abort or both complete, with the same init hashes. -/
theorem setup_encrypt_blocks_oracle (us us1 : Nat → Nat) :
    ∀ (n i : Nat) (x y : freestyle_ctx) (R R1 : Nat → Nat), block_eq x y →
      (∀ k, i ≤ k → k < i + n → us k = us1 k) →
      (setup_encrypt_blocks us n i x R = none ∧ setup_encrypt_blocks us1 n i y R1 = none)
        ∨ ∃ x1 S y1 S1, setup_encrypt_blocks us n i x R = some (x1, S)
            ∧ setup_encrypt_blocks us1 n i y R1 = some (y1, S1)
            ∧ ∀ j, i ≤ j → j < i + n → x1.init_hash j = y1.init_hash j := by
  intro n
  induction n with
  | zero =>
    intro i x y R R1 _ _
    right
    exact ⟨x, R, y, R1, rfl, rfl, fun j h1 h2 => by omega⟩
  | succ n ih =>
    intro i x y R R1 he hus
    have hb : freestyle_encrypt_block y none 0 (y.init_hash i) (us1 i)
        = freestyle_encrypt_block x none 0 (x.init_hash i) (us i) := by
      unfold freestyle_encrypt_block
      rw [← hus i (Nat.le_refl _) (by omega), ← block_eq_process he,
        process_block_enc_expected x none 0 (y.init_hash i) (x.init_hash i)]
    rcases hbx : freestyle_encrypt_block x none 0 (x.init_hash i) (us i) with _ | b
    · left
      rw [hbx] at hb
      exact ⟨by rw [setup_encrypt_blocks, hbx], by rw [setup_encrypt_blocks, hb]⟩
    · rw [hbx] at hb
      have he1 : block_eq
          (freestyle_increment_counter { x with init_hash := store x.init_hash i b.hash })
          (freestyle_increment_counter { y with init_hash := store y.init_hash i b.hash }) := by
        obtain ⟨h1, h2, h3, h4, h5, h6⟩ := he
        refine ⟨?_, h2, h3, h4, h5, h6⟩
        simp only [freestyle_increment_counter, h1]
      rcases ih (i + 1) _ _ (store R i b.rounds) (store R1 i b.rounds) he1
          (fun k h1 h2 => hus k (by omega) (by omega)) with ⟨n1, n2⟩ | ⟨x1, S, y1, S1, e1, e2, e3⟩
      · left
        exact ⟨by rw [setup_encrypt_blocks, hbx]; exact n1,
          by rw [setup_encrypt_blocks, hb]; exact n2⟩
      · right
        refine ⟨x1, S, y1, S1, by rw [setup_encrypt_blocks, hbx]; exact e1,
          by rw [setup_encrypt_blocks, hb]; exact e2, ?_⟩
        intro j h1 h2
        by_cases hji : j = i
        · rw [hji, setup_encrypt_blocks_frame us n (i + 1) _ _ x1 S e1 i (by omega),
            setup_encrypt_blocks_frame us1 n (i + 1) _ _ y1 S1 e2 i (by omega)]
          show store x.init_hash i b.hash i = store y.init_hash i b.hash i
          rw [store_same, store_same]
        · exact e3 j (by omega) (by omega)

theorem setup_encrypt_blocks_pepper_flag (us : Nat → Nat) :
    ∀ (n i : Nat) (x : freestyle_ctx) (R : Nat → Nat) (x1 : freestyle_ctx) (R1 : Nat → Nat),
      setup_encrypt_blocks us n i x R = some (x1, R1) →
      x1.is_pepper_set = x.is_pepper_set := by
  intro n
  induction n with
  | zero =>
    intro i x R x1 R1 h
    simp only [setup_encrypt_blocks, Option.some.injEq, Prod.mk.injEq] at h
    rw [← h.1]
  | succ n ih =>
    intro i x R x1 R1 h
    rw [setup_encrypt_blocks] at h
    split at h
    · simp at h
    · rw [ih (i + 1) _ _ x1 R1 h]
      rfl

/-- C8, as stated, fails: with the all-zero key and IV, the scenario parameters
and pepper 0, a run in which the oracle returns 0 for every setup block (round
count 12) writes `init_hash[0] = 49086`, and a run in which it returns 1 (round
count 13) writes `init_hash[0] = 48503`. -/
theorem init_hash_determinism_counterexample :
    (freestyle_init_encrypt_with_pepper scenario_ctx zero_key 256 zero_iv 8 32 4 4 8 7 0
        (fun _ => 0)).map (fun c => c.init_hash 0) = some 49086
      ∧ (freestyle_init_encrypt_with_pepper scenario_ctx zero_key 256 zero_iv 8 32 4 4 8 7 0
        (fun _ => 1)).map (fun c => c.init_hash 0) = some 48503 := by
  decide

/-- C8 (amended): init-hash determinism.  For a fixed key, IV, parameter tuple
and caller-supplied pepper, two runs of `freestyle_init_encrypt_with_pepper` (on
any two contexts) in which the random-round oracle returns the same values for
the `num_init_hashes` setup blocks either both abort or both complete with the
same sequence `init_hash[0..num_init_hashes)`. -/
theorem init_hash_determined_by_draws (x0 x1 : freestyle_ctx) (key : List Nat) (klb : Nat)
    (iv : List Nat) (mn mx npr hi pb nih pepper : Nat) (us us1 : Nat → Nat)
    (hus : ∀ i, i < nih → us i = us1 i) :
    (freestyle_init_encrypt_with_pepper x0 key klb iv mn mx npr hi pb nih pepper us).map
        (fun c => (List.range nih).map c.init_hash)
      = (freestyle_init_encrypt_with_pepper x1 key klb iv mn mx npr hi pb nih pepper us1).map
        (fun c => (List.range nih).map c.init_hash) := by
  unfold freestyle_init_encrypt_with_pepper
  rcases hc : freestyle_init_common x0 key klb iv mn mx npr hi pb nih with _ | c
  · rcases hd : freestyle_init_common x1 key klb iv mn mx npr hi pb nih with _ | d
    · rfl
    · obtain ⟨c, hc1, _⟩ := init_common_two x1 x0 key klb iv mn mx npr hi pb nih d hd
      rw [hc] at hc1
      simp at hc1
  · obtain ⟨d, hd, d1, d2, d3, d4, d5, d6, _, d8, _⟩ :=
      init_common_two x0 x1 key klb iv mn mx npr hi pb nih c hc
    have hn : c.num_init_hashes = nih :=
      (init_common_some _ _ _ _ _ _ _ _ _ _ c hc).2.2.2.2.2.2.2.2.2
    rw [hd]
    clear hd hc
    rcases d with ⟨dinput, dmin, dmax, dnrp, dhi, dcp, drand, dnpr, dpb, dset, dpep, dnih, dih,
      dic⟩
    simp only at d1 d2 d8
    subst d8
    simp only
    unfold freestyle_randomsetup_encrypt
    simp only [if_true]
    have hbe : block_eq (setup_start { c with pepper := pepper, is_pepper_set := true })
        (setup_start
          { input := dinput, min_rounds := dmin, max_rounds := dmax, num_rounds_possible := dnrp,
            hash_interval := dhi, cipher_parameter := dcp, rand := drand,
            num_precomputed_rounds := dnpr, pepper_bits := dpb, is_pepper_set := true,
            pepper := pepper, num_init_hashes := c.num_init_hashes, init_hash := dih,
            initial_counter := dic }) := by
      refine ⟨?_, d2.symm, rfl, rfl, rfl, rfl⟩
      simp only [setup_start, freestyle_precompute_rounds, set_sane_values, d1]
    rcases setup_encrypt_blocks_oracle us us1 c.num_init_hashes 0 _ _ (fun _ => 0) (fun _ => 0)
        hbe (fun k _ hk => hus k (by omega)) with ⟨n1, n2⟩ | ⟨x5, S, y5, S1, e1, e2, e3⟩
    · rw [n1, n2]
    · have f1 : x5.is_pepper_set = true :=
        setup_encrypt_blocks_pepper_flag us _ _ _ _ _ _ e1
      have f2 : y5.is_pepper_set = true :=
        setup_encrypt_blocks_pepper_flag us1 _ _ _ _ _ _ e2
      rw [e1, e2]
      simp only
      rw [if_pos f1, if_pos f2]
      simp only [Option.map_some', Option.some.injEq]
      apply List.map_congr_left
      intro j hj
      rw [List.mem_range] at hj
      exact e3 j (Nat.zero_le _) (by omega)

/-- Witness of C8 (amended), `init_hash_determined_by_draws`: two oracles that agree on the
seven setup blocks and differ afterwards. -/
theorem init_hash_determined_by_draws_witness :
    (freestyle_init_encrypt_with_pepper scenario_ctx zero_key 256 zero_iv 8 32 4 4 8 7 0
        (fun i => if i < 7 then 3 else 0)).map (fun c => (List.range 7).map c.init_hash)
      = (freestyle_init_encrypt_with_pepper (with_counter scenario_ctx 5) zero_key 256 zero_iv
        8 32 4 4 8 7 0 (fun _ => 3)).map (fun c => (List.range 7).map c.init_hash) :=
  init_hash_determined_by_draws scenario_ctx (with_counter scenario_ctx 5) zero_key 256 zero_iv
    8 32 4 4 8 7 0
    (fun i => if i < 7 then 3 else 0) (fun _ => 3) (fun _ hi => if_pos hi)

/-! ## C4 and C5: the counter after initialisation -/

/-- C5 at a failing input: after `freestyle_init_encrypt_with_pepper` with the
all-zero key and IV, the scenario parameters, pepper 0 and the oracle returning
0, `input[COUNTER]` is 3210721674 while `initial_counter` is 656888760: the
pre-computation that ends the setup runs after `input[COUNTER]` was set to
`initial_counter` and changes it. -/
theorem counter_after_init_differs :
    (freestyle_init_encrypt_with_pepper scenario_ctx zero_key 256 zero_iv 8 32 4 4 8 7 0
        (fun _ => 0)).map (fun c => (c.input.w12, c.initial_counter))
      = some (3210721674, 656888760) := by
  decide

/-- C4 at a failing input: on the context just initialised as above, the block
engine encrypts the 17 bytes of scenario 2 (oracle value 0) with round count 8
and block hash 48204; after `freestyle_set_counter (ctx, 0)` the same call
yields block hash 43997 and other bytes, although no block has been processed
in between.  And scenario 6 of the spec fails: 320 bytes are encrypted, a fresh
decrypt context is set to block 3 with `freestyle_set_counter` and fed blocks 3
and 4 with their hashes; `freestyle_process` returns -1. -/
theorem set_counter_zero_differs :
    ((freestyle_init_encrypt_with_pepper scenario_ctx zero_key 256 zero_iv 8 32 4 4 8 7 0
        (fun _ => 0)).bind
        (fun c => freestyle_process_block c (some hello_bytes) 17 0 true 0)).map
        (fun b => (b.rounds, b.hash, b.ciphertext))
      = some (8, 48204,
          [194, 49, 63, 101, 128, 246, 168, 17, 71, 249, 105, 238, 9, 62, 46, 108, 99])
    ∧ ((freestyle_init_encrypt_with_pepper scenario_ctx zero_key 256 zero_iv 8 32 4 4 8 7 0
        (fun _ => 0)).bind
        (fun c => freestyle_process_block (freestyle_set_counter c 0) (some hello_bytes) 17 0
          true 0)).map
        (fun b => (b.rounds, b.hash, b.ciphertext))
      = some (8, 43997,
          [97, 195, 135, 15, 242, 217, 213, 223, 78, 231, 207, 46, 145, 215, 153, 165, 83])
    ∧ ((freestyle_init_encrypt_with_pepper scenario_ctx zero_key 256 zero_iv 8 32 4 4 8 7 0
        (fun _ => 0)).bind fun cE =>
      (freestyle_process cE (fun _ => 170) (fun _ => 0) 320 (fun _ => 0) true (fun _ => 0)).bind
        fun rE =>
      (freestyle_init_decrypt_with_pepper scenario_ctx zero_key 256 zero_iv 8 32 4 4 8 7 0
        cE.init_hash).bind fun cD =>
      (freestyle_process (freestyle_set_counter cD 3) (fun j => rE.ciphertext (192 + j))
        (fun _ => 0) 128 (fun j => rE.hash (3 + j)) false (fun _ => 0)).map
        (fun r => r.ret)) = some (-1) := by
  decide

/-! ## C6: what the assertions of initialisation admit -/

/-- C6 at a failing input: `freestyle_init_encrypt_with_pepper` with
`min_rounds = 1`, `max_rounds = 32`, `num_precomputed_rounds = 4`,
`hash_interval = 1`, `pepper_bits = 8`, `num_init_hashes = 7` passes every
assertion and returns a context holding these parameters, although
`num_precomputed_rounds + 4 <= min_rounds` fails: `min_rounds - 4` wraps around
to `2^32 - 3` in the assertion.  A block encrypted with the oracle value 0 then
gets round count 1, below the first round of the loop, and hash 0. -/
theorem init_admits_small_min_rounds :
    (freestyle_init_encrypt_with_pepper scenario_ctx zero_key 256 zero_iv 1 32 4 1 8 7 0
        (fun _ => 0)).map
        (fun c => (c.min_rounds, c.max_rounds, c.num_precomputed_rounds, c.hash_interval,
          c.pepper_bits, c.num_init_hashes))
      = some (1, 32, 4, 1, 8, 7)
    ∧ ¬ (4 + 4 ≤ 1)
    ∧ ((freestyle_init_encrypt_with_pepper scenario_ctx zero_key 256 zero_iv 1 32 4 1 8 7 0
        (fun _ => 0)).bind
        (fun c => freestyle_process_block c (some hello_bytes) 17 0 true 0)).map
        (fun b => (b.rounds, b.hash))
      = some (1, 0) := by
  decide

/-! ## C11: how decryption fails -/

/-- A decrypt-mode run in which no hash round yields the expected hash never
breaks: it is the run without `break`. -/
theorem round_loop_dec_nomatch (x : freestyle_ctx) (e : Nat) :
    ∀ (n : Nat) (st : LoopState),
      (∀ k, k < n → is_hash_round x (st.r + k) = true →
        ∀ s, round_loop x false 0 (k + 1) st = some s → s.hash ≠ e) →
      round_loop x true e n st = round_loop x false 0 n st := by
  intro n
  induction n with
  | zero => intro st _; rfl
  | succ n ih =>
    intro st h
    rw [round_loop_enc_succ, round_loop]
    rcases hb : round_body x st with _ | st1
    · rfl
    · simp only [Option.some_bind]
      have hne : ¬ (is_hash_round x st.r && true && decide (st1.hash = e)) = true := by
        intro hc
        simp only [Bool.and_true, Bool.and_eq_true, decide_eq_true_eq] at hc
        have h0 := h 0 (by omega) (by simpa using hc.1) { st1 with r := st.r + 1 }
          (by rw [round_loop_enc_succ, hb]; rfl)
        exact h0 hc.2
      rw [if_neg hne]
      apply ih
      intro k hk hr s hs
      have e1 : st.r + 1 + k = st.r + (k + 1) := by omega
      simp only at hr
      rw [e1] at hr
      exact h (k + 1) (by omega) hr s (by rw [round_loop_enc_succ, hb]; exact hs)

/-- A decrypt-mode run breaks in the first pass that is a hash round yielding the
expected hash, in the state the run without `break` has there. -/
theorem round_loop_dec_match (x : freestyle_ctx) (e : Nat) :
    ∀ (k : Nat) (st s : LoopState) (n : Nat), k < n →
      is_hash_round x (st.r + k) = true → round_loop x false 0 (k + 1) st = some s →
      s.hash = e →
      (∀ j, j < k → is_hash_round x (st.r + j) = true →
        ∀ t, round_loop x false 0 (j + 1) st = some t → t.hash ≠ e) →
      round_loop x true e n st = some { s with r := st.r + k } := by
  intro k
  induction k with
  | zero =>
    intro st s n hn hr hs he _
    obtain ⟨m, rfl⟩ : ∃ m, n = m + 1 := ⟨n - 1, by omega⟩
    rw [round_loop_enc_succ] at hs
    rcases hb : round_body x st with _ | st1
    · rw [hb] at hs; simp at hs
    · rw [hb] at hs
      simp only [Option.some_bind, round_loop, Option.some.injEq] at hs
      subst hs
      simp only at he
      subst he
      rw [round_loop, hb]
      simp only [Nat.add_zero] at hr ⊢
      simp only [hr, Bool.true_and, decide_True, ↓reduceIte]
      obtain ⟨h1, _⟩ := round_body_r hb
      rw [← h1]
  | succ k ih =>
    intro st s n hn hr hs he hmin
    obtain ⟨m, rfl⟩ : ∃ m, n = m + 1 := ⟨n - 1, by omega⟩
    rw [round_loop_enc_succ] at hs
    rcases hb : round_body x st with _ | st1
    · rw [hb] at hs; simp at hs
    · rw [hb] at hs
      simp only [Option.some_bind] at hs
      have e1 : st.r + 1 + k = st.r + (k + 1) := by omega
      have h3 := ih { st1 with r := st.r + 1 } s m (by omega) (by simp only; rw [e1]; exact hr)
        hs he
        (by
          intro j hj hrj t ht
          have e2 : st.r + 1 + j = st.r + (j + 1) := by omega
          simp only at hrj
          rw [e2] at hrj
          exact hmin (j + 1) (by omega) hrj t (by rw [round_loop_enc_succ, hb]; exact ht))
      rw [round_loop, hb]
      simp only
      have hne : ¬ (is_hash_round x st.r && true && decide (st1.hash = e)) = true := by
        intro hc
        simp only [Bool.and_true, Bool.and_eq_true, decide_eq_true_eq] at hc
        exact hmin 0 (by omega) (by simpa using hc.1) { st1 with r := st.r + 1 }
          (by rw [round_loop_enc_succ, hb]; rfl) hc.2
      rw [if_neg hne, h3]
      simp only [e1]

theorem block_output_length_le (x : freestyle_ctx) (o : Words16) (p : Option (Nat → Nat))
    (bytes : Nat) : (block_output x o p bytes).length ≤ bytes := by
  cases p with
  | none => simp [block_output]
  | some q => simp [block_output]

/-- What the block engine does in decrypt mode on a context that passes
`block_ok`: it returns, leaves `*expected_hash` alone, and either no hash round
matches the expected hash, it returns 0 and stores nothing, or it returns the
first matching round, which lies in the window and is a multiple of
`hash_interval`. -/
theorem decrypt_block_spec (x : freestyle_ctx) (hok : block_ok x) (p : Option (Nat → Nat))
    (bytes e v : Nat) :
    ∃ b, freestyle_process_block x p bytes e false v = some b ∧ b.hash = e
      ∧ b.ciphertext.length ≤ bytes
      ∧ ((b.rounds = 0 ∧ b.ciphertext = [] ∧ ∀ r, ¬ round_matches x e r)
        ∨ (x.min_rounds ≤ b.rounds ∧ b.rounds ≤ x.max_rounds
            ∧ b.rounds % x.hash_interval = 0 ∧ round_matches x e b.rounds
            ∧ ∀ r, r < b.rounds → ¬ round_matches x e r)) := by
  obtain ⟨hhi1, _⟩ := block_ok_hash_interval hok
  obtain ⟨h1, h2, h3, h4, h5⟩ := hok
  have hstart : (block_start x).r = x.num_precomputed_rounds + 1 := rfl
  have hres : ∀ k, resolved_hash x (x.num_precomputed_rounds + 1 + k)
      = (round_loop x false 0 (k + 1) (block_start x)).map LoopState.hash := by
    intro k
    unfold resolved_hash
    have : x.num_precomputed_rounds + 1 + k - x.num_precomputed_rounds = k + 1 := by omega
    rw [this]
  have hmk : ∀ r, round_matches x e r → ∃ k, r = x.num_precomputed_rounds + 1 + k
      ∧ k < x.max_rounds - x.num_precomputed_rounds
      ∧ is_hash_round x ((block_start x).r + k) = true
      ∧ (round_loop x false 0 (k + 1) (block_start x)).map LoopState.hash = some e := by
    intro r ⟨a1, a2, a3, a4⟩
    refine ⟨r - x.num_precomputed_rounds - 1, by omega, by omega, ?_, ?_⟩
    · rw [hstart]
      have : x.num_precomputed_rounds + 1 + (r - x.num_precomputed_rounds - 1) = r := by omega
      rw [this]; exact a3
    · rw [← hres]
      have : x.num_precomputed_rounds + 1 + (r - x.num_precomputed_rounds - 1) = r := by omega
      rw [this]; exact a4
  by_cases hex : ∃ k, k < x.max_rounds - x.num_precomputed_rounds
      ∧ is_hash_round x ((block_start x).r + k) = true
      ∧ (round_loop x false 0 (k + 1) (block_start x)).map LoopState.hash = some e
  · classical
    have hk := Nat.find_spec hex
    have hmin := fun j (hj : j < Nat.find hex) => Nat.find_min hex hj
    generalize Nat.find hex = k at hk hmin
    obtain ⟨k1, k2, k3⟩ := hk
    rcases hs : round_loop x false 0 (k + 1) (block_start x) with _ | s
    · rw [hs] at k3; simp at k3
    · rw [hs] at k3
      simp only [Option.map_some', Option.some.injEq] at k3
      have hD := round_loop_dec_match x e k (block_start x) s
        (x.max_rounds - x.num_precomputed_rounds) k1 k2 hs k3
        (by
          intro j hj hrj t ht hte
          exact hmin j hj ⟨by omega, hrj, by rw [ht]; simp [hte]⟩)
      have hr : is_hash_round x (x.num_precomputed_rounds + 1 + k) = true := by
        rw [← hstart]; exact k2
      have hr2 := hr
      simp only [is_hash_round, Bool.and_eq_true, decide_eq_true_eq] at hr2
      refine ⟨{ rounds := x.num_precomputed_rounds + 1 + k, hash := e,
                ciphertext := block_output x s.output32 p bytes }, ?_, rfl,
                block_output_length_le _ _ _ _, Or.inr ?_⟩
      · unfold freestyle_process_block
        simp only [Bool.false_eq_true, if_false, Bool.not_false, hD, hstart]
        rw [if_neg (by omega)]
        simp only [Bool.true_and, decide_eq_true_eq]
        rw [if_neg (by omega)]
      · show x.min_rounds ≤ x.num_precomputed_rounds + 1 + k
          ∧ x.num_precomputed_rounds + 1 + k ≤ x.max_rounds
          ∧ (x.num_precomputed_rounds + 1 + k) % x.hash_interval = 0
          ∧ round_matches x e (x.num_precomputed_rounds + 1 + k)
          ∧ ∀ r, r < x.num_precomputed_rounds + 1 + k → ¬ round_matches x e r
        refine ⟨hr2.1, by omega, hr2.2, ⟨by omega, by omega, hr, ?_⟩, ?_⟩
        · rw [hres, hs]; simp [k3]
        · intro r hlt hm
          obtain ⟨j, rfl, j1, j2, j3⟩ := hmk r hm
          exact hmin j (by omega) ⟨j1, j2, j3⟩
  · have hno : round_loop x true e (x.max_rounds - x.num_precomputed_rounds) (block_start x)
        = round_loop x false 0 (x.max_rounds - x.num_precomputed_rounds) (block_start x) := by
      apply round_loop_dec_nomatch
      intro k hk hr s hs hse
      exact hex ⟨k, hk, hr, by rw [hs]; simp [hse]⟩
    obtain ⟨st, hst⟩ := round_loop_total x false 0 (by omega)
      (x.max_rounds - x.num_precomputed_rounds) (block_start x)
      (by simp only [block_start, List.length_nil]; omega)
    obtain ⟨hr, _⟩ := round_loop_enc_output x 0 _ _ _ hst
    refine ⟨{ rounds := 0, hash := e, ciphertext := [] }, ?_, rfl, Nat.zero_le _,
      Or.inl ⟨rfl, rfl, ?_⟩⟩
    · unfold freestyle_process_block
      simp only [Bool.false_eq_true, if_false, Bool.not_false, hno, hst]
      rw [if_neg (by omega)]
      simp only [Bool.true_and, decide_eq_true_eq]
      rw [if_pos (by rw [hr, hstart]; omega)]
    · intro r hm
      obtain ⟨j, _, j1, j2, j3⟩ := hmk r hm
      exact hex ⟨j, j1, j2, j3⟩

theorem write_bytes_nil (buf : Nat → Nat) (off : Nat) : write_bytes buf off [] = buf := by
  funext j
  unfold write_bytes
  rw [if_neg (by simp)]

theorem process_loop_fail (pt : Nat → Nat) (enc : Bool) (us : Nat → Nat) (fuel : Nat)
    (s : ProcessState) (b : BlockResult) (h : s.bytes ≠ 0)
    (hb : freestyle_process_block s.x (some (fun j => pt (s.i + j))) (min 64 s.bytes)
      (s.hash s.block) enc (us s.block) = some b)
    (hr : b.rounds < s.x.min_rounds) :
    process_loop pt enc us (fuel + 1) s
      = some { ret := -1, x := s.x, ciphertext := write_bytes s.ciphertext s.i b.ciphertext,
               hash := store s.hash s.block b.hash } := by
  have hm : (if 64 ≤ s.bytes then 64 else s.bytes) = min 64 s.bytes := by
    split_ifs <;> omega
  rw [process_loop]
  simp only [hm, hb, if_neg h]
  rw [if_pos hr]

/-- The loop of `freestyle_process` in decrypt mode on a context that passes
`block_ok`: it returns 0 when every block has a matching round, and otherwise -1
at the first block that has none, with the counter advanced past the blocks
before it only and nothing stored for it. -/
theorem process_loop_dec_general (C us : Nat → Nat) :
    ∀ (fuel : Nat) (s : ProcessState), block_ok s.x → s.bytes ≤ fuel →
      ∃ rd, process_loop C false us fuel s = some rd ∧ rd.hash = s.hash
        ∧ ((rd.ret = 0 ∧ rd.x = freestyle_increment_counter^[(s.bytes + 63) / 64] s.x
            ∧ ∀ k, k < (s.bytes + 63) / 64 → ∃ b,
                freestyle_process_block (freestyle_increment_counter^[k] s.x)
                  (some (fun j => C (s.i + 64 * k + j))) (min 64 (s.bytes - 64 * k))
                  (s.hash (s.block + k)) false (us (s.block + k)) = some b
                ∧ b.rounds ≠ 0)
          ∨ (rd.ret = -1 ∧ ∃ k0, k0 < (s.bytes + 63) / 64
              ∧ (∀ k, k < k0 → ∃ b,
                  freestyle_process_block (freestyle_increment_counter^[k] s.x)
                    (some (fun j => C (s.i + 64 * k + j))) (min 64 (s.bytes - 64 * k))
                    (s.hash (s.block + k)) false (us (s.block + k)) = some b
                  ∧ b.rounds ≠ 0)
              ∧ (∃ b,
                  freestyle_process_block (freestyle_increment_counter^[k0] s.x)
                    (some (fun j => C (s.i + 64 * k0 + j))) (min 64 (s.bytes - 64 * k0))
                    (s.hash (s.block + k0)) false (us (s.block + k0)) = some b
                  ∧ b.rounds = 0)
              ∧ rd.x = freestyle_increment_counter^[k0] s.x
              ∧ ∀ j, s.i + 64 * k0 ≤ j → rd.ciphertext j = s.ciphertext j)) := by
  intro fuel
  induction fuel with
  | zero =>
    intro s _ hf
    have h0 : s.bytes = 0 := by omega
    refine ⟨_, process_loop_zero_bytes C false us 0 s h0, rfl, Or.inl ⟨rfl, ?_, ?_⟩⟩
    · rw [h0]; rfl
    · intro k hk; rw [h0] at hk; omega
  | succ fuel ih =>
    intro s hok hf
    by_cases h0 : s.bytes = 0
    · refine ⟨_, process_loop_zero_bytes C false us _ s h0, rfl, Or.inl ⟨rfl, ?_, ?_⟩⟩
      · rw [h0]; rfl
      · intro k hk; rw [h0] at hk; omega
    · obtain ⟨b, hb, hbh, hbl, hcase⟩ := decrypt_block_spec s.x hok
        (some (fun j => C (s.i + j))) (min 64 s.bytes) (s.hash s.block) (us s.block)
      have hmin : 1 ≤ s.x.min_rounds := by have := hok.1; omega
      have hsto : store s.hash s.block b.hash = s.hash := by rw [hbh]; exact store_self _ _
      rcases hcase with ⟨hz, hnil, _⟩ | ⟨hlo, _, _, _, _⟩
      · have hfail := process_loop_fail C false us fuel s b h0 hb (by omega)
        rw [hsto, hnil, write_bytes_nil] at hfail
        refine ⟨_, hfail, rfl, Or.inr ⟨rfl, 0, by omega, fun k hk => by omega, ?_, rfl,
          fun j _ => rfl⟩⟩
        exact ⟨b, by simpa using hb, hz⟩
      · have hstep := process_loop_step C false us fuel s b h0 hb hlo
        rw [hsto] at hstep
        have hnb : (s.bytes + 63) / 64 = (s.bytes - min 64 s.bytes + 63) / 64 + 1 := by omega
        have hshift : ∀ k, k < (s.bytes - min 64 s.bytes + 63) / 64 → ∀ (P : BlockResult → Prop),
            (∃ b, freestyle_process_block
                (freestyle_increment_counter^[k] (freestyle_increment_counter s.x))
                (some (fun j => C (s.i + min 64 s.bytes + 64 * k + j)))
                (min 64 (s.bytes - min 64 s.bytes - 64 * k)) (s.hash (s.block + 1 + k)) false
                (us (s.block + 1 + k)) = some b ∧ P b) →
            ∃ b, freestyle_process_block (freestyle_increment_counter^[k + 1] s.x)
                (some (fun j => C (s.i + 64 * (k + 1) + j))) (min 64 (s.bytes - 64 * (k + 1)))
                (s.hash (s.block + (k + 1))) false (us (s.block + (k + 1))) = some b ∧ P b := by
          intro k hk P ⟨b1, hb1, hP⟩
          have h64 : min 64 s.bytes = 64 := by omega
          have e1 : s.i + min 64 s.bytes + 64 * k = s.i + 64 * (k + 1) := by omega
          have e2 : s.bytes - min 64 s.bytes - 64 * k = s.bytes - 64 * (k + 1) := by omega
          have e3 : s.block + 1 + k = s.block + (k + 1) := by omega
          rw [e1, e2, e3] at hb1
          exact ⟨b1, by rw [Function.iterate_succ_apply]; exact hb1, hP⟩
        have hb0 : ∃ b, freestyle_process_block (freestyle_increment_counter^[0] s.x)
            (some (fun j => C (s.i + 64 * 0 + j))) (min 64 (s.bytes - 64 * 0))
            (s.hash (s.block + 0)) false (us (s.block + 0)) = some b ∧ b.rounds ≠ 0 :=
          ⟨b, by simpa using hb, by omega⟩
        obtain ⟨rd, hrd, hh, hcases⟩ := ih
          { x := freestyle_increment_counter s.x
            i := s.i + min 64 s.bytes
            bytes := s.bytes - min 64 s.bytes
            block := s.block + 1
            ciphertext := write_bytes s.ciphertext s.i b.ciphertext
            hash := s.hash }
          ((block_ok_increment s.x 1).mpr hok) (by simp only; omega)
        simp only at hrd hh hcases
        refine ⟨rd, by rw [hstep]; exact hrd, hh, ?_⟩
        rcases hcases with ⟨r0, rx, rall⟩ | ⟨r1, k0, hk0, rbefore, rat, rx, rfr⟩
        · left
          refine ⟨r0, by rw [rx, hnb, Function.iterate_succ_apply], ?_⟩
          intro k hk
          rcases Nat.eq_zero_or_pos k with hk0 | hk0
          · subst hk0; exact hb0
          · obtain ⟨k1, rfl⟩ : ∃ k1, k = k1 + 1 := ⟨k - 1, by omega⟩
            exact hshift k1 (by omega) _ (rall k1 (by omega))
        · right
          refine ⟨r1, k0 + 1, by omega, ?_, hshift k0 hk0 _ rat,
            by rw [rx, Function.iterate_succ_apply], ?_⟩
          · intro k hk
            rcases Nat.eq_zero_or_pos k with hkz | hkz
            · subst hkz; exact hb0
            · obtain ⟨k1, rfl⟩ : ∃ k1, k = k1 + 1 := ⟨k - 1, by omega⟩
              exact hshift k1 (by omega) _ (rbefore k1 (by omega))
          · intro j hj
            have h64 : min 64 s.bytes = 64 := by omega
            rw [rfr j (by omega)]
            exact write_bytes_outside _ _ _ _ (by omega)

theorem decrypt_block_zero_iff (x : freestyle_ctx) (hok : block_ok x) (p : Option (Nat → Nat))
    (bytes e v : Nat) (b : BlockResult)
    (hb : freestyle_process_block x p bytes e false v = some b) :
    (b.rounds = 0 ∨ (x.min_rounds ≤ b.rounds ∧ b.rounds ≤ x.max_rounds
        ∧ b.rounds % x.hash_interval = 0))
      ∧ (b.rounds = 0 ↔ ∀ r, ¬ round_matches x e r) := by
  obtain ⟨b1, hb1, _, _, hcase⟩ := decrypt_block_spec x hok p bytes e v
  have hbb : b1 = b := Option.some.inj (hb1.symm.trans hb)
  subst hbb
  have hmin : 1 ≤ x.min_rounds := by have := hok.1; omega
  rcases hcase with ⟨hz, _, hno⟩ | ⟨hlo, hhi, hmod, hm, _⟩
  · exact ⟨Or.inl hz, fun _ => hno, fun _ => hz⟩
  · refine ⟨Or.inr ⟨hlo, hhi, hmod⟩, fun hz => ?_, fun hno => absurd hm (hno _)⟩
    omega

/-- C11: on a context with valid parameters the block engine in decrypt mode
returns 0 or a round count between `min_rounds` and `max_rounds` that is a
multiple of `hash_interval`, and it returns 0 exactly when no eligible round has
the expected hash as its collision-resolved hash.  `freestyle_process` in
decrypt mode therefore returns -1 exactly when some block has no matching round
and 0 otherwise; when it returns -1 it has stopped at the first such block,
with the counter advanced past the blocks before it only and no output written
from that block on. -/
theorem decrypt_failure_signalling (x : freestyle_ctx) (hok : block_ok x) :
    (∀ (p : Option (Nat → Nat)) (bytes e v : Nat),
      ∃ b, freestyle_process_block x p bytes e false v = some b
        ∧ (b.rounds = 0 ∨ (x.min_rounds ≤ b.rounds ∧ b.rounds ≤ x.max_rounds
            ∧ b.rounds % x.hash_interval = 0))
        ∧ (b.rounds = 0 ↔ ∀ r, ¬ round_matches x e r))
    ∧ (∀ (C cbuf : Nat → Nat) (n : Nat) (H us : Nat → Nat),
      ∃ rd, freestyle_process x C cbuf n H false us = some rd
        ∧ (rd.ret = -1 ∨ rd.ret = 0)
        ∧ (rd.ret = -1 ↔ ∃ k, k < (n + 63) / 64
            ∧ ∀ r, ¬ round_matches (freestyle_increment_counter^[k] x) (H k) r)
        ∧ (rd.ret = -1 → ∃ k0, k0 < (n + 63) / 64
            ∧ (∀ r, ¬ round_matches (freestyle_increment_counter^[k0] x) (H k0) r)
            ∧ (∀ k, k < k0 →
                ∃ r, round_matches (freestyle_increment_counter^[k] x) (H k) r)
            ∧ rd.x = freestyle_increment_counter^[k0] x
            ∧ ∀ j, 64 * k0 ≤ j → rd.ciphertext j = cbuf j)) := by
  constructor
  · intro p bytes e v
    obtain ⟨b, hb, _⟩ := decrypt_block_spec x hok p bytes e v
    exact ⟨b, hb, decrypt_block_zero_iff x hok p bytes e v b hb⟩
  · intro C cbuf n H us
    obtain ⟨rd, hrd, _, hcases⟩ := process_loop_dec_general C us n
      { x := x, i := 0, bytes := n, block := 0, ciphertext := cbuf, hash := H } hok
      (Nat.le_refl _)
    simp only [Nat.zero_add] at hcases
    have hokk : ∀ k, block_ok (freestyle_increment_counter^[k] x) :=
      fun k => (block_ok_increment x k).mpr hok
    have hsome : ∀ k (b : BlockResult),
        freestyle_process_block (freestyle_increment_counter^[k] x)
          (some (fun j => C (64 * k + j))) (min 64 (n - 64 * k)) (H k) false (us k) = some b →
        b.rounds ≠ 0 → ∃ r, round_matches (freestyle_increment_counter^[k] x) (H k) r := by
      intro k b hb hne
      by_contra hcon
      exact hne ((decrypt_block_zero_iff _ (hokk k) _ _ _ _ b hb).2.mpr
        (fun r hr => hcon ⟨r, hr⟩))
    have hnone : ∀ k (b : BlockResult),
        freestyle_process_block (freestyle_increment_counter^[k] x)
          (some (fun j => C (64 * k + j))) (min 64 (n - 64 * k)) (H k) false (us k) = some b →
        b.rounds = 0 → ∀ r, ¬ round_matches (freestyle_increment_counter^[k] x) (H k) r :=
      fun k b hb hz => (decrypt_block_zero_iff _ (hokk k) _ _ _ _ b hb).2.mp hz
    refine ⟨rd, hrd, ?_, ?_, ?_⟩
    · rcases hcases with ⟨h0, _⟩ | ⟨h1, _⟩
      · exact Or.inr h0
      · exact Or.inl h1
    · constructor
      · intro h1
        rcases hcases with ⟨h0, _⟩ | ⟨_, k0, hk0, _, ⟨b, hb, hz⟩, _⟩
        · rw [h0] at h1; exact absurd h1 (by decide)
        · exact ⟨k0, hk0, hnone k0 b hb hz⟩
      · rintro ⟨k, hk, hno⟩
        rcases hcases with ⟨_, _, hall⟩ | ⟨h1, _⟩
        · obtain ⟨b, hb, hne⟩ := hall k hk
          obtain ⟨r, hr⟩ := hsome k b hb hne
          exact absurd hr (hno r)
        · exact h1
    · intro h1
      rcases hcases with ⟨h0, _⟩ | ⟨_, k0, hk0, hbefore, ⟨b, hb, hz⟩, hx, hfr⟩
      · rw [h0] at h1; exact absurd h1 (by decide)
      · refine ⟨k0, hk0, hnone k0 b hb hz, ?_, hx, hfr⟩
        intro k hk
        obtain ⟨b1, hb1, hne⟩ := hbefore k hk
        exact hsome k b1 hb1 hne

theorem decrypt_failure_signalling_witness :
    block_ok scenario_ctx
    ∧ (∀ (p : Option (Nat → Nat)) (bytes e v : Nat),
      ∃ b, freestyle_process_block scenario_ctx p bytes e false v = some b
        ∧ (b.rounds = 0 ∨ (scenario_ctx.min_rounds ≤ b.rounds
            ∧ b.rounds ≤ scenario_ctx.max_rounds
            ∧ b.rounds % scenario_ctx.hash_interval = 0))
        ∧ (b.rounds = 0 ↔ ∀ r, ¬ round_matches scenario_ctx e r))
    ∧ (∀ (C cbuf : Nat → Nat) (n : Nat) (H us : Nat → Nat),
      ∃ rd, freestyle_process scenario_ctx C cbuf n H false us = some rd
        ∧ (rd.ret = -1 ∨ rd.ret = 0)
        ∧ (rd.ret = -1 ↔ ∃ k, k < (n + 63) / 64
            ∧ ∀ r, ¬ round_matches (freestyle_increment_counter^[k] scenario_ctx) (H k) r)
        ∧ (rd.ret = -1 → ∃ k0, k0 < (n + 63) / 64
            ∧ (∀ r, ¬ round_matches (freestyle_increment_counter^[k0] scenario_ctx) (H k0) r)
            ∧ (∀ k, k < k0 →
                ∃ r, round_matches (freestyle_increment_counter^[k] scenario_ctx) (H k) r)
            ∧ rd.x = freestyle_increment_counter^[k0] scenario_ctx
            ∧ ∀ j, 64 * k0 ≤ j → rd.ciphertext j = cbuf j)) :=
  ⟨by unfold block_ok; decide,
    decrypt_failure_signalling scenario_ctx (by unfold block_ok; decide)⟩

/-! ## C12: the pepper search of `freestyle_randomsetup_decrypt` -/

theorem finish_setup_with_counter (saved x : freestyle_ctx) (w : Nat) (R : Nat → Nat) :
    finish_setup saved (with_counter x w) R = finish_setup saved x R := rfl

/-- The decrypt search stops at the first candidate that decodes, when the loop
test lets it get that far. -/
theorem randomsetup_decrypt_found (x : freestyle_ctx) (p : Nat)
    (hp : p < pepper_candidates x)
    (hdec : candidate_decodes (setup_start x) p = true)
    (hfail : ∀ q, q < p → candidate_decodes (setup_start x) q = false) :
    freestyle_randomsetup_decrypt x
      = some (finish_setup x (candidate (setup_start x) p)
          (decoded_rounds (setup_start x) p)) := by
  obtain ⟨w, S, hscan, hS1, hS2⟩ := decrypt_pepper_scan_found (pepper_candidates x)
    (setup_start x) (fun _ => 0) p (setup_start_sane x) hp hdec hfail
  obtain ⟨_, _, _, _, _, hz⟩ := attempt_spec (setup_start x) p (fun _ => 0) (setup_start_sane x)
  have hS : S = decoded_rounds (setup_start x) p := by
    funext j
    by_cases hj : j < (setup_start x).num_init_hashes
    · exact hS2 j hj
    · rw [hS1 j (by omega), hz j (by omega)]
  unfold freestyle_randomsetup_decrypt
  rw [hscan, hS]
  rfl

theorem init_decrypt_with_pepper_wrap (pepper : Nat) :
    freestyle_init_decrypt_with_pepper scenario_ctx zero_key 256 zero_iv 8 32 4 4 32 7 pepper
        wrap_init_hash
      = (wrap_ctx pepper).bind freestyle_randomsetup_decrypt := by
  unfold freestyle_init_decrypt_with_pepper wrap_ctx
  cases freestyle_init_common scenario_ctx zero_key 256 zero_iv 8 32 4 4 32 7 <;> rfl

/-- C12: with `pepper_bits = 32` a failed attempt at candidate `2^32 - 1` does
not end the search.  Started at pepper `2^32 - 1` on init hashes that were
written with pepper 0, the first candidate fails (a search of one attempt would
end unsuccessfully), the loop test allows `2^32` attempts rather than one, and
the search goes on to the wrapped candidate 0, which lies below the starting
pepper: the call succeeds with the session state of pepper 0. -/
theorem pepper_search_wraps_at_32_bits :
    (freestyle_init_encrypt_with_pepper scenario_ctx zero_key 256 zero_iv 8 32 4 4 32 7 0
        (fun _ => 0)).map (fun c => (List.range 7).map c.init_hash)
      = some ((List.range 7).map wrap_init_hash)
    ∧ (wrap_ctx 4294967295).map (fun x => candidate_decodes (setup_start x) 0) = some false
    ∧ (wrap_ctx 4294967295).map
          (fun x => (decrypt_pepper_scan 1 (setup_start x) (fun _ => 0)).map Prod.fst)
        = some (some false)
    ∧ (wrap_ctx 4294967295).map pepper_candidates = some 4294967296
    ∧ (wrap_ctx 4294967295).map (fun x => (candidate (setup_start x) 1).input)
        = (wrap_ctx 0).map (fun x => (candidate (setup_start x) 0).input)
    ∧ freestyle_init_decrypt_with_pepper scenario_ctx zero_key 256 zero_iv 8 32 4 4 32 7
          4294967295 wrap_init_hash
        = (wrap_ctx 4294967295).map (fun x =>
            finish_setup x (candidate (setup_start x) 1) (decoded_rounds (setup_start x) 1))
    ∧ (freestyle_init_decrypt_with_pepper scenario_ctx zero_key 256 zero_iv 8 32 4 4 32 7
          4294967295 wrap_init_hash).map (fun c => (c.input, c.rand))
        = (freestyle_init_encrypt_with_pepper scenario_ctx zero_key 256 zero_iv 8 32 4 4 32 7
          0 (fun _ => 0)).map (fun c => (c.input, c.rand))
    ∧ (freestyle_init_decrypt_with_pepper scenario_ctx zero_key 256 zero_iv 8 32 4 4 32 7
          4294967295 wrap_init_hash).isSome = true := by
  have h0 : (wrap_ctx 4294967295).map (fun x => candidate_decodes (setup_start x) 0)
      = some false := by decide
  have h1 : (wrap_ctx 4294967295).map (fun x => candidate_decodes (setup_start x) 1)
      = some true := by decide
  have hc : (wrap_ctx 4294967295).map pepper_candidates = some 4294967296 := by decide
  have hd : freestyle_init_decrypt_with_pepper scenario_ctx zero_key 256 zero_iv 8 32 4 4 32 7
        4294967295 wrap_init_hash
      = (wrap_ctx 4294967295).map (fun x =>
          finish_setup x (candidate (setup_start x) 1) (decoded_rounds (setup_start x) 1)) := by
    rw [init_decrypt_with_pepper_wrap]
    cases hx : wrap_ctx 4294967295 with
    | none => rfl
    | some x =>
      rw [hx] at h0 h1 hc
      simp only [Option.map_some', Option.some.injEq] at h0 h1 hc
      show freestyle_randomsetup_decrypt x = _
      rw [randomsetup_decrypt_found x 1 (by omega) h1
        (fun q hq => by have : q = 0 := by omega
                        subst this; exact h0)]
      rfl
  refine ⟨by decide, h0, by decide, hc, by decide, hd, ?_, ?_⟩
  · rw [hd]; decide
  · rw [hd]; decide

/-! ## C13: exhaustion of the pepper search -/

theorem setup_decrypt_blocks_first_fail (n : Nat) (c : freestyle_ctx) (R : Nat → Nat)
    (h : (freestyle_decrypt_block c none 0 (c.init_hash 0)).map BlockResult.rounds = some 0) :
    setup_decrypt_blocks (n + 1) 0 c R = some (false, c, store R 0 0) := by
  rw [setup_decrypt_blocks]
  cases hb : freestyle_decrypt_block c none 0 (c.init_hash 0) with
  | none => rw [hb] at h; exact absurd h (by simp)
  | some b =>
    rw [hb] at h
    simp only [Option.map_some', Option.some.injEq] at h
    simp only [h, if_true]

/-- The decrypt search when the first setup block of every candidate below `n`
returns 0: the working array stays all-zero. -/
theorem decrypt_pepper_scan_first_fail :
    ∀ (n : Nat) (x : freestyle_ctx), 1 ≤ x.num_init_hashes →
      (∀ q, q < n →
        (freestyle_decrypt_block (candidate x q) none 0 (x.init_hash 0)).map BlockResult.rounds
          = some 0) →
      ∃ w, decrypt_pepper_scan n x (fun _ => 0)
        = some (false, with_counter (candidate x n) w, fun _ => 0) := by
  intro n
  induction n with
  | zero =>
    intro x _ _
    exact ⟨x.input.w12, rfl⟩
  | succ n ih =>
    intro x hn hq
    obtain ⟨m, hm⟩ : ∃ m, x.num_init_hashes = m + 1 := ⟨x.num_init_hashes - 1, by omega⟩
    have hc : ({ x with input := { x.input with w12 := x.initial_counter } } : freestyle_ctx)
        = candidate x 0 := rfl
    have h0 := setup_decrypt_blocks_first_fail m (candidate x 0) (fun _ => 0) (hq 0 (by omega))
    have hz : store (fun _ => 0) 0 0 = (fun _ : Nat => 0) := store_self (fun _ => 0) 0
    rw [hz] at h0
    obtain ⟨w1, f1⟩ := ih (next_candidate x x.initial_counter) hn
      (fun q h => by rw [candidate_next]; exact hq (q + 1) (by omega))
    rw [candidate_next] at f1
    refine ⟨w1, ?_⟩
    rw [decrypt_pepper_scan, hc, hm, h0]
    exact f1

theorem derive_rands_zero : derive_rands (fun _ => 0) = [0, 0, 0, 0, 0, 0, 0, 0] := by
  decide

theorem max_pepper_ne (pb : Nat) (h : pb < 32) : max_pepper pb ≠ 4294967295 := by
  rw [max_pepper_eq pb (by omega)]
  have h1 : 2 ^ pb ≤ 2 ^ 31 := Nat.pow_le_pow_right (by norm_num) (by omega)
  have h2 : 0 < 2 ^ pb := Nat.pow_pos (by norm_num)
  norm_num at h1
  omega

/-- C13 (counterexample): the array `R` is not cleared between candidates nor
after a failed candidate.  With `pepper_bits = 8` and starting pepper 255 there
is one candidate; on `exhausted_init_hash` it decodes setup block 0 with 12
rounds and fails at setup block 1, so no candidate decodes all setup blocks,
and yet `rand[0]` is 1617297413. -/
theorem pepper_exhaustion_counterexample :
    valid_params 8 32 4 4 8 7
    ∧ (exhausted_ctx exhausted_init_hash).map
        (fun x => (pepper_candidates x, candidate_decodes (setup_start x) 0)) = some (1, false)
    ∧ (exhausted_ctx exhausted_init_hash).map
        (fun x => (decrypt_pepper_scan 1 (setup_start x) (fun _ => 0)).map
          (fun r => (r.1, r.2.2 0, r.2.2 1))) = some (some (false, 12, 0))
    ∧ (freestyle_init_decrypt_with_pepper scenario_ctx zero_key 256 zero_iv 8 32 4 4 8 7 255
        exhausted_init_hash).map freestyle_ctx.rand
      = some [1617297413, 0, 0, 0, 0, 0, 0, 0] := by
  decide

/-- C13 (amended): if `pepper_bits < 32` and, for every candidate pepper the
search tries, the first setup block returns 0, then
`freestyle_randomsetup_decrypt` returns with `rand[0..8]` all zero, the
derivation from an all-zero `R`. -/
theorem pepper_exhaustion_rand_zero (x : freestyle_ctx) (hpb : x.pepper_bits < 32)
    (hnih : 1 ≤ x.num_init_hashes)
    (hno : ∀ q, q < pepper_candidates x →
      (freestyle_decrypt_block (candidate (setup_start x) q) none 0
        (x.init_hash 0)).map BlockResult.rounds = some 0) :
    ∃ xf, freestyle_randomsetup_decrypt x = some xf
      ∧ xf.rand = derive_rands (fun _ => 0)
      ∧ xf.rand = [0, 0, 0, 0, 0, 0, 0, 0] := by
  obtain ⟨w, hscan⟩ := decrypt_pepper_scan_first_fail (pepper_candidates x) (setup_start x)
    hnih hno
  have hne := max_pepper_ne x.pepper_bits hpb
  refine ⟨finish_setup x (with_counter (candidate (setup_start x) (pepper_candidates x)) w)
    (fun _ => 0), ?_, rfl, derive_rands_zero⟩
  unfold freestyle_randomsetup_decrypt
  rw [hscan]
  simp only [hne, decide_False, Bool.and_false, Bool.false_eq_true, if_false]

theorem pepper_exhaustion_rand_zero_witness :
    ∃ x, exhausted_ctx (fun _ => 0) = some x
      ∧ x.pepper_bits < 32 ∧ 1 ≤ x.num_init_hashes
      ∧ (∀ q, q < pepper_candidates x →
          (freestyle_decrypt_block (candidate (setup_start x) q) none 0
            (x.init_hash 0)).map BlockResult.rounds = some 0)
      ∧ ∃ xf, freestyle_randomsetup_decrypt x = some xf
          ∧ xf.rand = derive_rands (fun _ => 0)
          ∧ xf.rand = [0, 0, 0, 0, 0, 0, 0, 0] :=
  ⟨(exhausted_ctx (fun _ => 0)).get (by decide), by simp, by decide, by decide, by decide,
    pepper_exhaustion_rand_zero _ (by decide) (by decide) (by decide)⟩

/-! ## C14: applying `freestyle_precompute_rounds` twice -/

/-- C14 (counterexample): `freestyle_precompute_rounds` works in place, so a
second application after restoring `input[COUNTER]` runs the rounds on the
already mixed words.  On the context that `freestyle_init_common` builds for the
all-zero key and IV with the parameters 8/32/4/4/8/7 the second application
does not reproduce the state of the first. -/
theorem precompute_idempotence_counterexample :
    (freestyle_init_common scenario_ctx zero_key 256 zero_iv 8 32 4 4 8 7).map
      (fun x => decide
        ((precompute_again x (freestyle_precompute_rounds x)).input
          = (freestyle_precompute_rounds x).input)) = some false
    ∧ (freestyle_init_common scenario_ctx zero_key 256 zero_iv 8 32 4 4 8 7).map
      (fun x => ((freestyle_precompute_rounds x).input.w0,
        (precompute_again x (freestyle_precompute_rounds x)).input.w0,
        (precompute_again x (freestyle_precompute_rounds x)).num_precomputed_rounds))
      = some (2458191000, 4218453526, 4) := by
  decide

/-- C14 (amended): `freestyle_precompute_rounds` reads and writes `input[0..16]`
only, so when all sixteen words of `input` (not only `input[COUNTER]`) are
restored to the values they had before the first application, a second
application with the same `num_precomputed_rounds` reproduces the state of the
first. -/
theorem precompute_after_restoring_input (x : freestyle_ctx) :
    freestyle_precompute_rounds { freestyle_precompute_rounds x with input := x.input }
      = freestyle_precompute_rounds x
    ∧ (freestyle_precompute_rounds x).input
      = rounds_from x.num_precomputed_rounds 1 x.input
    ∧ { freestyle_precompute_rounds x with input := x.input } = x :=
  ⟨rfl, rfl, rfl⟩

/-! ## C15: the round count of a block is recovered unambiguously -/

theorem random_round_number_some (x : freestyle_ctx) (u R : Nat)
    (h : freestyle_random_round_number x u = some R) :
    x.min_rounds ≤ R ∧ R ≤ x.max_rounds ∧ R % x.hash_interval = 0 := by
  unfold freestyle_random_round_number at h
  simp only at h
  split_ifs at h with h0 h1
  have hR := (Option.some.inj h).symm
  have hlt : PLUS x.min_rounds u < 4294967296 := Nat.mod_lt _ (by norm_num)
  have hle : x.hash_interval * (PLUS x.min_rounds u / x.hash_interval)
      ≤ PLUS x.min_rounds u := Nat.mul_div_le _ _
  have hmod : x.hash_interval * (PLUS x.min_rounds u / x.hash_interval) % 4294967296
      = x.hash_interval * (PLUS x.min_rounds u / x.hash_interval) :=
    Nat.mod_eq_of_lt (by omega)
  rw [hmod] at hR h1
  refine ⟨by rw [hR]; exact h1.1, by rw [hR]; exact h1.2, ?_⟩
  rw [hR]
  exact Nat.mul_mod_right _ _

/-- The pair of block results for a round count that the encryptor drew: the
decryptor, given the hash the encryptor wrote, stops at the same round with the
same working state. -/
theorem block_pair_of_rounds (x : freestyle_ctx) (u R : Nat) (hok : block_ok x)
    (hR : freestyle_random_round_number x u = some R) :
    ∃ h o,
      (∀ p bytes e, freestyle_process_block x p bytes e true u
          = some { rounds := R, hash := h, ciphertext := block_output x o p bytes })
      ∧ (∀ p bytes v, freestyle_process_block x p bytes h false v
          = some { rounds := R, hash := h, ciphertext := block_output x o p bytes }) := by
  obtain ⟨hlo, hup, hmod⟩ := random_round_number_some x u R hR
  obtain ⟨hhi1, hhi2⟩ := block_ok_hash_interval hok
  obtain ⟨h1, h2, h3, h4, h5⟩ := hok
  obtain ⟨st, hst⟩ := round_loop_total x false 0 (by omega)
    (R - x.num_precomputed_rounds) (block_start x) (by simp [block_start]; omega)
  have hE : ∀ e, round_loop x false e (R - x.num_precomputed_rounds) (block_start x)
      = some st := by
    intro e; rw [round_loop_enc_expected x e 0]; exact hst
  obtain ⟨n, hn⟩ : ∃ n, R - x.num_precomputed_rounds = n + 1 :=
    ⟨R - x.num_precomputed_rounds - 1, by omega⟩
  have hround : is_hash_round x ((block_start x).r + n) = true := by
    have : (block_start x).r + n = R := by simp only [block_start]; omega
    rw [this]
    simp [is_hash_round, hlo, hmod]
  have hD := round_loop_dec_of_enc x 0 n (block_start x) st (by rw [← hn]; exact hst) hround
    (x.max_rounds - x.num_precomputed_rounds) (by omega)
  have hr : (block_start x).r + n = R := by simp only [block_start]; omega
  refine ⟨st.hash, st.output32, ?_, ?_⟩
  · intro p bytes e
    unfold freestyle_process_block
    simp only [if_true, hR, Bool.not_true, hE e]
    rw [if_neg (by omega)]
    simp
  · intro p bytes v
    unfold freestyle_process_block
    simp only [Bool.false_eq_true, if_false, Bool.not_false, hD, hr]
    rw [if_neg (by omega)]
    simp only [Bool.true_and, decide_eq_true_eq]
    rw [if_neg (by omega)]

/-- C15: on a context with valid parameters, if the block engine in encrypt
mode runs a block of at most 64 bytes with the round count `R` and writes the
hash `h` and the output `c`, then in decrypt mode on the same context, with
expected hash `h` and input `c`, it returns exactly `R` and outputs the original
bytes. -/
theorem unambiguous_round_recovery (x : freestyle_ctx) (hok : block_ok x) (u R : Nat)
    (hR : freestyle_random_round_number x u = some R) (p : Nat → Nat) (bytes e : Nat)
    (hbytes : bytes ≤ 64) :
    ∃ h c, freestyle_process_block x (some p) bytes e true u
        = some { rounds := R, hash := h, ciphertext := c }
      ∧ c.length = bytes ∧ c.length ≤ 64
      ∧ ∀ v, ∃ out, freestyle_process_block x (some (fun j => c.getD j 0)) bytes h false v
            = some { rounds := R, hash := h, ciphertext := out }
          ∧ out.length = bytes ∧ ∀ j, j < bytes → out.getD j 0 = p j := by
  obtain ⟨h, o, hE, hD⟩ := block_pair_of_rounds x u R hok hR
  refine ⟨h, block_output x o (some p) bytes, hE _ _ _, block_output_length _ _ _ _,
    by rw [block_output_length]; exact hbytes,
    fun v => ⟨_, hD _ _ v, block_output_length _ _ _ _, ?_⟩⟩
  intro j hj
  rw [block_output_getD _ _ _ _ _ hj, block_output_getD _ _ _ _ _ hj]
  exact Nat.xor_cancel_right _ _

theorem unambiguous_round_recovery_witness :
    block_ok scenario_ctx ∧ freestyle_random_round_number scenario_ctx 5 = some 12
    ∧ (17 : Nat) ≤ 64
    ∧ ∃ h c, freestyle_process_block scenario_ctx (some hello_bytes) 17 0 true 5
        = some { rounds := 12, hash := h, ciphertext := c }
      ∧ c.length = 17 ∧ c.length ≤ 64
      ∧ ∀ v, ∃ out, freestyle_process_block scenario_ctx (some (fun j => c.getD j 0)) 17 h
            false v = some { rounds := 12, hash := h, ciphertext := out }
          ∧ out.length = 17 ∧ ∀ j, j < 17 → out.getD j 0 = hello_bytes j :=
  ⟨by unfold block_ok; decide, by decide, by decide,
    unambiguous_round_recovery scenario_ctx (by unfold block_ok; decide) 5 12 (by decide)
      hello_bytes 17 0 (by decide)⟩

/-! ## C16: the probing loop terminates -/

/-- What a successful run of the probing loop has done: `k` increments, over
`k` marked entries, to an entry that is not marked. -/
theorem probe_spec {c : List Nat} :
    ∀ (fuel h h1 : Nat), h < 65536 → probe c fuel h = some h1 →
      ∃ k, k < fuel ∧ h1 = (h + k) % 65536 ∧ ∀ j, j < k → (h + j) % 65536 ∈ c := by
  intro fuel
  induction fuel with
  | zero => intro h h1 _ hp; simp [probe] at hp
  | succ f ih =>
    intro h h1 hlt hp
    unfold probe at hp
    by_cases hc : c.contains h = true
    · rw [if_pos hc] at hp
      obtain ⟨k, hk, e1, e2⟩ := ih _ _ (Nat.mod_lt _ (by norm_num)) hp
      refine ⟨k + 1, by omega, by rw [e1]; omega, ?_⟩
      intro j hj
      rcases Nat.eq_zero_or_pos j with hj0 | hj0
      · subst hj0
        have : (h + 0) % 65536 = h := by omega
        rw [this]; simpa using hc
      · have h2 := e2 (j - 1) (by omega)
        have : ((h + 1) % 65536 + (j - 1)) % 65536 = (h + j) % 65536 := by omega
        rwa [this] at h2
    · rw [if_neg hc] at hp
      simp only [Option.some.injEq] at hp
      exact ⟨0, by omega, by omega, fun j hj => by omega⟩

/-- The number of increments of the probing loop is at most the number of marked
entries. -/
theorem probe_steps_le {c : List Nat} (h k : Nat) (hk : k ≤ 65536)
    (hall : ∀ j, j < k → (h + j) % 65536 ∈ c) : k ≤ c.length := by
  have hinj : Set.InjOn (fun j => (h + j) % 65536) (Finset.range k : Set Nat) := by
    intro a ha b hb hab
    simp only [Finset.coe_range, Set.mem_Iio] at ha hb
    simp only at hab
    omega
  have hsub : (Finset.range k).image (fun j => (h + j) % 65536) ⊆ c.toFinset := by
    intro v hv
    simp only [Finset.mem_image, Finset.mem_range] at hv
    obtain ⟨j, hj, rfl⟩ := hv
    simpa using hall j hj
  have h1 := Finset.card_le_card hsub
  rw [Finset.card_image_of_injOn hinj, Finset.card_range] at h1
  exact h1.trans (List.toFinset_card_le c)

theorem round_loop_length (x : freestyle_ctx) (dec : Bool) (e : Nat) :
    ∀ (n : Nat) (st st1 : LoopState), round_loop x dec e n st = some st1 →
      st1.hash_collided.length ≤ st.hash_collided.length + n := by
  intro n
  induction n with
  | zero =>
    intro st st1 h
    simp only [round_loop, Option.some.injEq] at h
    subst h; omega
  | succ n ih =>
    intro st st1 h
    unfold round_loop at h
    split at h
    · simp at h
    · rename_i st2 hb
      have hl := round_body_length hb
      split_ifs at h
      · simp only [Option.some.injEq] at h; subst h; omega
      · have := ih _ _ h
        simp only at this
        omega

/-- C16: on a context with `max_rounds <= 65536`, `hash_interval >= 1` and
`num_precomputed_rounds >= 1`, the round loop reaches every round up to
`max_rounds`, at most 65534 entries of the collided set are marked when a round
begins, and the probing loop started there on the freshly computed hash ends
after `k` increments, where `k` is at most the number of marked entries and so
below 65536, on an entry that is not marked; with that entry at most 65535
entries are marked. -/
theorem collision_probing_terminates (x : freestyle_ctx) (hmax : x.max_rounds ≤ 65536)
    (hhi : 1 ≤ x.hash_interval) (hnpr : 1 ≤ x.num_precomputed_rounds) (dec : Bool)
    (e m : Nat) (hm : x.num_precomputed_rounds + 1 + m ≤ x.max_rounds) :
    (∃ st, round_loop x dec e m (block_start x) = some st)
    ∧ ∀ st, round_loop x dec e m (block_start x) = some st →
        st.hash_collided.length ≤ 65534
        ∧ ∃ k hv,
            probe st.hash_collided MAX_HASH_VALUE
              (freestyle_hash (round_at st.r st.output32) st.hash st.r) = some hv
            ∧ k ≤ st.hash_collided.length ∧ k < 65536
            ∧ hv = (freestyle_hash (round_at st.r st.output32) st.hash st.r + k) % 65536
            ∧ (∀ j, j < k →
                (freestyle_hash (round_at st.r st.output32) st.hash st.r + j) % 65536
                  ∈ st.hash_collided)
            ∧ hv ∉ st.hash_collided
            ∧ (hv :: st.hash_collided).length ≤ 65535 := by
  have hstart : (block_start x).hash_collided.length = 0 := rfl
  refine ⟨round_loop_total x dec e (by omega) m (block_start x) (by rw [hstart]; omega), ?_⟩
  intro st hst
  have hlen := round_loop_length x dec e m (block_start x) st hst
  rw [hstart] at hlen
  have hl : st.hash_collided.length ≤ 65534 := by omega
  obtain ⟨hv, hp⟩ := probe_total (freestyle_hash (round_at st.r st.output32) st.hash st.r)
    (by omega : st.hash_collided.length < 65536) (freestyle_hash_lt _ _ _)
  obtain ⟨k, hk, e1, e2⟩ := probe_spec _ _ _ (freestyle_hash_lt _ _ _) hp
  have hkl := probe_steps_le _ k (by omega) e2
  refine ⟨hl, k, hv, hp, hkl, by omega, e1, e2, probe_not_mem _ _ _ hp, ?_⟩
  simp only [List.length_cons]
  omega

theorem collision_probing_terminates_witness :
    scenario_ctx.max_rounds ≤ 65536 ∧ 1 ≤ scenario_ctx.hash_interval
    ∧ 1 ≤ scenario_ctx.num_precomputed_rounds
    ∧ scenario_ctx.num_precomputed_rounds + 1 + 27 ≤ scenario_ctx.max_rounds
    ∧ (∃ st, round_loop scenario_ctx true 7 27 (block_start scenario_ctx) = some st)
    ∧ ∀ st, round_loop scenario_ctx true 7 27 (block_start scenario_ctx) = some st →
        st.hash_collided.length ≤ 65534
        ∧ ∃ k hv,
            probe st.hash_collided MAX_HASH_VALUE
              (freestyle_hash (round_at st.r st.output32) st.hash st.r) = some hv
            ∧ k ≤ st.hash_collided.length ∧ k < 65536
            ∧ hv = (freestyle_hash (round_at st.r st.output32) st.hash st.r + k) % 65536
            ∧ (∀ j, j < k →
                (freestyle_hash (round_at st.r st.output32) st.hash st.r + j) % 65536
                  ∈ st.hash_collided)
            ∧ hv ∉ st.hash_collided
            ∧ (hv :: st.hash_collided).length ≤ 65535 :=
  ⟨by decide, by decide, by decide, by decide,
    collision_probing_terminates scenario_ctx (by decide) (by decide) (by decide) true 7 27
      (by decide)⟩

/-! ## C17: setup reads the transmitted init hashes only -/

theorem with_counter_with_counter (x : freestyle_ctx) (a b : Nat) :
    with_counter (with_counter x a) b = with_counter x b := rfl

theorem increment_with_counter (x : freestyle_ctx) :
    freestyle_increment_counter x = with_counter x (PLUSONE x.input.w12) := rfl

/-- The inner decrypt loop changes the counter word of the context and the
entries `i .. i+n-1` of the working array only. -/
theorem setup_decrypt_blocks_frame :
    ∀ (n i : Nat) (x : freestyle_ctx) (R : Nat → Nat) (f : Bool) (x1 : freestyle_ctx)
      (S : Nat → Nat), setup_decrypt_blocks n i x R = some (f, x1, S) →
      (∃ w, x1 = with_counter x w) ∧ ∀ j, j < i ∨ i + n ≤ j → S j = R j := by
  intro n
  induction n with
  | zero =>
    intro i x R f x1 S h
    simp only [setup_decrypt_blocks, Option.some.injEq, Prod.mk.injEq] at h
    obtain ⟨_, h2, h3⟩ := h
    subst h2; subst h3
    exact ⟨⟨x.input.w12, rfl⟩, fun _ _ => rfl⟩
  | succ n ih =>
    intro i x R f x1 S h
    rw [setup_decrypt_blocks] at h
    cases hb : freestyle_decrypt_block x none 0 (x.init_hash i) with
    | none => rw [hb] at h; simp at h
    | some b =>
      rw [hb] at h
      simp only at h
      split_ifs at h with hz
      · simp only [Option.some.injEq, Prod.mk.injEq] at h
        obtain ⟨_, h2, h3⟩ := h
        subst h2; subst h3
        exact ⟨⟨x.input.w12, rfl⟩, fun j hj => store_other _ _ _ _ (by omega)⟩
      · obtain ⟨⟨w, hw⟩, hS⟩ := ih _ _ _ _ _ _ h
        refine ⟨⟨w, by rw [hw]; rfl⟩, fun j hj => ?_⟩
        rw [hS j (by omega)]
        exact store_other _ _ _ _ (by omega)

/-- The inner decrypt loop reads the entries `i .. i+n-1` of `init_hash` only. -/
theorem setup_decrypt_blocks_init_hash :
    ∀ (n i : Nat) (x : freestyle_ctx) (ih : Nat → Nat) (R : Nat → Nat),
      (∀ j, i ≤ j → j < i + n → x.init_hash j = ih j) →
      setup_decrypt_blocks n i { x with init_hash := ih } R
        = (setup_decrypt_blocks n i x R).map
            (fun r => (r.1, { r.2.1 with init_hash := ih }, r.2.2)) := by
  intro n
  induction n with
  | zero => intro i x ih R _; rfl
  | succ n hrec =>
    intro i x ih R hag
    rw [setup_decrypt_blocks, setup_decrypt_blocks]
    have hb : freestyle_decrypt_block { x with init_hash := ih } none 0 (ih i)
        = freestyle_decrypt_block x none 0 (x.init_hash i) := by
      rw [hag i (Nat.le_refl _) (by omega)]
      exact @process_block_congr { x with init_hash := ih } x rfl rfl rfl rfl rfl rfl
        none 0 (ih i) false 0
    show (match freestyle_decrypt_block { x with init_hash := ih } none 0 (ih i) with
      | none => none
      | some b =>
        if b.rounds = 0 then some (false, { x with init_hash := ih }, store R i b.rounds)
        else setup_decrypt_blocks n (i + 1)
          (freestyle_increment_counter { x with init_hash := ih }) (store R i b.rounds)) = _
    rw [hb]
    cases freestyle_decrypt_block x none 0 (x.init_hash i) with
    | none => rfl
    | some b =>
      simp only
      split_ifs with hz
      · rfl
      · exact hrec (i + 1) (freestyle_increment_counter x) ih (store R i b.rounds)
          (fun j h1 h2 => hag j (by omega) (by omega))

/-- The decrypt search reads the entries below `num_init_hashes` of `init_hash`
only. -/
theorem decrypt_pepper_scan_init_hash :
    ∀ (n : Nat) (x : freestyle_ctx) (ih : Nat → Nat) (R : Nat → Nat),
      (∀ j, j < x.num_init_hashes → x.init_hash j = ih j) →
      decrypt_pepper_scan n { x with init_hash := ih } R
        = (decrypt_pepper_scan n x R).map
            (fun r => (r.1, { r.2.1 with init_hash := ih }, r.2.2)) := by
  intro n
  induction n with
  | zero => intro x ih R _; rfl
  | succ n hrec =>
    intro x ih R hag
    have h1 := setup_decrypt_blocks_init_hash x.num_init_hashes 0
      { x with input := { x.input with w12 := x.initial_counter } } ih R
      (fun j _ hj => hag j (by omega))
    rw [decrypt_pepper_scan, decrypt_pepper_scan]
    show (match setup_decrypt_blocks x.num_init_hashes 0
        { ({ x with input := { x.input with w12 := x.initial_counter } } : freestyle_ctx)
          with init_hash := ih } R with
      | none => none
      | some (true, x1, R1) => some (true, x1, R1)
      | some (false, x1, R1) =>
        decrypt_pepper_scan n { x1 with input := { x1.input with w3 := PLUSONE x1.input.w3 } }
          R1) = _
    rw [h1]
    cases hs : setup_decrypt_blocks x.num_init_hashes 0
        { x with input := { x.input with w12 := x.initial_counter } } R with
    | none => rfl
    | some r =>
      obtain ⟨f, x1, R1⟩ := r
      obtain ⟨⟨w, hw⟩, _⟩ := setup_decrypt_blocks_frame _ _ _ _ _ _ _ hs
      cases f with
      | true => rfl
      | false =>
        simp only [Option.map_some']
        exact hrec { x1 with input := { x1.input with w3 := PLUSONE x1.input.w3 } } ih R1
          (fun j hj => by rw [hw] at hj ⊢; exact hag j hj)

/-- The function `freestyle_randomsetup_decrypt` reads the entries below
`num_init_hashes` of `init_hash` only. -/
theorem randomsetup_decrypt_init_hash (x : freestyle_ctx) (ih : Nat → Nat)
    (hag : ∀ j, j < x.num_init_hashes → x.init_hash j = ih j) :
    freestyle_randomsetup_decrypt { x with init_hash := ih }
      = (freestyle_randomsetup_decrypt x).map (fun c => { c with init_hash := ih }) := by
  have h1 := decrypt_pepper_scan_init_hash (pepper_candidates x) (setup_start x) ih
    (fun _ => 0) hag
  unfold freestyle_randomsetup_decrypt
  show (match decrypt_pepper_scan (pepper_candidates x)
      { setup_start x with init_hash := ih } (fun _ => 0) with
    | none => none
    | some (found, x5, R) =>
      if (!found && decide (max_pepper x.pepper_bits = 4294967295)) = true then none
      else some (finish_setup { x with init_hash := ih } x5 R)) = _
  rw [h1]
  cases decrypt_pepper_scan (pepper_candidates x) (setup_start x) (fun _ => 0) with
  | none => rfl
  | some r =>
    obtain ⟨f, x5, R⟩ := r
    simp only [Option.map_some']
    split_ifs
    · rfl
    · rfl

theorem decrypt_pepper_scan_total :
    ∀ (n : Nat) (x : freestyle_ctx) (R : Nat → Nat), sane x →
      ∃ r, decrypt_pepper_scan n x R = some r := by
  intro n
  induction n with
  | zero => intro x R _; exact ⟨_, rfl⟩
  | succ n ih =>
    intro x R hs
    obtain ⟨w, S, _, _, e⟩ := decrypt_pepper_scan_succ n x R hs
    rw [e]
    split_ifs
    · exact ⟨_, rfl⟩
    · exact ih (next_candidate x w) S hs

/-- With `pepper_bits < 32` the function `freestyle_randomsetup_decrypt`
returns. -/
theorem randomsetup_decrypt_total (x : freestyle_ctx) (hpb : x.pepper_bits < 32) :
    ∃ xf, freestyle_randomsetup_decrypt x = some xf := by
  obtain ⟨r, hr⟩ := decrypt_pepper_scan_total (pepper_candidates x) (setup_start x)
    (fun _ => 0) (setup_start_sane x)
  obtain ⟨f, x5, R⟩ := r
  have hne := max_pepper_ne x.pepper_bits hpb
  unfold freestyle_randomsetup_decrypt
  rw [hr]
  simp only [hne, decide_False, Bool.and_false, Bool.false_eq_true, if_false]
  exact ⟨_, rfl⟩

/-- C17: if two `init_hash` arrays agree on the entries below
`num_init_hashes`, then `freestyle_init_decrypt_with_pepper`, called with
otherwise identical arguments, produces contexts that differ in the stored
`init_hash` only; in particular `input[0..16]`, `rand[0..8]` and
`initial_counter` are the same.  With valid parameters and `pepper_bits < 32`
both calls return. -/
theorem setup_reads_transmitted_hashes (x : freestyle_ctx) (key : List Nat) (klb : Nat)
    (iv : List Nat) (mn mx npr hi pb nih pepper : Nat) (ih ih1 : Nat → Nat)
    (hag : ∀ j, j < nih → ih j = ih1 j) :
    freestyle_init_decrypt_with_pepper x key klb iv mn mx npr hi pb nih pepper ih1
      = (freestyle_init_decrypt_with_pepper x key klb iv mn mx npr hi pb nih pepper ih).map
          (fun c => { c with init_hash := ih1 })
    ∧ (freestyle_init_decrypt_with_pepper x key klb iv mn mx npr hi pb nih pepper ih1).map
          (fun c => (c.input, c.rand, c.initial_counter))
      = (freestyle_init_decrypt_with_pepper x key klb iv mn mx npr hi pb nih pepper ih).map
          (fun c => (c.input, c.rand, c.initial_counter))
    ∧ (valid_params mn mx npr hi pb nih → pb < 32 →
        ∃ c, freestyle_init_decrypt_with_pepper x key klb iv mn mx npr hi pb nih pepper ih
          = some c) := by
  have hmain : freestyle_init_decrypt_with_pepper x key klb iv mn mx npr hi pb nih pepper ih1
      = (freestyle_init_decrypt_with_pepper x key klb iv mn mx npr hi pb nih pepper ih).map
          (fun c => { c with init_hash := ih1 }) := by
    unfold freestyle_init_decrypt_with_pepper
    cases hc : freestyle_init_common x key klb iv mn mx npr hi pb nih with
    | none => rfl
    | some x1 =>
      obtain ⟨_, _, _, _, _, _, _, _, _, hn⟩ := init_common_some _ _ _ _ _ _ _ _ _ _ _ hc
      exact randomsetup_decrypt_init_hash
        { x1 with pepper := pepper, is_pepper_set := true, init_hash := ih } ih1
        (fun j hj => hag j (by rw [← hn]; exact hj))
  refine ⟨hmain, ?_, ?_⟩
  · rw [hmain, Option.map_map]
    rfl
  · intro hv hpb
    obtain ⟨c, hc, _, _, _, _, hp, _⟩ := init_common_valid x key klb iv mn mx npr hi pb nih hv
    unfold freestyle_init_decrypt_with_pepper
    rw [hc]
    exact randomsetup_decrypt_total _ (by rw [← hp] at hpb; exact hpb)

theorem setup_reads_transmitted_hashes_witness :
    (∀ j, j < 7 → (fun _ : Nat => 0) j = (fun j : Nat => if j < 7 then 0 else 1) j)
    ∧ freestyle_init_decrypt_with_pepper scenario_ctx zero_key 256 zero_iv 8 32 4 4 8 7 0
        (fun j => if j < 7 then 0 else 1)
      = (freestyle_init_decrypt_with_pepper scenario_ctx zero_key 256 zero_iv 8 32 4 4 8 7 0
          (fun _ => 0)).map (fun c => { c with init_hash := fun j => if j < 7 then 0 else 1 })
    ∧ (freestyle_init_decrypt_with_pepper scenario_ctx zero_key 256 zero_iv 8 32 4 4 8 7 0
          (fun j => if j < 7 then 0 else 1)).map
          (fun c => (c.input, c.rand, c.initial_counter))
      = (freestyle_init_decrypt_with_pepper scenario_ctx zero_key 256 zero_iv 8 32 4 4 8 7 0
          (fun _ => 0)).map (fun c => (c.input, c.rand, c.initial_counter))
    ∧ (valid_params 8 32 4 4 8 7 → 8 < 32 →
        ∃ c, freestyle_init_decrypt_with_pepper scenario_ctx zero_key 256 zero_iv 8 32 4 4 8 7
          0 (fun _ => 0) = some c) :=
  ⟨fun _ hj => (if_pos hj).symm,
    setup_reads_transmitted_hashes scenario_ctx zero_key 256 zero_iv 8 32 4 4 8 7 0
      (fun _ => 0) (fun j => if j < 7 then 0 else 1) (fun _ hj => (if_pos hj).symm)⟩

/-! ## C18: perturbation words that are always zero -/

/-- The inner encrypt loop keeps `num_init_hashes` and changes the entries
`i .. i+n-1` of the working array only. -/
theorem setup_encrypt_blocks_rounds_frame (us : Nat → Nat) :
    ∀ (n i : Nat) (x : freestyle_ctx) (R : Nat → Nat) (x1 : freestyle_ctx) (R1 : Nat → Nat),
      setup_encrypt_blocks us n i x R = some (x1, R1) →
      x1.num_init_hashes = x.num_init_hashes ∧ x1.pepper = x.pepper
        ∧ ∀ j, j < i ∨ i + n ≤ j → R1 j = R j := by
  intro n
  induction n with
  | zero =>
    intro i x R x1 R1 h
    simp only [setup_encrypt_blocks, Option.some.injEq, Prod.mk.injEq] at h
    obtain ⟨h1, h2⟩ := h
    subst h1; subst h2
    exact ⟨rfl, rfl, fun _ _ => rfl⟩
  | succ n ih =>
    intro i x R x1 R1 h
    rw [setup_encrypt_blocks] at h
    cases hb : freestyle_encrypt_block x none 0 (x.init_hash i) (us i) with
    | none => rw [hb] at h; simp at h
    | some b =>
      rw [hb] at h
      simp only at h
      obtain ⟨h1, h2, h3⟩ := ih _ _ _ _ _ h
      refine ⟨h1, h2, fun j hj => ?_⟩
      rw [h3 j (by omega)]
      exact store_other _ _ _ _ (by omega)

theorem encrypt_pepper_scan_zero :
    ∀ (n : Nat) (x : freestyle_ctx) (R CR : Nat → Nat) (x6 : freestyle_ctx) (R6 : Nat → Nat),
      encrypt_pepper_scan n x R CR = some (x6, R6) →
      (∀ j, x.num_init_hashes ≤ j → R j = 0) → (∀ j, x.num_init_hashes ≤ j → CR j = 0) →
      ∀ j, x.num_init_hashes ≤ j → R6 j = 0 := by
  intro n
  induction n with
  | zero =>
    intro x R CR x6 R6 h hR _
    simp only [encrypt_pepper_scan, Option.some.injEq, Prod.mk.injEq] at h
    obtain ⟨_, h2⟩ := h
    subst h2
    exact hR
  | succ n ih =>
    intro x R CR x6 R6 h hR hCR
    rw [encrypt_pepper_scan] at h
    cases hs : setup_decrypt_blocks x.num_init_hashes 0
        { x with input := { x.input with w12 := x.initial_counter } } CR with
    | none => rw [hs] at h; simp at h
    | some r =>
      obtain ⟨f, x1, CR1⟩ := r
      obtain ⟨⟨w, hw⟩, hfr⟩ := setup_decrypt_blocks_frame _ _ _ _ _ _ _ hs
      have hCR1 : ∀ j, x.num_init_hashes ≤ j → CR1 j = 0 := by
        intro j hj
        rw [hfr j (by omega)]
        exact hCR j hj
      rw [hs] at h
      cases f with
      | true =>
        simp only [Option.some.injEq, Prod.mk.injEq] at h
        obtain ⟨_, h2⟩ := h
        subst h2
        exact hCR1
      | false =>
        simp only at h
        have hn : ({ x1 with input := { x1.input with w3 := PLUSONE x1.input.w3 } }
            : freestyle_ctx).num_init_hashes = x.num_init_hashes := by rw [hw]; rfl
        intro j hj
        exact ih _ _ _ _ _ h (fun j hj => hR j (by rw [hn] at hj; exact hj))
          (fun j hj => hCR1 j (by rw [hn] at hj; exact hj)) j (by rw [hn]; exact hj)

theorem decrypt_pepper_scan_zero :
    ∀ (n : Nat) (x : freestyle_ctx) (R : Nat → Nat) (f : Bool) (x5 : freestyle_ctx)
      (R5 : Nat → Nat), decrypt_pepper_scan n x R = some (f, x5, R5) →
      (∀ j, x.num_init_hashes ≤ j → R j = 0) →
      ∀ j, x.num_init_hashes ≤ j → R5 j = 0 := by
  intro n
  induction n with
  | zero =>
    intro x R f x5 R5 h hR
    simp only [decrypt_pepper_scan, Option.some.injEq, Prod.mk.injEq] at h
    obtain ⟨_, _, h2⟩ := h
    subst h2
    exact hR
  | succ n ih =>
    intro x R f x5 R5 h hR
    rw [decrypt_pepper_scan] at h
    cases hs : setup_decrypt_blocks x.num_init_hashes 0
        { x with input := { x.input with w12 := x.initial_counter } } R with
    | none => rw [hs] at h; simp at h
    | some r =>
      obtain ⟨f1, x1, R1⟩ := r
      obtain ⟨⟨w, hw⟩, hfr⟩ := setup_decrypt_blocks_frame _ _ _ _ _ _ _ hs
      have hR1 : ∀ j, x.num_init_hashes ≤ j → R1 j = 0 := by
        intro j hj
        rw [hfr j (by omega)]
        exact hR j hj
      rw [hs] at h
      cases f1 with
      | true =>
        simp only [Option.some.injEq, Prod.mk.injEq] at h
        obtain ⟨_, _, h2⟩ := h
        subst h2
        exact hR1
      | false =>
        simp only at h
        have hn : ({ x1 with input := { x1.input with w3 := PLUSONE x1.input.w3 } }
            : freestyle_ctx).num_init_hashes = x.num_init_hashes := by rw [hw]; rfl
        intro j hj
        exact ih _ _ _ _ _ h (fun j hj => hR1 j (by rw [hn] at hj; exact hj)) j
          (by rw [hn]; exact hj)

theorem derive_rand_zero (R : Nat → Nat) (i : Nat) (h : ∀ k, k < 7 → R (7 * i + k) = 0) :
    derive_rand R i = 0 := by
  unfold derive_rand
  simp only [h 0 (by omega), h 1 (by omega), h 2 (by omega), h 3 (by omega), h 4 (by omega),
    h 5 (by omega), h 6 (by omega)]
  decide

/-- The words of `rand[]` that are derived from entries of `R` at or above
`nih` only are zero when those entries are zero. -/
theorem derive_rands_zero_above (R : Nat → Nat) (nih : Nat) (hR : ∀ j, nih ≤ j → R j = 0)
    (i : Nat) (hi : i < 8) (hn : nih ≤ 7 * i) : (derive_rands R).getD i 0 = 0 := by
  have hz : derive_rand R i = 0 := derive_rand_zero R i (fun k _ => hR _ (by omega))
  unfold derive_rands
  rcases i with _ | _ | _ | _ | _ | _ | _ | _ | i
  all_goals first
    | exact hz
    | omega

/-- The finalisation of setup when `rand[1..7]` are zero: the seven XORs change
nothing, and the state is pre-computed from the searched state with the counter
reset. -/
theorem finish_setup_zero_rand (saved x : freestyle_ctx) (R : Nat → Nat)
    (h : ∀ i, 1 ≤ i → i < 8 → (derive_rands R).getD i 0 = 0) :
    (finish_setup saved x R).input
      = rounds_from saved.num_precomputed_rounds 1
          { x.input with w12 := x.initial_counter }
    ∧ (finish_setup saved x R).rand = [derive_rand R 0, 0, 0, 0, 0, 0, 0, 0] := by
  have h1 := h 1 (by omega) (by omega)
  have h2 := h 2 (by omega) (by omega)
  have h3 := h 3 (by omega) (by omega)
  have h4 := h 4 (by omega) (by omega)
  have h5 := h 5 (by omega) (by omega)
  have h6 := h 6 (by omega) (by omega)
  have h7 := h 7 (by omega) (by omega)
  have hx : ∀ a, XOR a 0 = a := fun a => Nat.xor_zero a
  constructor
  · unfold finish_setup freestyle_precompute_rounds
    simp only [h1, h2, h3, h4, h5, h6, h7, hx]
  · unfold derive_rands at h1 h2 h3 h4 h5 h6 h7
    simp only [List.getD_cons_succ, List.getD_cons_zero] at h1 h2 h3 h4 h5 h6 h7
    show derive_rands R = _
    unfold derive_rands
    rw [h1, h2, h3, h4, h5, h6, h7]

theorem encrypt_pepper_scan_total :
    ∀ (n : Nat) (x : freestyle_ctx) (R CR : Nat → Nat), sane x →
      ∃ r, encrypt_pepper_scan n x R CR = some r := by
  intro n
  induction n with
  | zero => intro x R CR _; exact ⟨_, rfl⟩
  | succ n ih =>
    intro x R CR hs
    obtain ⟨w, S, _, _, e⟩ := encrypt_pepper_scan_succ n x R CR hs
    rw [e]
    split_ifs
    · exact ⟨_, rfl⟩
    · exact ih (next_candidate x w) R S hs

theorem randomsetup_encrypt_total_aux (saved x1 : freestyle_ctx) (us : Nat → Nat)
    (hus : ∀ k, us k < 25) :
    ∃ xe, (match setup_encrypt_blocks us x1.num_init_hashes 0 (setup_start x1) (fun _ => 0) with
      | none => none
      | some (x5, R) =>
        if x5.is_pepper_set then some (finish_setup saved x5 R)
        else
          match encrypt_pepper_scan x5.pepper
              { x5 with input := { x5.input with w3 := MINUS x5.input.w3 x5.pepper } } R
              (fun _ => 0) with
          | none => none
          | some (x6, R6) => some (finish_setup saved x6 R6)) = some xe := by
  obtain ⟨w, ih, R1, h1, _⟩ := setup_encrypt_blocks_spec us hus x1.num_init_hashes 0
    (setup_start x1) (fun _ => 0) (setup_start_sane _)
  cases hs : setup_encrypt_blocks us x1.num_init_hashes 0 (setup_start x1) (fun _ => 0) with
  | none => rw [hs] at h1; simp at h1
  | some r =>
    obtain ⟨x5, R⟩ := r
    rw [hs] at h1
    simp only [Option.some.injEq, Prod.mk.injEq] at h1
    obtain ⟨h5, _⟩ := h1
    simp only
    split_ifs
    · exact ⟨_, rfl⟩
    · have hsane : sane ({ x5 with input := { x5.input with w3 := MINUS x5.input.w3 x5.pepper } }
          : freestyle_ctx) := by
        rw [h5]; exact ⟨rfl, rfl, rfl, rfl⟩
      obtain ⟨r, hr⟩ := encrypt_pepper_scan_total x5.pepper _ R (fun _ => 0) hsane
      rw [hr]
      exact ⟨_, rfl⟩

/-- With oracle values in the range of the setup draws the function
`freestyle_randomsetup_encrypt` returns. -/
theorem randomsetup_encrypt_total (x : freestyle_ctx) (pepper_draw : Nat) (us : Nat → Nat)
    (hus : ∀ k, us k < 25) : ∃ xe, freestyle_randomsetup_encrypt x pepper_draw us = some xe :=
  randomsetup_encrypt_total_aux x _ us hus

theorem finish_setup_zero_words (saved x5 : freestyle_ctx) (R : Nat → Nat) (nih : Nat)
    (hR : ∀ j, nih ≤ j → R j = 0) :
    (∀ i, i < 8 → nih ≤ 7 * i → (finish_setup saved x5 R).rand.getD i 0 = 0)
    ∧ (nih ≤ 7 →
        (finish_setup saved x5 R).rand = [derive_rand R 0, 0, 0, 0, 0, 0, 0, 0]
        ∧ (finish_setup saved x5 R).input
          = rounds_from saved.num_precomputed_rounds 1
              { x5.input with w12 := x5.initial_counter }) := by
  constructor
  · intro i hi hn
    exact derive_rands_zero_above R nih hR i hi hn
  · intro hn
    obtain ⟨h1, h2⟩ := finish_setup_zero_rand saved x5 R
      (fun i h1 h8 => derive_rands_zero_above R nih hR i h8 (by omega))
    exact ⟨h2, h1⟩

theorem randomsetup_encrypt_rounds_aux (saved x1 : freestyle_ctx) (us : Nat → Nat)
    (xe : freestyle_ctx)
    (h : (match setup_encrypt_blocks us x1.num_init_hashes 0 (setup_start x1) (fun _ => 0) with
      | none => none
      | some (x5, R) =>
        if x5.is_pepper_set then some (finish_setup saved x5 R)
        else
          match encrypt_pepper_scan x5.pepper
              { x5 with input := { x5.input with w3 := MINUS x5.input.w3 x5.pepper } } R
              (fun _ => 0) with
          | none => none
          | some (x6, R6) => some (finish_setup saved x6 R6)) = some xe) :
    ∃ x5 R, xe = finish_setup saved x5 R ∧ ∀ j, x1.num_init_hashes ≤ j → R j = 0 := by
  cases hs : setup_encrypt_blocks us x1.num_init_hashes 0 (setup_start x1) (fun _ => 0) with
  | none => rw [hs] at h; simp at h
  | some r =>
    obtain ⟨x5, R⟩ := r
    obtain ⟨hn, _, hfr⟩ := setup_encrypt_blocks_rounds_frame us _ _ _ _ _ _ hs
    have hn1 : x5.num_init_hashes = x1.num_init_hashes := hn
    have hR : ∀ j, x1.num_init_hashes ≤ j → R j = 0 := fun j hj => hfr j (by omega)
    rw [hs] at h
    simp only at h
    split_ifs at h
    · exact ⟨x5, R, (Option.some.inj h).symm, hR⟩
    · cases hp : encrypt_pepper_scan x5.pepper
          { x5 with input := { x5.input with w3 := MINUS x5.input.w3 x5.pepper } } R
          (fun _ => 0) with
      | none => rw [hp] at h; simp at h
      | some r6 =>
        obtain ⟨x6, R6⟩ := r6
        rw [hp] at h
        refine ⟨x6, R6, (Option.some.inj h).symm, ?_⟩
        intro j hj
        exact encrypt_pepper_scan_zero _ _ _ _ _ _ hp
          (fun j hj => hR j (by rw [← hn1]; exact hj)) (fun _ _ => rfl) j
          (by rw [← hn1] at hj; exact hj)

/-- C18: in both setup functions the words `rand[i]` with
`7*i >= num_init_hashes` are zero, because the entries of `R` at or above
`num_init_hashes` are never written.  When `num_init_hashes <= 7` (the least
admitted value is 7) the words `rand[1..7]` are zero, the seven finalisation
XORs change nothing, and the final state is pre-computed from the state the
searches left, with the counter reset; only `rand[0]` can be non-zero.  The
encrypt setup returns for oracle values in range, the decrypt setup for
`pepper_bits < 32`. -/
theorem zero_perturbation_words (x : freestyle_ctx) (pepper_draw : Nat) (us : Nat → Nat) :
    (∀ xe, freestyle_randomsetup_encrypt x pepper_draw us = some xe →
      ∃ x5 R, xe = finish_setup x x5 R ∧ (∀ j, x.num_init_hashes ≤ j → R j = 0)
        ∧ (∀ i, i < 8 → x.num_init_hashes ≤ 7 * i → xe.rand.getD i 0 = 0)
        ∧ (x.num_init_hashes ≤ 7 →
            xe.rand = [derive_rand R 0, 0, 0, 0, 0, 0, 0, 0]
            ∧ xe.input = rounds_from x.num_precomputed_rounds 1
                { x5.input with w12 := x5.initial_counter }))
    ∧ (∀ xd, freestyle_randomsetup_decrypt x = some xd →
      ∃ x5 R, xd = finish_setup x x5 R ∧ (∀ j, x.num_init_hashes ≤ j → R j = 0)
        ∧ (∀ i, i < 8 → x.num_init_hashes ≤ 7 * i → xd.rand.getD i 0 = 0)
        ∧ (x.num_init_hashes ≤ 7 →
            xd.rand = [derive_rand R 0, 0, 0, 0, 0, 0, 0, 0]
            ∧ xd.input = rounds_from x.num_precomputed_rounds 1
                { x5.input with w12 := x5.initial_counter }))
    ∧ ((∀ k, us k < 25) → ∃ xe, freestyle_randomsetup_encrypt x pepper_draw us = some xe)
    ∧ (x.pepper_bits < 32 → ∃ xd, freestyle_randomsetup_decrypt x = some xd) := by
  refine ⟨?_, ?_, randomsetup_encrypt_total x pepper_draw us, randomsetup_decrypt_total x⟩
  · intro xe h
    obtain ⟨x5, R, hxe, hR⟩ := randomsetup_encrypt_rounds_aux x _ us xe h
    have hn : (if x.is_pepper_set = true then x
        else { x with pepper := pepper_draw }).num_init_hashes = x.num_init_hashes := by
      split_ifs <;> rfl
    have hR1 : ∀ j, x.num_init_hashes ≤ j → R j = 0 :=
      fun j hj => hR j (by rw [hn]; exact hj)
    obtain ⟨h1, h2⟩ := finish_setup_zero_words x x5 R x.num_init_hashes hR1
    subst hxe
    exact ⟨x5, R, rfl, hR1, h1, h2⟩
  · intro xd h
    unfold freestyle_randomsetup_decrypt at h
    cases hs : decrypt_pepper_scan (pepper_candidates x) (setup_start x) (fun _ => 0) with
    | none => rw [hs] at h; simp at h
    | some r =>
      obtain ⟨f, x5, R⟩ := r
      rw [hs] at h
      simp only at h
      split_ifs at h
      have hR1 : ∀ j, x.num_init_hashes ≤ j → R j = 0 :=
        decrypt_pepper_scan_zero (pepper_candidates x) (setup_start x) (fun _ => 0) f x5 R hs
          (fun _ _ => rfl)
      obtain ⟨h1, h2⟩ := finish_setup_zero_words x x5 R x.num_init_hashes hR1
      have hxd := (Option.some.inj h).symm
      subst hxd
      exact ⟨x5, R, rfl, hR1, h1, h2⟩

/-! ## C19: how many oracle values lead to a round count -/

/-- The oracle values that make `freestyle_random_round_number` return `m`, when
nothing wraps: the `hash_interval` values from `m - min_rounds` on. -/
theorem random_round_number_eq_iff (x : freestyle_ctx) (hhi : 1 ≤ x.hash_interval)
    (hbound : x.max_rounds + x.hash_interval ≤ 4294967296) (m : Nat)
    (hm1 : x.min_rounds ≤ m) (hm2 : m ≤ x.max_rounds) (hm3 : m % x.hash_interval = 0)
    (u : Nat) (hu : u < x.max_rounds - x.min_rounds + x.hash_interval) :
    freestyle_random_round_number x u = some m
      ↔ m - x.min_rounds ≤ u ∧ u < m - x.min_rounds + x.hash_interval := by
  have hplus : PLUS x.min_rounds u = x.min_rounds + u := Nat.mod_eq_of_lt (by omega)
  have hle : x.hash_interval * ((x.min_rounds + u) / x.hash_interval) ≤ x.min_rounds + u :=
    Nat.mul_div_le _ _
  have hlt : x.min_rounds + u
      < x.hash_interval * ((x.min_rounds + u) / x.hash_interval) + x.hash_interval := by
    have := @Nat.lt_div_mul_add (x.min_rounds + u) x.hash_interval (by omega)
    rw [Nat.mul_comm] at this
    exact this
  have hmod : x.hash_interval * ((x.min_rounds + u) / x.hash_interval) % 4294967296
      = x.hash_interval * ((x.min_rounds + u) / x.hash_interval) :=
    Nat.mod_eq_of_lt (by omega)
  obtain ⟨k, hk⟩ := Nat.dvd_of_mod_eq_zero hm3
  unfold freestyle_random_round_number
  simp only [hplus, hmod]
  rw [if_neg (by omega)]
  constructor
  · intro h
    split_ifs at h with hc
    have h1 := Option.some.inj h
    omega
  · rintro ⟨h1, h2⟩
    have hq : (x.min_rounds + u) / x.hash_interval = k := by
      apply Nat.div_eq_of_lt_le
      · rw [Nat.mul_comm]; omega
      · rw [Nat.succ_mul, Nat.mul_comm]; omega
    rw [hq, ← hk, if_pos ⟨hm1, hm2⟩]

theorem random_round_number_value (x : freestyle_ctx) (u R : Nat)
    (h : freestyle_random_round_number x u = some R) :
    R = x.hash_interval * (PLUS x.min_rounds u / x.hash_interval) := by
  unfold freestyle_random_round_number at h
  simp only at h
  split_ifs at h with h0 h1
  have hR := (Option.some.inj h).symm
  have hlt : PLUS x.min_rounds u < 4294967296 := Nat.mod_lt _ (by norm_num)
  have hle : x.hash_interval * (PLUS x.min_rounds u / x.hash_interval)
      ≤ PLUS x.min_rounds u := Nat.mul_div_le _ _
  rw [hR]
  exact Nat.mod_eq_of_lt (by omega)

/-- C19 (counterexample): on `wide_ctx` (`min_rounds = 3`,
`max_rounds = 2^32 - 1`, `hash_interval = 3`, both bounds multiples of 3) the
round count `2^32 - 1` is returned for one of the `2^32 - 1` oracle values only,
not for three: the sum `min_rounds + u` wraps for the other two, and the
assertion `R >= min_rounds` then fails. -/
theorem uniform_round_selection_counterexample :
    wide_ctx.min_rounds ≤ wide_ctx.max_rounds
    ∧ wide_ctx.min_rounds % wide_ctx.hash_interval = 0
    ∧ wide_ctx.max_rounds % wide_ctx.hash_interval = 0
    ∧ 1 ≤ wide_ctx.hash_interval
    ∧ wide_ctx.max_rounds - wide_ctx.min_rounds + wide_ctx.hash_interval = 4294967295
    ∧ round_draw_bound wide_ctx = 4294967295
    ∧ ((Finset.range 4294967295).filter
        (fun u => freestyle_random_round_number wide_ctx u = some 4294967295)).card = 1
    ∧ freestyle_random_round_number wide_ctx 4294967292 = some 4294967295
    ∧ freestyle_random_round_number wide_ctx 4294967293 = none
    ∧ freestyle_random_round_number wide_ctx 4294967294 = none := by
  refine ⟨by decide, by decide, by decide, by decide, by decide, by decide, ?_, by decide,
    by decide, by decide⟩
  have hset : (Finset.range 4294967295).filter
      (fun u => freestyle_random_round_number wide_ctx u = some 4294967295)
      = {4294967292} := by
    ext u
    simp only [Finset.mem_filter, Finset.mem_range, Finset.mem_singleton]
    constructor
    · rintro ⟨h1, h2⟩
      have h5 := random_round_number_value wide_ctx u _ h2
      simp only [wide_ctx, PLUS] at h5
      have hv : (3 + u) % 4294967296 < 4294967296 := Nat.mod_lt _ (by norm_num)
      have hu : (3 + u) % 4294967296 = 3 + u ∨ (3 + u) % 4294967296 + 4294967296 = 3 + u := by
        omega
      generalize (3 + u) % 4294967296 = v at h5 hv hu
      have hq1 : 3 * (v / 3) ≤ v := Nat.mul_div_le _ _
      have hq2 : v < 3 * (v / 3) + 3 := by omega
      generalize v / 3 = q at h5 hq1 hq2
      omega
    · intro h
      subst h
      exact ⟨by norm_num, by decide⟩
  rw [hset]
  exact Finset.card_singleton _

/-- C19 (amended): when `min_rounds >= 1` and `max_rounds + hash_interval <= 2^32`,
so that neither the argument handed to the oracle nor the sum `min_rounds + u`
wraps, the oracle is asked for a value below
`max_rounds - min_rounds + hash_interval`, and every multiple `m` of
`hash_interval` between `min_rounds` and `max_rounds` is returned for exactly
`hash_interval` of these values, namely those from `m - min_rounds` on; the
values are `hash_interval` times `1 + (max_rounds - min_rounds) / hash_interval`
in number, and every one of them leads to an admissible round count. -/
theorem uniform_round_selection (x : freestyle_ctx) (hhi : 1 ≤ x.hash_interval)
    (hmin1 : 1 ≤ x.min_rounds)
    (hle : x.min_rounds ≤ x.max_rounds) (hmin : x.min_rounds % x.hash_interval = 0)
    (hmax : x.max_rounds % x.hash_interval = 0)
    (hbound : x.max_rounds + x.hash_interval ≤ 4294967296) (m : Nat)
    (hm1 : x.min_rounds ≤ m) (hm2 : m ≤ x.max_rounds) (hm3 : m % x.hash_interval = 0) :
    round_draw_bound x = x.max_rounds - x.min_rounds + x.hash_interval
    ∧ ((Finset.range (round_draw_bound x)).filter
        (fun u => freestyle_random_round_number x u = some m)).card = x.hash_interval
    ∧ (∀ u, u < round_draw_bound x →
        (freestyle_random_round_number x u = some m
          ↔ m - x.min_rounds ≤ u ∧ u < m - x.min_rounds + x.hash_interval))
    ∧ x.hash_interval * (1 + (x.max_rounds - x.min_rounds) / x.hash_interval)
        = round_draw_bound x
    ∧ (∀ u, u < round_draw_bound x →
        ∃ R, freestyle_random_round_number x u = some R ∧ x.min_rounds ≤ R
          ∧ R ≤ x.max_rounds ∧ R % x.hash_interval = 0) := by
  have hb : round_draw_bound x = x.max_rounds - x.min_rounds + x.hash_interval := by
    unfold round_draw_bound
    rw [Nat.mod_eq_of_lt (by omega : x.min_rounds < 4294967296)]
    have e : x.max_rounds + (4294967296 - x.min_rounds) + x.hash_interval
        = (x.max_rounds - x.min_rounds + x.hash_interval) + 4294967296 := by omega
    rw [e, Nat.add_mod_right]
    exact Nat.mod_eq_of_lt (by omega)
  rw [hb]
  have hiff := random_round_number_eq_iff x hhi hbound m hm1 hm2 hm3
  refine ⟨rfl, ?_, hiff, ?_,
    fun u hu => random_round_number_spec x u hle hmin hmax hhi hbound hu⟩
  · have hset : (Finset.range (x.max_rounds - x.min_rounds + x.hash_interval)).filter
        (fun u => freestyle_random_round_number x u = some m)
        = Finset.Ico (m - x.min_rounds) (m - x.min_rounds + x.hash_interval) := by
      ext u
      simp only [Finset.mem_filter, Finset.mem_range, Finset.mem_Ico]
      constructor
      · rintro ⟨h1, h2⟩
        exact (hiff u h1).mp h2
      · rintro ⟨h1, h2⟩
        have hu : u < x.max_rounds - x.min_rounds + x.hash_interval := by omega
        exact ⟨hu, (hiff u hu).mpr ⟨h1, h2⟩⟩
    rw [hset, Nat.card_Ico]
    omega
  · have hd : (x.max_rounds - x.min_rounds) % x.hash_interval = 0 := by
      obtain ⟨a, ha⟩ := Nat.dvd_of_mod_eq_zero hmin
      obtain ⟨b, hb⟩ := Nat.dvd_of_mod_eq_zero hmax
      rw [ha, hb, ← Nat.mul_sub]
      exact Nat.mul_mod_right _ _
    have h1 := Nat.div_add_mod (x.max_rounds - x.min_rounds) x.hash_interval
    rw [hd] at h1
    rw [Nat.mul_add, Nat.mul_one]
    omega

theorem uniform_round_selection_witness :
    1 ≤ scenario_ctx.hash_interval ∧ 1 ≤ scenario_ctx.min_rounds
    ∧ scenario_ctx.min_rounds ≤ scenario_ctx.max_rounds
    ∧ scenario_ctx.min_rounds % scenario_ctx.hash_interval = 0
    ∧ scenario_ctx.max_rounds % scenario_ctx.hash_interval = 0
    ∧ scenario_ctx.max_rounds + scenario_ctx.hash_interval ≤ 4294967296
    ∧ scenario_ctx.min_rounds ≤ 12 ∧ 12 ≤ scenario_ctx.max_rounds
    ∧ 12 % scenario_ctx.hash_interval = 0
    ∧ round_draw_bound scenario_ctx
        = scenario_ctx.max_rounds - scenario_ctx.min_rounds + scenario_ctx.hash_interval
    ∧ ((Finset.range (round_draw_bound scenario_ctx)).filter
        (fun u => freestyle_random_round_number scenario_ctx u = some 12)).card
        = scenario_ctx.hash_interval
    ∧ (∀ u, u < round_draw_bound scenario_ctx →
        (freestyle_random_round_number scenario_ctx u = some 12
          ↔ 12 - scenario_ctx.min_rounds ≤ u
            ∧ u < 12 - scenario_ctx.min_rounds + scenario_ctx.hash_interval))
    ∧ scenario_ctx.hash_interval
          * (1 + (scenario_ctx.max_rounds - scenario_ctx.min_rounds)
            / scenario_ctx.hash_interval)
        = round_draw_bound scenario_ctx
    ∧ (∀ u, u < round_draw_bound scenario_ctx →
        ∃ R, freestyle_random_round_number scenario_ctx u = some R
          ∧ scenario_ctx.min_rounds ≤ R ∧ R ≤ scenario_ctx.max_rounds
          ∧ R % scenario_ctx.hash_interval = 0) :=
  ⟨by decide, by decide, by decide, by decide, by decide, by decide, by decide, by decide,
    by decide,
    uniform_round_selection scenario_ctx (by decide) (by decide) (by decide) (by decide)
      (by decide) (by decide) 12 (by decide) (by decide) (by decide)⟩

/-! ## C20: a starting pepper above `max_pepper` -/

theorem pepper_candidates_zero (x : freestyle_ctx) (hpb : x.pepper_bits < 32)
    (hp : 2 ^ x.pepper_bits - 1 < x.pepper) : pepper_candidates x = 0 := by
  unfold pepper_candidates
  rw [if_neg (max_pepper_ne x.pepper_bits hpb), max_pepper_eq x.pepper_bits (by omega)]
  omega

/-- C20: for valid parameters with `pepper_bits < 32` and a starting pepper above
`2^pepper_bits - 1`, the loop test of the decrypt search fails at once: no
candidate is tried and no setup block is run, whatever `init_hash[]` holds, and
`freestyle_init_decrypt_with_pepper` returns with the finalisation of the
untouched all-zero `R`, so `rand[0..8]` are all zero. -/
theorem out_of_range_starting_pepper (x : freestyle_ctx) (key : List Nat) (klb : Nat)
    (iv : List Nat) (mn mx npr hi pb nih pepper : Nat) (ih : Nat → Nat)
    (hv : valid_params mn mx npr hi pb nih) (hpb : pb < 32) (hp : 2 ^ pb - 1 < pepper) :
    ∃ x1 xs xd, freestyle_init_common x key klb iv mn mx npr hi pb nih = some x1
      ∧ xs = { x1 with pepper := pepper, is_pepper_set := true, init_hash := ih }
      ∧ pepper_candidates xs = 0
      ∧ decrypt_pepper_scan (pepper_candidates xs) (setup_start xs) (fun _ => 0)
          = some (false, setup_start xs, fun _ => 0)
      ∧ freestyle_init_decrypt_with_pepper x key klb iv mn mx npr hi pb nih pepper ih = some xd
      ∧ xd = finish_setup xs (setup_start xs) (fun _ => 0)
      ∧ xd.rand = [0, 0, 0, 0, 0, 0, 0, 0] := by
  obtain ⟨x1, hc, _, _, _, _, hpb1, _⟩ := init_common_valid x key klb iv mn mx npr hi pb nih hv
  have hcand : pepper_candidates
      { x1 with pepper := pepper, is_pepper_set := true, init_hash := ih } = 0 :=
    pepper_candidates_zero _ (by show x1.pepper_bits < 32; omega)
      (by show 2 ^ x1.pepper_bits - 1 < pepper; rw [hpb1]; exact hp)
  have hne : max_pepper x1.pepper_bits ≠ 4294967295 := max_pepper_ne _ (by omega)
  refine ⟨x1, _, _, hc, rfl, hcand, by rw [hcand]; rfl, ?_, rfl, derive_rands_zero⟩
  unfold freestyle_init_decrypt_with_pepper
  rw [hc]
  simp only
  unfold freestyle_randomsetup_decrypt
  rw [hcand]
  simp only [decrypt_pepper_scan, hne, decide_False, Bool.and_false, Bool.false_eq_true,
    if_false]

theorem out_of_range_starting_pepper_witness :
    valid_params 8 32 4 4 8 7 ∧ 8 < 32 ∧ 2 ^ 8 - 1 < 256
    ∧ ∃ x1 xs xd, freestyle_init_common scenario_ctx zero_key 256 zero_iv 8 32 4 4 8 7 = some x1
      ∧ xs = { x1 with pepper := 256, is_pepper_set := true, init_hash := fun _ => 0 }
      ∧ pepper_candidates xs = 0
      ∧ decrypt_pepper_scan (pepper_candidates xs) (setup_start xs) (fun _ => 0)
          = some (false, setup_start xs, fun _ => 0)
      ∧ freestyle_init_decrypt_with_pepper scenario_ctx zero_key 256 zero_iv 8 32 4 4 8 7 256
          (fun _ => 0) = some xd
      ∧ xd = finish_setup xs (setup_start xs) (fun _ => 0)
      ∧ xd.rand = [0, 0, 0, 0, 0, 0, 0, 0] :=
  ⟨by decide, by decide, by decide,
    out_of_range_starting_pepper scenario_ctx zero_key 256 zero_iv 8 32 4 4 8 7 256
      (fun _ => 0) (by decide) (by decide) (by decide)⟩

end Freestyle
